import Mathlib

/-!
# Verification development for three components of the repository

* `ProtoStreamObjectSource` (protobuf, `protostream_objectsource.h`): a
  schema-reflective decoder of the protobuf wire format;
* `HMAC` (OpenSSL, `crypto/hmac/hmac.c`): the keyed hash over a message
  digest;
* `SnapshotList` (RocksDB, `db/snapshot.h`): the doubly-linked list of the
  snapshots of a database.

The definitions of the three components come first, each in a namespace of
its own; the theorems about them follow in the same order.

## ProtoStreamObjectSource

The header under `src/` declares the class, its fields and its two inline
setters; the bodies of the decoding methods live in a `.cc` file that is not
part of the sources, so the decoding methods are modelled from the
natural-language specification (each such definition says so in its doc
comment).

Conventions of the embedding:
* the byte cursor `stream_` is the list of the bytes still to be read;
* the sink (`ObjectWriter`) is the list of events it received, in order;
* `util::Status` / `util::StatusOr<T>` is `Except DecodeError _`;
* the recursive methods take a fuel argument that bounds the number of nested
  calls; running out of it is reported as `DecodeError.outOfFuel`, which the
  top-level decode never returns (theorem `NamedWriteTo_fuel`).
-/

namespace ProtoStream

/-! ## Data model -/

/-- The remaining bytes of the input, first byte first. -/
abbrev Stream := List Nat

/-- Modelled from the spec: the field kinds of `FieldSchema.kind` (§3). -/
inductive Kind where
  | INT32 | INT64 | UINT32 | UINT64 | SINT32 | SINT64
  | FIXED32 | FIXED64 | SFIXED32 | SFIXED64
  | FLOAT | DOUBLE | BOOL | STRING | BYTES | ENUM | MESSAGE | GROUP
  deriving DecidableEq, Repr

/-- Modelled from the spec: `FieldSchema.cardinality` (§3). -/
inductive Cardinality where
  | OPTIONAL | REPEATED
  deriving DecidableEq, Repr

/-- Modelled from the spec: `FieldSchema` (§3), the descriptor of one field.
`name` is the name under which the field is emitted. -/
structure FieldSchema where
  number : Nat
  name : String
  kind : Kind
  cardinality : Cardinality
  type_url : Option String
  packed : Bool
  deriving DecidableEq, Repr

/-- Modelled from the spec: `TypeSchema` (§3), a name and its fields in
declaration order. -/
structure TypeSchema where
  name : String
  fields : List FieldSchema
  deriving DecidableEq, Repr

/-- Modelled from the spec: the error kinds of §7.  `invalidUtf8` is the read
failure of a STRING field that is not UTF-8 (§4.4); `outOfFuel` belongs to the
embedding only. -/
inductive DecodeError where
  | typeResolutionFailure (name : String)
  | wireTypeMismatch
  | malformedVarint
  | truncatedStream
  | recursionLimitExceeded (typeName fieldName : String)
  | invalidWellKnownPayload
  | invalidUtf8
  | outOfFuel
  deriving DecidableEq, Repr

/-- Modelled from the spec: the logical scalar produced by the field value
codec (§4.3).  FLOAT and DOUBLE values are carried as their IEEE-754 bit
patterns. -/
inductive LogicalValue where
  | int (v : Int)
  | uint (v : Nat)
  | float (bits : Nat)
  | double (bits : Nat)
  | bool (b : Bool)
  | str (s : String)
  | bytes (b : List Nat)
  deriving DecidableEq, Repr

/-- Modelled from the spec: the operations of the sink (§6) as an ordered
event stream.  A list of the sink is the run between `startList` and
`endList`; a map is emitted as one object.  `unknownField` is the capture of a
field absent from the schema, keyed by its number. -/
inductive Event where
  | startObject (name : String)
  | endObject
  | startList (name : String)
  | endList
  | renderField (name : String) (value : LogicalValue)
  | unknownField (number : Nat) (raw : List Nat)
  deriving DecidableEq, Repr

/-- Modelled from the spec: the raw wire value handed to the codec (§4.3). -/
inductive RawValue where
  | varint (v : Nat)
  | fixed64 (v : Nat)
  | lengthDelimited (b : List Nat)
  | fixed32 (v : Nat)
  deriving DecidableEq, Repr

/-- Modelled from the spec: the type registry (§4.1), at its interface:
`resolve` maps a type URL to its schema, `enumValues` to the value-name table
of an enum type. -/
structure TypeInfo where
  resolve : String → Option TypeSchema
  enumValues : String → Option (List (String × Int))

/-- The configuration fields of `ProtoStreamObjectSource` (header lines
239-263).  `stream_` and `recursion_depth_` are threaded explicitly through
the decoding functions. -/
structure ProtoStreamObjectSource where
  typeinfo_ : TypeInfo
  type_ : TypeSchema
  use_lower_camel_for_enums_ : Bool
  max_recursion_depth_ : Int
  render_unknown_fields_ : Bool

/-- Header lines 80-82. -/
def ProtoStreamObjectSource.set_use_lower_camel_for_enums
    (os : ProtoStreamObjectSource) (value : Bool) : ProtoStreamObjectSource :=
  { os with use_lower_camel_for_enums_ := value }

/-- Header lines 87-89. -/
def ProtoStreamObjectSource.set_max_recursion_depth
    (os : ProtoStreamObjectSource) (max_depth : Int) : ProtoStreamObjectSource :=
  { os with max_recursion_depth_ := max_depth }

/-- A well-known-type renderer (header lines 107-110): given the type, the
field name and the cursor it returns the events it emitted and the cursor
after the message. -/
abbrev TypeRenderer :=
  TypeSchema → String → Stream → Except DecodeError (List Event × Stream)

/-! ## Wire primitives (modelled from the spec, §6 "Wire format") -/

/-- Modelled from the spec: the wire type numbers of §6. -/
def WIRETYPE_VARINT : Nat := 0

/-- Modelled from the spec: wire type 1 of §6. -/
def WIRETYPE_FIXED64 : Nat := 1

/-- Modelled from the spec: wire type 2 of §6. -/
def WIRETYPE_LENGTH_DELIMITED : Nat := 2

/-- Modelled from the spec: wire type 3 of §6. -/
def WIRETYPE_START_GROUP : Nat := 3

/-- Modelled from the spec: wire type 4 of §6. -/
def WIRETYPE_END_GROUP : Nat := 4

/-- Modelled from the spec: wire type 5 of §6. -/
def WIRETYPE_FIXED32 : Nat := 5

/-- Modelled from the spec: `tag = field_number << 3 | wire_type`. -/
def MakeTag (field_number wire_type : Nat) : Nat := field_number * 8 + wire_type

/-- Modelled from the spec: the field number of a tag, `tag >> 3`. -/
def GetTagFieldNumber (tag : Nat) : Nat := tag / 8

/-- Modelled from the spec: the wire type of a tag, its low three bits. -/
def GetTagWireType (tag : Nat) : Nat := tag % 8

/-- Modelled from the spec: base-128 varint read, least significant group
first, at most ten bytes.  `n` is the number of bytes still allowed. -/
def readVarintAux : Nat → Nat → Nat → Stream → Except DecodeError (Nat × Stream)
  | 0, _, _, _ => .error .malformedVarint
  | _ + 1, _, _, [] => .error .truncatedStream
  | n + 1, shift, acc, b :: bs =>
    if b < 128 then .ok (acc + b * 2 ^ shift, bs)
    else readVarintAux n (shift + 7) (acc + (b % 128) * 2 ^ shift) bs

/-- Modelled from the spec: the varint read of the byte cursor, as an
unsigned 64-bit value. -/
def ReadVarint64 (s : Stream) : Except DecodeError (Nat × Stream) :=
  match readVarintAux 10 0 0 s with
  | .error e => .error e
  | .ok (v, rest) => .ok (v % 2 ^ 64, rest)

/-- Modelled from the spec: the varint read of the byte cursor, truncated to
32 bits (tags and length prefixes). -/
def ReadVarint32 (s : Stream) : Except DecodeError (Nat × Stream) :=
  match readVarintAux 10 0 0 s with
  | .error e => .error e
  | .ok (v, rest) => .ok (v % 2 ^ 32, rest)

/-- Modelled from the spec: "Read next tag": `none` when the stream is
exhausted, otherwise the tag varint. -/
def ReadTag (s : Stream) : Except DecodeError (Option Nat × Stream) :=
  match s with
  | [] => .ok (none, [])
  | _ :: _ =>
    match ReadVarint32 s with
    | .error e => .error e
    | .ok (t, rest) => .ok (some t, rest)

/-- Modelled from the spec: the read of exactly `n` bytes; a shorter stream
is a `TruncatedStream`. -/
def ReadRaw (n : Nat) (s : Stream) : Except DecodeError (List Nat × Stream) :=
  if n ≤ s.length then .ok (s.take n, s.drop n) else .error .truncatedStream

/-- Modelled from the spec: the little-endian value of a fixed-width read. -/
def littleEndian : List Nat → Nat
  | [] => 0
  | b :: bs => b % 256 + 256 * littleEndian bs

/-- Modelled from the spec: the length-delimited read: a length prefix and
the payload of exactly that length. -/
def ReadLengthDelimited (s : Stream) : Except DecodeError (List Nat × Stream) :=
  match ReadVarint32 s with
  | .error e => .error e
  | .ok (len, s1) => ReadRaw len s1

/-- Modelled from the spec: the primitive read selected by a wire type.  The
group wire types carry no scalar. -/
def ReadWireValue (wire_type : Nat) (s : Stream) : Except DecodeError (RawValue × Stream) :=
  if wire_type = WIRETYPE_VARINT then
    match ReadVarint64 s with
    | .error e => .error e
    | .ok (v, rest) => .ok (.varint v, rest)
  else if wire_type = WIRETYPE_FIXED64 then
    match ReadRaw 8 s with
    | .error e => .error e
    | .ok (b, rest) => .ok (.fixed64 (littleEndian b), rest)
  else if wire_type = WIRETYPE_LENGTH_DELIMITED then
    match ReadLengthDelimited s with
    | .error e => .error e
    | .ok (b, rest) => .ok (.lengthDelimited b, rest)
  else if wire_type = WIRETYPE_FIXED32 then
    match ReadRaw 4 s with
    | .error e => .error e
    | .ok (b, rest) => .ok (.fixed32 (littleEndian b), rest)
  else .error .wireTypeMismatch

/-- Modelled from the spec: "skip the value per its wire type".  `groups`
is the stack of the groups that are open (innermost first); the skip ends when
it is empty again.  Each step reads at least one byte, so `fuel` above the
length of the stream never runs out. -/
def skipAux : Nat → List Nat → Nat → Stream → Except DecodeError Stream
  | 0, _, _, _ => .error .outOfFuel
  | fuel + 1, groups, tag, s =>
    let continue_ (groups : List Nat) (s1 : Stream) : Except DecodeError Stream :=
      match groups with
      | [] => .ok s1
      | _ :: _ =>
        match ReadTag s1 with
        | .error e => .error e
        | .ok (none, _) => .error .truncatedStream
        | .ok (some t, s2) => skipAux fuel groups t s2
    if GetTagWireType tag = WIRETYPE_START_GROUP then
      continue_ (GetTagFieldNumber tag :: groups) s
    else if GetTagWireType tag = WIRETYPE_END_GROUP then
      match groups with
      | g :: gs => if g = GetTagFieldNumber tag then continue_ gs s else .error .wireTypeMismatch
      | [] => .error .wireTypeMismatch
    else
      match ReadWireValue (GetTagWireType tag) s with
      | .error e => .error e
      | .ok (_, s1) => continue_ groups s1

/-- Modelled from the spec: the skip of the value that follows `tag` (§4.4
step 2); returns the cursor after it. -/
def SkipField (tag : Nat) (s : Stream) : Except DecodeError Stream :=
  skipAux (s.length + 1) [] tag s

/-! ## Field value codec (modelled from the spec, §4.3) -/

/-- Modelled from the spec: the signed kinds read the low `w` bits of the
wire value as two's complement. -/
def toSigned (w v : Nat) : Int :=
  if v % 2 ^ w < 2 ^ (w - 1) then ((v % 2 ^ w : Nat) : Int)
  else ((v % 2 ^ w : Nat) : Int) - ((2 ^ w : Nat) : Int)

/-- Modelled from the spec: the zigzag decoding of SINT32 / SINT64 (§4.3). -/
def zigZagDecode (v : Nat) : Int :=
  if v % 2 = 0 then ((v / 2 : Nat) : Int) else -((v / 2 : Nat) : Int) - 1

/-- Modelled from the spec: the wire type implied by a declared kind. -/
def WireTypeForFieldType : Kind → Nat
  | .INT32 | .INT64 | .UINT32 | .UINT64 | .SINT32 | .SINT64 | .BOOL | .ENUM => WIRETYPE_VARINT
  | .FIXED64 | .SFIXED64 | .DOUBLE => WIRETYPE_FIXED64
  | .STRING | .BYTES | .MESSAGE => WIRETYPE_LENGTH_DELIMITED
  | .GROUP => WIRETYPE_START_GROUP
  | .FIXED32 | .SFIXED32 | .FLOAT => WIRETYPE_FIXED32

/-- Modelled from the spec: the packable scalars are the kinds that are not
length-delimited and not groups. -/
def FieldTypeIsPackable : Kind → Bool
  | .STRING | .BYTES | .MESSAGE | .GROUP => false
  | _ => true

/-- Modelled from the spec: a field can arrive packed when it is REPEATED and
its kind is a packable scalar (§4.4 step 3). -/
def IsPackable (field : FieldSchema) : Bool :=
  field.cardinality == .REPEATED && FieldTypeIsPackable field.kind

/-- A continuation byte of UTF-8, `10xxxxxx`. -/
def isContinuation (b : Nat) : Bool := 128 ≤ b && b < 192

/-- Modelled from the spec: the strict UTF-8 decoding of the payload of a
STRING field (§4.4): `none` on an invalid, overlong or surrogate sequence. -/
def utf8Decode : List Nat → Option (List Char)
  | [] => some []
  | [b0] => if b0 < 128 then some [Char.ofNat b0] else none
  | b0 :: b1 :: rest =>
    if b0 < 128 then (utf8Decode (b1 :: rest)).map (Char.ofNat b0 :: ·)
    else if 194 ≤ b0 ∧ b0 < 224 ∧ isContinuation b1 then
      (utf8Decode rest).map (Char.ofNat ((b0 - 192) * 64 + (b1 - 128)) :: ·)
    else
      match rest with
      | [] => none
      | b2 :: rest2 =>
        let cp3 := (b0 - 224) * 4096 + (b1 - 128) * 64 + (b2 - 128)
        if 224 ≤ b0 ∧ b0 < 240 ∧ isContinuation b1 ∧ isContinuation b2 ∧ 2048 ≤ cp3
            ∧ ¬ (55296 ≤ cp3 ∧ cp3 < 57344) then
          (utf8Decode rest2).map (Char.ofNat cp3 :: ·)
        else
          match rest2 with
          | [] => none
          | b3 :: rest3 =>
            let cp4 := (b0 - 240) * 262144 + (b1 - 128) * 4096 + (b2 - 128) * 64 + (b3 - 128)
            if 240 ≤ b0 ∧ b0 < 248 ∧ isContinuation b1 ∧ isContinuation b2 ∧ isContinuation b3
                ∧ 65536 ≤ cp4 ∧ cp4 < 1114112 then
              (utf8Decode rest3).map (Char.ofNat cp4 :: ·)
            else none

/-- Modelled from the spec: the case conversion as a pass over the
characters: `capitalize_next` is set by an underscore, which is dropped; every
other character is lower-cased unless it follows an underscore. -/
def toCamelCaseAux : Bool → List Char → List Char
  | _, [] => []
  | capitalize_next, c :: cs =>
    if c = '_' then toCamelCaseAux true cs
    else (if capitalize_next then c.toUpper else c.toLower) :: toCamelCaseAux false cs

/-- Modelled from the spec: conversion of an `UPPER_SNAKE_CASE` enum value
name to `lowerCamelCase` (§4.3). -/
def ToCamelCase (input : String) : String := String.mk (toCamelCaseAux false input.data)

/-- Modelled from the spec: the lookup by number in the value-name table of
an enum (§4.3). -/
def FindEnumValueByNumber (table : List (String × Int)) (number : Int) : Option String :=
  (table.find? (fun p => p.2 == number)).map (·.1)

/-- Modelled from the spec: rendering of an ENUM varint (§4.3): the name
found in the value-name table, in lower camel case when the option is set;
the raw number when the table has no entry for it. -/
def RenderEnum (os : ProtoStreamObjectSource) (field : FieldSchema) (v : Nat) :
    Except DecodeError LogicalValue :=
  match field.type_url with
  | none => .error (.typeResolutionFailure "")
  | some url =>
    match os.typeinfo_.enumValues url with
    | none => .error (.typeResolutionFailure url)
    | some table =>
      match FindEnumValueByNumber table (toSigned 32 v) with
      | none => .ok (.int (toSigned 32 v))
      | some name =>
        if os.use_lower_camel_for_enums_ then .ok (.str (ToCamelCase name))
        else .ok (.str name)

/-- Modelled from the spec: `decode_scalar(kind, raw_wire_value)` (§4.3). -/
def decode_scalar (os : ProtoStreamObjectSource) (field : FieldSchema) (raw : RawValue) :
    Except DecodeError LogicalValue :=
  match field.kind, raw with
  | .INT32, .varint v => .ok (.int (toSigned 32 v))
  | .INT64, .varint v => .ok (.int (toSigned 64 v))
  | .UINT32, .varint v => .ok (.uint (v % 2 ^ 32))
  | .UINT64, .varint v => .ok (.uint (v % 2 ^ 64))
  | .SINT32, .varint v => .ok (.int (zigZagDecode (v % 2 ^ 32)))
  | .SINT64, .varint v => .ok (.int (zigZagDecode (v % 2 ^ 64)))
  | .BOOL, .varint v => .ok (.bool (v != 0))
  | .ENUM, .varint v => RenderEnum os field v
  | .FIXED32, .fixed32 v => .ok (.uint v)
  | .SFIXED32, .fixed32 v => .ok (.int (toSigned 32 v))
  | .FLOAT, .fixed32 v => .ok (.float v)
  | .FIXED64, .fixed64 v => .ok (.uint v)
  | .SFIXED64, .fixed64 v => .ok (.int (toSigned 64 v))
  | .DOUBLE, .fixed64 v => .ok (.double v)
  | .STRING, .lengthDelimited b =>
    match utf8Decode b with
    | none => .error .invalidUtf8
    | some cs => .ok (.str (String.mk cs))
  | .BYTES, .lengthDelimited b => .ok (.bytes b)
  | _, _ => .error .wireTypeMismatch

/-! ## Type lookup -/

/-- Modelled from the spec: `find_field(schema, number)` (§4.1). -/
def FindFieldByNumber (type : TypeSchema) (number : Nat) : Option FieldSchema :=
  type.fields.find? (fun f => f.number == number)

/-- Modelled from the spec: `FindAndVerifyField`, declared at header lines
112-114 ("Looks up a field and verify its consistency with wire type in
tag"), body not in the sources.  A field absent from the schema is `none`; a
field whose kind implies another wire type than the one of the tag is a
`WireTypeMismatch` (§4.3, §7), reported through the result, except for the
length-delimited tag of a repeated packable scalar, which starts a packed run
(§4.4 step 3). -/
def FindAndVerifyField (type : TypeSchema) (tag : Nat) :
    Except DecodeError (Option FieldSchema) :=
  match FindFieldByNumber type (GetTagFieldNumber tag) with
  | none => .ok none
  | some field =>
    if GetTagWireType tag = WireTypeForFieldType field.kind then .ok (some field)
    else if IsPackable field ∧ GetTagWireType tag = WIRETYPE_LENGTH_DELIMITED then
      .ok (some field)
    else .error .wireTypeMismatch

/-- Modelled from the spec: `IsMap`, declared at header line 226, body not
in the sources: a repeated MESSAGE field is a map when its nested type has the
shape of a map entry: exactly field 1 (`key`) and field 2 (`value`) (§3,
§6). -/
def IsMap (os : ProtoStreamObjectSource) (field : FieldSchema) : Bool :=
  field.kind == .MESSAGE &&
  match field.type_url with
  | none => false
  | some url =>
    match os.typeinfo_.resolve url with
    | none => false
    | some entry =>
      match entry.fields with
      | [k, v] => (k.number == 1 && v.number == 2) || (k.number == 2 && v.number == 1)
      | _ => false

/-- Modelled from the spec: `IncrementRecursionDepth`, declared at header
lines 233-237, body not in the sources: step 6 of §4.4: the depth is
incremented and compared with the ceiling; the result is the depth of the
nested message. -/
def IncrementRecursionDepth (os : ProtoStreamObjectSource) (recursion_depth : Int)
    (type_name field_name : String) : Except DecodeError Int :=
  if recursion_depth + 1 > os.max_recursion_depth_ then
    .error (.recursionLimitExceeded type_name field_name)
  else .ok (recursion_depth + 1)

/-- Modelled from the spec: `RenderNonMessageField`, declared at header lines
212-216, body not in the sources: §4.4 step 7: a scalar, enum, string or bytes
value is read with the wire type of its kind, decoded by the codec and emitted
as one field event. -/
def RenderNonMessageField (os : ProtoStreamObjectSource) (field : FieldSchema)
    (field_name : String) (s : Stream) : Except DecodeError (List Event × Stream) :=
  match ReadWireValue (WireTypeForFieldType field.kind) s with
  | .error e => .error e
  | .ok (raw, s1) =>
    match decode_scalar os field raw with
    | .error e => .error e
    | .ok v => .ok ([.renderField field_name v], s1)

/-- Modelled from the spec: the scalar values of a packed span, decoded back
to back until the span is used up (§4.4 step 3). -/
def packedItems (os : ProtoStreamObjectSource) (field : FieldSchema) :
    Nat → Stream → Except DecodeError (List Event)
  | 0, _ => .error .outOfFuel
  | _ + 1, [] => .ok []
  | fuel + 1, b :: bs =>
    match RenderNonMessageField os field "" (b :: bs) with
    | .error e => .error e
    | .ok (evs, s1) =>
      match packedItems os field fuel s1 with
      | .error e => .error e
      | .ok evs2 => .ok (evs ++ evs2)

/-- Modelled from the spec: `RenderPacked`, declared at header lines 132-136,
body not in the sources: §4.4 step 3, packed decode: "read the length prefix,
then decode a contiguous sequence of scalar values from that exact byte span".
Returns the element events and the cursor after the span. -/
def RenderPacked (os : ProtoStreamObjectSource) (field : FieldSchema) (s : Stream) :
    Except DecodeError (List Event × Stream) :=
  match ReadLengthDelimited s with
  | .error e => .error e
  | .ok (payload, rest) =>
    match packedItems os field (payload.length + 1) payload with
    | .error e => .error e
    | .ok evs => .ok (evs, rest)

/-- Modelled from the spec: the name under which the value of a map entry is
emitted: its key (§4.4 step 4, "string/scalar-keyed entries" of §6). -/
def keyName : LogicalValue → String
  | .str s => s
  | .int v => toString v
  | .uint v => toString v
  | .bool b => toString b
  | _ => ""

/-- Modelled from the spec: insertion into the accumulating ordered mapping
of §4.4 step 4: a key that is already present keeps its place and takes the
later value; a new key goes to the end. -/
def mapInsert {κ ν : Type} [DecidableEq κ] (m : List (κ × ν)) (e : κ × ν) : List (κ × ν) :=
  if m.any (fun p => p.1 == e.1) then m.map (fun p => if p.1 = e.1 then (p.1, e.2) else p)
  else m ++ [e]

/-! ## The message walk (modelled from the spec, §4.4) -/

/-- Modelled from the spec: §4.4 step 2: the value of a field absent from the
schema is skipped per its wire type; it is captured, keyed by its number, only
when unknown-field rendering is on. -/
def SkipUnknownField (os : ProtoStreamObjectSource) (tag : Nat) (s : Stream) :
    Except DecodeError (List Event × Stream) :=
  match SkipField tag s with
  | .error e => .error e
  | .ok s1 =>
    if os.render_unknown_fields_ then
      .ok ([.unknownField (GetTagFieldNumber tag) (s.take (s.length - s1.length))], s1)
    else .ok ([], s1)

mutual

/-- Modelled from the spec: `WriteMessage`, declared at header lines 93-101,
body not in the sources (§4.2 dispatch rule, §4.4).  A well-known type is
rendered by its renderer, which owns the framing; otherwise the fields are
walked up to `end_tag` and framed by `StartObject` / `EndObject` when
`include_start_and_end` is set. -/
def WriteMessage (renderers_ : String → Option TypeRenderer) (os : ProtoStreamObjectSource) :
    Nat → Int → TypeSchema → String → Nat → Bool → Stream →
    Except DecodeError (List Event × Stream)
  | 0, _, _, _, _, _, _ => .error .outOfFuel
  | fuel + 1, depth, type, name, end_tag, include_start_and_end, s =>
    match renderers_ type.name with
    | some render => render type name s
    | none =>
      match ReadTag s with
      | .error e => .error e
      | .ok (tag, s1) =>
        match writeFields renderers_ os fuel depth type end_tag tag s1 with
        | .error e => .error e
        | .ok (evs, rest) =>
          if include_start_and_end then .ok (.startObject name :: evs ++ [.endObject], rest)
          else .ok (evs, rest)
termination_by structural fuel => fuel

/-- Modelled from the spec: the loop of §4.4.  `tag` is the tag that was read
last (`none` when the stream was exhausted) and `s` the cursor after it. -/
def writeFields (renderers_ : String → Option TypeRenderer) (os : ProtoStreamObjectSource) :
    Nat → Int → TypeSchema → Nat → Option Nat → Stream →
    Except DecodeError (List Event × Stream)
  | 0, _, _, _, _, _ => .error .outOfFuel
  | _ + 1, _, _, _, none, s => .ok ([], s)
  | fuel + 1, depth, type, end_tag, some tag, s =>
    if tag = end_tag then .ok ([], s)
    else
      match FindAndVerifyField type tag with
      | .error e => .error e
      | .ok none =>
        match SkipUnknownField os tag s with
        | .error e => .error e
        | .ok (evs, s1) =>
          match ReadTag s1 with
          | .error e => .error e
          | .ok (next, s2) =>
            match writeFields renderers_ os fuel depth type end_tag next s2 with
            | .error e => .error e
            | .ok (evs2, rest) => .ok (evs ++ evs2, rest)
      | .ok (some field) =>
        if field.cardinality = .REPEATED then
          match (if IsMap os field then RenderMap renderers_ os fuel depth field field.name tag s
                 else RenderList renderers_ os fuel depth field field.name tag s) with
          | .error e => .error e
          | .ok (evs, next, s2) =>
            match writeFields renderers_ os fuel depth type end_tag next s2 with
            | .error e => .error e
            | .ok (evs2, rest) => .ok (evs ++ evs2, rest)
        else
          match RenderField renderers_ os fuel depth field field.name s with
          | .error e => .error e
          | .ok (evs, s1) =>
            match ReadTag s1 with
            | .error e => .error e
            | .ok (next, s2) =>
              match writeFields renderers_ os fuel depth type end_tag next s2 with
              | .error e => .error e
              | .ok (evs2, rest) => .ok (evs ++ evs2, rest)
termination_by structural fuel => fuel

/-- Modelled from the spec: `RenderField`, declared at header lines 208-210,
body not in the sources (§4.4 steps 6 and 7).  A MESSAGE or GROUP value
increments the depth, fails above the ceiling and otherwise recurses with the
nested schema: on the length-delimited payload with end tag 0, or on the
cursor itself up to the end-group tag. -/
def RenderField (renderers_ : String → Option TypeRenderer) (os : ProtoStreamObjectSource) :
    Nat → Int → FieldSchema → String → Stream → Except DecodeError (List Event × Stream)
  | 0, _, _, _, _ => .error .outOfFuel
  | fuel + 1, depth, field, field_name, s =>
    if field.kind = .MESSAGE ∨ field.kind = .GROUP then
      match field.type_url.bind os.typeinfo_.resolve with
      | none => .error (.typeResolutionFailure (field.type_url.getD ""))
      | some type =>
        match IncrementRecursionDepth os depth type.name field_name with
        | .error e => .error e
        | .ok depth1 =>
          if field.kind = .MESSAGE then
            match ReadLengthDelimited s with
            | .error e => .error e
            | .ok (payload, rest) =>
              match WriteMessage renderers_ os fuel depth1 type field_name 0 true payload with
              | .error e => .error e
              | .ok (evs, _) => .ok (evs, rest)
          else
            WriteMessage renderers_ os fuel depth1 type field_name
              (MakeTag field.number WIRETYPE_END_GROUP) true s
    else RenderNonMessageField os field field_name s
termination_by structural fuel => fuel

/-- Modelled from the spec: `RenderList`, declared at header lines 119-124,
body not in the sources (§4.4 steps 3 and 5).  Returns the events of one list
and the next tag, already read, that the caller has to use. -/
def RenderList (renderers_ : String → Option TypeRenderer) (os : ProtoStreamObjectSource) :
    Nat → Int → FieldSchema → String → Nat → Stream →
    Except DecodeError (List Event × Option Nat × Stream)
  | 0, _, _, _, _, _ => .error .outOfFuel
  | fuel + 1, depth, field, name, list_tag, s =>
    if IsPackable field ∧ list_tag = MakeTag field.number WIRETYPE_LENGTH_DELIMITED then
      match RenderPacked os field s with
      | .error e => .error e
      | .ok (evs, s1) =>
        match ReadTag s1 with
        | .error e => .error e
        | .ok (next, s2) => .ok (.startList name :: evs ++ [.endList], next, s2)
    else
      match renderListElements renderers_ os fuel depth field list_tag s with
      | .error e => .error e
      | .ok (evs, next, s2) => .ok (.startList name :: evs ++ [.endList], next, s2)
termination_by structural fuel => fuel

/-- Modelled from the spec: the run of §4.4 step 5: an element is rendered,
then the next tag is read; the run goes on while that tag is the tag of the
list. -/
def renderListElements (renderers_ : String → Option TypeRenderer)
    (os : ProtoStreamObjectSource) :
    Nat → Int → FieldSchema → Nat → Stream →
    Except DecodeError (List Event × Option Nat × Stream)
  | 0, _, _, _, _ => .error .outOfFuel
  | fuel + 1, depth, field, list_tag, s =>
    match RenderField renderers_ os fuel depth field "" s with
    | .error e => .error e
    | .ok (evs, s1) =>
      match ReadTag s1 with
      | .error e => .error e
      | .ok (next, s2) =>
        if next = some list_tag then
          match renderListElements renderers_ os fuel depth field list_tag s2 with
          | .error e => .error e
          | .ok (evs2, next2, s3) => .ok (evs ++ evs2, next2, s3)
        else .ok (evs, next, s2)
termination_by structural fuel => fuel

/-- Modelled from the spec: `RenderMap`, declared at header lines 125-130,
body not in the sources (§4.4 step 4).
The entries of the run are inserted, in stream order, into the ordered
mapping; the map is emitted as one object. -/
def RenderMap (renderers_ : String → Option TypeRenderer) (os : ProtoStreamObjectSource) :
    Nat → Int → FieldSchema → String → Nat → Stream →
    Except DecodeError (List Event × Option Nat × Stream)
  | 0, _, _, _, _, _ => .error .outOfFuel
  | fuel + 1, depth, field, name, list_tag, s =>
    match field.type_url.bind os.typeinfo_.resolve with
    | none => .error (.typeResolutionFailure (field.type_url.getD ""))
    | some entry =>
      match readMapEntries renderers_ os fuel depth entry list_tag s with
      | .error e => .error e
      | .ok (entries, next, s2) =>
        .ok (.startObject name :: ((entries.foldl mapInsert []).map (·.2)).flatten ++ [.endObject],
             next, s2)
termination_by structural fuel => fuel

/-- Modelled from the spec: the run of map entries (§4.4 step 4): each entry
is a length-delimited key/value pair; the run goes on while the next tag is
the tag of the map field. -/
def readMapEntries (renderers_ : String → Option TypeRenderer) (os : ProtoStreamObjectSource) :
    Nat → Int → TypeSchema → Nat → Stream →
    Except DecodeError (List (LogicalValue × List Event) × Option Nat × Stream)
  | 0, _, _, _, _ => .error .outOfFuel
  | fuel + 1, depth, entry, list_tag, s =>
    match ReadLengthDelimited s with
    | .error e => .error e
    | .ok (payload, s1) =>
      match ReadTag payload with
      | .error e => .error e
      | .ok (first, p1) =>
        match readMapEntry renderers_ os fuel depth entry (.str "") [] first p1 with
        | .error e => .error e
        | .ok kv =>
          match ReadTag s1 with
          | .error e => .error e
          | .ok (next, s2) =>
            if next = some list_tag then
              match readMapEntries renderers_ os fuel depth entry list_tag s2 with
              | .error e => .error e
              | .ok (kvs, next2, s3) => .ok (kv :: kvs, next2, s3)
            else .ok ([kv], next, s2)
termination_by structural fuel => fuel

/-- Modelled from the spec: one map entry (§4.4 step 4, §6): field 1 is the
key, decoded as a scalar; field 2 is the value, rendered under the name of the
key read so far (the empty string when the entry has no key before it). -/
def readMapEntry (renderers_ : String → Option TypeRenderer) (os : ProtoStreamObjectSource) :
    Nat → Int → TypeSchema → LogicalValue → List Event → Option Nat → Stream →
    Except DecodeError (LogicalValue × List Event)
  | 0, _, _, _, _, _, _ => .error .outOfFuel
  | _ + 1, _, _, key, value, none, _ => .ok (key, value)
  | fuel + 1, depth, entry, key, value, some tag, s =>
    if tag = 0 then .ok (key, value)
    else
      match FindAndVerifyField entry tag with
      | .error e => .error e
      | .ok none =>
        match SkipField tag s with
        | .error e => .error e
        | .ok s1 =>
          match ReadTag s1 with
          | .error e => .error e
          | .ok (next, s2) => readMapEntry renderers_ os fuel depth entry key value next s2
      | .ok (some field) =>
        if field.number = 1 then
          match ReadWireValue (WireTypeForFieldType field.kind) s with
          | .error e => .error e
          | .ok (raw, s1) =>
            match decode_scalar os field raw with
            | .error e => .error e
            | .ok k =>
              match ReadTag s1 with
              | .error e => .error e
              | .ok (next, s2) => readMapEntry renderers_ os fuel depth entry k value next s2
        else
          match RenderField renderers_ os fuel depth field (keyName key) s with
          | .error e => .error e
          | .ok (evs, s1) =>
            match ReadTag s1 with
            | .error e => .error e
            | .ok (next, s2) => readMapEntry renderers_ os fuel depth entry key evs next s2
termination_by structural fuel => fuel

end

/-- Fuel for the walk of a stream: every chain of five nested calls of the
walk reads at least one byte, so the walk of `s` needs at most
`5 * s.length + 2` units (theorem `WriteMessage_fuelFor`). -/
def fuelFor (s : Stream) : Nat := 5 * s.length + 2

/-- Modelled from the spec: `NamedWriteTo`, declared at header line 54, body
not in the sources: the top-level decode: the message of type `type_` is
walked from depth 0 with end tag 0 and framed as an object. -/
def NamedWriteTo (renderers_ : String → Option TypeRenderer) (os : ProtoStreamObjectSource)
    (name : String) (s : Stream) : Except DecodeError (List Event) :=
  match WriteMessage renderers_ os (fuelFor s) 0 os.type_ name 0 true s with
  | .error e => .error e
  | .ok (evs, _) => .ok evs

/-! ## The Timestamp renderer (modelled from the spec, §4.2) -/

/-- Modelled from the spec: a field of an RFC 3339 timestamp: the decimal
digits of `n`, padded with zeros on the left to `width`. -/
def zeroPad (width n : Nat) : String :=
  String.mk (List.replicate (width - (Nat.toDigits 10 n).length) '0' ++ Nat.toDigits 10 n)

/-- Modelled from the spec: the date of an RFC 3339 timestamp: the proleptic
Gregorian `(year, month, day)` of a day count relative to 1970-01-01. -/
def civilFromDays (days : Int) : Int × Nat × Nat :=
  let z := days + 719468
  let era := z / 146097
  let doe := (z % 146097).toNat
  let yoe := (doe - doe / 1460 + doe / 36524 - doe / 146096) / 365
  let doy := doe - (365 * yoe + yoe / 4 - yoe / 100)
  let mp := (5 * doy + 2) / 153
  let d := doy - (153 * mp + 2) / 5 + 1
  let m := if mp < 10 then mp + 3 else mp - 9
  let y := (yoe : Int) + era * 400 + (if m ≤ 2 then 1 else 0)
  (y, m, d)

/-- Modelled from the spec: the fraction of a second of an RFC 3339
timestamp: nothing for zero, otherwise 3, 6 or 9 digits. -/
def formatNanos (nanos : Nat) : String :=
  if nanos = 0 then ""
  else if nanos % 1000000 = 0 then "." ++ zeroPad 3 (nanos / 1000000)
  else if nanos % 1000 = 0 then "." ++ zeroPad 6 (nanos / 1000)
  else "." ++ zeroPad 9 nanos

/-- Modelled from the spec: the RFC 3339 UTC rendering of the instant
`seconds + nanos/1e9` after the epoch (§4.2, Timestamp). -/
def FormatTime (seconds nanos : Int) : String :=
  let date := civilFromDays (seconds / 86400)
  let secs := (seconds % 86400).toNat
  (if date.1 < 0 then "-" else "") ++ zeroPad 4 date.1.natAbs ++ "-" ++ zeroPad 2 date.2.1 ++ "-"
    ++ zeroPad 2 date.2.2 ++ "T" ++ zeroPad 2 (secs / 3600) ++ ":" ++ zeroPad 2 (secs / 60 % 60)
    ++ ":" ++ zeroPad 2 (secs % 60) ++ formatNanos nanos.toNat ++ "Z"

/-- Modelled from the spec: the loop of `ReadSecondsAndNanos`: field 1 is
`seconds`, a 64-bit varint; field 2 is `nanos`, a 32-bit varint; any other
field is skipped. -/
def readSecondsAndNanosAux (type : TypeSchema) :
    Nat → Int → Int → Option Nat → Stream → Except DecodeError ((Int × Int) × Stream)
  | 0, _, _, _, _ => .error .outOfFuel
  | _ + 1, seconds, nanos, none, s => .ok ((seconds, nanos), s)
  | fuel + 1, seconds, nanos, some tag, s =>
    if tag = 0 then .ok ((seconds, nanos), s)
    else
      match FindAndVerifyField type tag with
      | .error e => .error e
      | .ok none =>
        match SkipField tag s with
        | .error e => .error e
        | .ok s1 =>
          match ReadTag s1 with
          | .error e => .error e
          | .ok (next, s2) => readSecondsAndNanosAux type fuel seconds nanos next s2
      | .ok (some field) =>
        if field.number = 1 then
          match ReadVarint64 s with
          | .error e => .error e
          | .ok (v, s1) =>
            match ReadTag s1 with
            | .error e => .error e
            | .ok (next, s2) => readSecondsAndNanosAux type fuel (toSigned 64 v) nanos next s2
        else if field.number = 2 then
          match ReadVarint32 s with
          | .error e => .error e
          | .ok (v, s1) =>
            match ReadTag s1 with
            | .error e => .error e
            | .ok (next, s2) => readSecondsAndNanosAux type fuel seconds (toSigned 32 v) next s2
        else
          match SkipField tag s with
          | .error e => .error e
          | .ok s1 =>
            match ReadTag s1 with
            | .error e => .error e
            | .ok (next, s2) => readSecondsAndNanosAux type fuel seconds nanos next s2

/-- Modelled from the spec: `ReadSecondsAndNanos`, declared at header lines
228-231, body not in the sources:
"decode embedded `seconds:int64` (field 1) and `nanos:int32` (field 2) from a
nested message payload without invoking the generic message path".  Both are
0 when absent.  Every step reads at least one byte, so the fuel suffices. -/
def ReadSecondsAndNanos (type : TypeSchema) (s : Stream) :
    Except DecodeError ((Int × Int) × Stream) :=
  match ReadTag s with
  | .error e => .error e
  | .ok (tag, s1) => readSecondsAndNanosAux type (s.length + 1) 0 0 tag s1

/-- Modelled from the spec: `RenderTimestamp`, declared at header lines
138-141, body not in the sources (§4.2):
one string value, the RFC 3339 UTC timestamp; nanos outside `[0, 1e9)` is a
decode error. -/
def RenderTimestamp : TypeRenderer := fun type name s =>
  match ReadSecondsAndNanos type s with
  | .error e => .error e
  | .ok ((seconds, nanos), rest) =>
    if nanos < 0 ∨ 1000000000 ≤ nanos then .error .invalidWellKnownPayload
    else .ok ([.renderField name (.str (FormatTime seconds nanos))], rest)

/-! ## Encoders and reference definitions used in the statements -/

/-- Base-128 varint of `n`, least significant group first, in at most `k`
bytes. -/
def encodeVarintAux : Nat → Nat → List Nat
  | 0, _ => []
  | k + 1, n => if n < 128 then [n] else (n % 128 + 128) :: encodeVarintAux k (n / 128)

/-- The varint encoding of a value below `2 ^ 70`. -/
def encodeVarint (n : Nat) : List Nat := encodeVarintAux 10 n

/-- The empty table of well-known renderers. -/
def noRenderers : String → Option TypeRenderer := fun _ => none

/-- A type registry without any type. -/
def emptyInfo : TypeInfo := ⟨fun _ => none, fun _ => none⟩

/-- Schema `{field 1: INT32, field 2: REPEATED INT32}`. -/
def listType : TypeSchema :=
  ⟨"S3", [⟨1, "field1", .INT32, .OPTIONAL, none, false⟩,
          ⟨2, "field2", .INT32, .REPEATED, none, false⟩]⟩

def listSource : ProtoStreamObjectSource := ⟨emptyInfo, listType, false, 64, false⟩

/-- The bytes of a run of an unpacked repeated field after its first tag: the
encoded elements, separated by the tag of the list. -/
def encodeRun (list_tag : Nat) : List (List Nat) → List Nat
  | [] => []
  | [v] => v
  | v :: w :: vs => v ++ (encodeVarint list_tag ++ encodeRun list_tag (w :: vs))

/-! ### Reference definitions for the ordered mapping -/

/-- An `UPPER_SNAKE_CASE` name: the words joined by underscores. -/
def joinWords : List (List Char) → List Char
  | [] => []
  | [w] => w
  | w :: w2 :: ws => w ++ '_' :: joinWords (w2 :: ws)

/-- A word with its first letter in upper case and the others in lower case. -/
def capitalized : List Char → List Char
  | [] => []
  | c :: cs => c.toUpper :: cs.map Char.toLower

/-- The `lowerCamelCase` form of a name given by its words: the first word in
lower case, every further word capitalized, nothing between them. -/
def lowerCamelForm : List (List Char) → List Char
  | [] => []
  | w :: ws => w.map Char.toLower ++ (ws.map capitalized).flatten

/-- An enum type with the single value `ACTION_AND_ADVENTURE = 1` and a schema
with one field of that type. -/
def genreInfo : TypeInfo :=
  ⟨fun _ => none, fun url => if url = "Genre" then some [("ACTION_AND_ADVENTURE", 1)] else none⟩

def genreField : FieldSchema := ⟨1, "type", .ENUM, .OPTIONAL, some "Genre", false⟩

def genreType : TypeSchema := ⟨"S5", [genreField]⟩

def genreSource : ProtoStreamObjectSource := ⟨genreInfo, genreType, false, 64, false⟩

/-- The Timestamp entry of the table of well-known renderers (§4.2). -/
def timestampRenderers : String → Option TypeRenderer :=
  fun name => if name = "google.protobuf.Timestamp" then some RenderTimestamp else none

/-- A tag that has been read and not yet processed counts as one byte. -/
def tagWeight : Option Nat → Nat
  | none => 0
  | some _ => 1

/-- The result `r` is not a fuel failure and, when it is a value, its measure
is at most `bound`. -/
def Within {β : Type} (bound : Nat) (measure : β → Nat) (r : Except DecodeError β) : Prop :=
  r ≠ .error .outOfFuel ∧ ∀ b, r = .ok b → measure b ≤ bound

/-- The renderers of the table are not fuel failures and return a cursor that
is not longer than the one they were given. -/
def RenderersWithin (R : String → Option TypeRenderer) : Prop :=
  ∀ (name : String) (r : TypeRenderer) (type : TypeSchema) (nm : String) (s : Stream),
    R name = some r → Within s.length (fun b : List Event × Stream => b.2.length) (r type nm s)

/-- Fuel accounting of the walk at fuel `f`: every function of the walk, given
fuel `f` above five times the bytes it may read (plus its distance to the
loop), does not run out of fuel, returns a cursor that is not longer than its
input, and returns the same result with any other fuel `f2` above that
bound. -/
structure WalkWithin (R : String → Option TypeRenderer) (os : ProtoStreamObjectSource)
    (f : Nat) : Prop where
  wm : ∀ (f2 : Nat) (depth : Int) (type : TypeSchema) (name : String) (end_tag : Nat)
      (framed : Bool) (s : Stream), 5 * s.length + 2 ≤ f → 5 * s.length + 2 ≤ f2 →
      Within s.length (fun b : List Event × Stream => b.2.length)
          (WriteMessage R os f depth type name end_tag framed s)
        ∧ WriteMessage R os f2 depth type name end_tag framed s
          = WriteMessage R os f depth type name end_tag framed s
  wf : ∀ (f2 : Nat) (depth : Int) (type : TypeSchema) (end_tag : Nat) (tag : Option Nat)
      (s : Stream), 5 * (tagWeight tag + s.length) + 1 ≤ f →
      5 * (tagWeight tag + s.length) + 1 ≤ f2 →
      Within s.length (fun b : List Event × Stream => b.2.length)
          (writeFields R os f depth type end_tag tag s)
        ∧ writeFields R os f2 depth type end_tag tag s
          = writeFields R os f depth type end_tag tag s
  rf : ∀ (f2 : Nat) (depth : Int) (field : FieldSchema) (name : String) (s : Stream),
      5 * s.length + 3 ≤ f → 5 * s.length + 3 ≤ f2 →
      Within s.length (fun b : List Event × Stream => b.2.length)
          (RenderField R os f depth field name s)
        ∧ RenderField R os f2 depth field name s = RenderField R os f depth field name s
  rl : ∀ (f2 : Nat) (depth : Int) (field : FieldSchema) (name : String) (list_tag : Nat)
      (s : Stream), 5 * s.length + 5 ≤ f → 5 * s.length + 5 ≤ f2 →
      Within s.length (fun b : List Event × Option Nat × Stream => tagWeight b.2.1 + b.2.2.length)
          (RenderList R os f depth field name list_tag s)
        ∧ RenderList R os f2 depth field name list_tag s
          = RenderList R os f depth field name list_tag s
  rle : ∀ (f2 : Nat) (depth : Int) (field : FieldSchema) (list_tag : Nat) (s : Stream),
      5 * s.length + 4 ≤ f → 5 * s.length + 4 ≤ f2 →
      Within s.length (fun b : List Event × Option Nat × Stream => tagWeight b.2.1 + b.2.2.length)
          (renderListElements R os f depth field list_tag s)
        ∧ renderListElements R os f2 depth field list_tag s
          = renderListElements R os f depth field list_tag s
  rm : ∀ (f2 : Nat) (depth : Int) (field : FieldSchema) (name : String) (list_tag : Nat)
      (s : Stream), 5 * s.length + 2 ≤ f → 5 * s.length + 2 ≤ f2 →
      Within s.length (fun b : List Event × Option Nat × Stream => tagWeight b.2.1 + b.2.2.length)
          (RenderMap R os f depth field name list_tag s)
        ∧ RenderMap R os f2 depth field name list_tag s
          = RenderMap R os f depth field name list_tag s
  rme : ∀ (f2 : Nat) (depth : Int) (entry : TypeSchema) (list_tag : Nat) (s : Stream),
      5 * s.length + 1 ≤ f → 5 * s.length + 1 ≤ f2 →
      Within s.length
          (fun b : List (LogicalValue × List Event) × Option Nat × Stream =>
            tagWeight b.2.1 + b.2.2.length)
          (readMapEntries R os f depth entry list_tag s)
        ∧ readMapEntries R os f2 depth entry list_tag s
          = readMapEntries R os f depth entry list_tag s
  re : ∀ (f2 : Nat) (depth : Int) (entry : TypeSchema) (key : LogicalValue) (value : List Event)
      (tag : Option Nat) (s : Stream), 5 * (tagWeight tag + s.length) + 1 ≤ f →
      5 * (tagWeight tag + s.length) + 1 ≤ f2 →
      Within 0 (fun _ : LogicalValue × List Event => 0)
          (readMapEntry R os f depth entry key value tag s)
        ∧ readMapEntry R os f2 depth entry key value tag s
          = readMapEntry R os f depth entry key value tag s

/-- Modelled from the spec: the constructor of `ProtoStreamObjectSource`,
declared at header lines 48-50 and 104-106, body not in the sources.  The
options start at the defaults that the header comments (lines 86 and 253) and
§6 of the specification name: ceiling 64, no lower-camel enum names, unknown
fields not rendered. -/
def ProtoStreamObjectSource.new (typeinfo : TypeInfo) (type : TypeSchema) :
    ProtoStreamObjectSource :=
  { typeinfo_ := typeinfo
    type_ := type
    use_lower_camel_for_enums_ := false
    max_recursion_depth_ := 64
    render_unknown_fields_ := false }

end ProtoStream

/-!
# HMAC over a message digest

Embedding of `crypto/hmac/hmac.c` in the build without `OPENSSL_FIPS` (the
blocks under `#ifdef OPENSSL_FIPS` are not compiled).  The digest layer
(`EVP_MD`, `EVP_MD_CTX` and the `EVP_*` calls, declared in `openssl/evp.h`)
and the header `openssl/hmac.h` are not part of the sources: a digest is taken
as a parameter (its hash function, its block size and the outcome of each of
its calls), and so is the constant `HMAC_MAX_MD_CBLOCK`.

Conventions of the embedding:
* a byte buffer is the list of its bytes; a write past the end of a buffer
  shows as a longer list;
* a pointer to a digest is `Option Nat`, `none` being `NULL`, and the
  environment maps the address to the digest stored there;
* a function that the C code aborts in (`OPENSSL_assert`) returns `none`.
-/

namespace OpenSSL

/-- Modelled from the spec: a message digest `EVP_MD` (declared in
`openssl/evp.h`, not in the sources), at the interface the claims name: its
block size in bytes (`EVP_MD_block_size`), its hash function `H` from all the
bytes fed to a context to the digest value, and for each kind of digest call
whether the call returns 1, as a function of the bytes the context holds (and
of the bytes passed in). -/
structure EVP_MD where
  block_size : Nat
  H : List Nat → List Nat
  init_ok : Bool
  update_ok : List Nat → List Nat → Bool
  final_ok : List Nat → Bool
  copy_ok : List Nat → Bool

/-- Modelled from the spec: a digest context `EVP_MD_CTX` (declared in
`openssl/evp.h`, not in the sources): the digest it was initialised with
(`none` before any initialisation) and the bytes fed to it since. -/
structure EVP_MD_CTX where
  digest : Option Nat
  data : List Nat
  deriving DecidableEq, Repr

/-- The parts of the environment that `hmac.c` reads and the sources do not
hold: the constant `HMAC_MAX_MD_CBLOCK` of `openssl/hmac.h`, which is also the
declared size of the array `key` of `HMAC_CTX`, and the digest stored at each
address. -/
structure Env where
  HMAC_MAX_MD_CBLOCK : Nat
  digest : Nat → EVP_MD

/-- The struct `HMAC_CTX` (declared in `openssl/hmac.h`; the fields are the
ones `hmac.c` reads and writes, see `HMAC_CTX_copy`, lines 154-168). -/
structure HMAC_CTX where
  md : Option Nat
  md_ctx : EVP_MD_CTX
  i_ctx : EVP_MD_CTX
  o_ctx : EVP_MD_CTX
  key_length : Nat
  key : List Nat
  deriving DecidableEq, Repr

/-- Modelled from the spec: `EVP_MD_CTX_init` (not in the sources) clears the
context. -/
def EVP_MD_CTX_init (_ctx : EVP_MD_CTX) : EVP_MD_CTX :=
  { digest := none, data := [] }

/-- Modelled from the spec: `EVP_DigestInit_ex` (not in the sources) starts a
new computation with the digest at `md`.  `none` is the return value 0; the
embedding leaves the context as it was then. -/
def EVP_DigestInit_ex (E : Env) (_ctx : EVP_MD_CTX) (md : Nat) : Option EVP_MD_CTX :=
  if (E.digest md).init_ok then some { digest := some md, data := [] } else none

/-- Modelled from the spec: `EVP_DigestUpdate` (not in the sources) feeds the
bytes `d` to the context.  `none` is the return value 0. -/
def EVP_DigestUpdate (E : Env) (ctx : EVP_MD_CTX) (d : List Nat) : Option EVP_MD_CTX :=
  match ctx.digest with
  | none => none
  | some md =>
    if (E.digest md).update_ok ctx.data d then some { ctx with data := ctx.data ++ d }
    else none

/-- Modelled from the spec: `EVP_DigestFinal_ex` (not in the sources) returns
the hash of all the bytes fed to the context, as the bytes written to the
output buffer (their number is the value stored through the length pointer).
`none` is the return value 0. -/
def EVP_DigestFinal_ex (E : Env) (ctx : EVP_MD_CTX) : Option (EVP_MD_CTX × List Nat) :=
  match ctx.digest with
  | none => none
  | some md =>
    if (E.digest md).final_ok ctx.data then some (ctx, (E.digest md).H ctx.data) else none

/-- Modelled from the spec: `EVP_MD_CTX_copy_ex` (not in the sources) makes
`out` a copy of the initialised context `inp`: the result is the new `out`.
`none` is the return value 0. -/
def EVP_MD_CTX_copy_ex (E : Env) (_out inp : EVP_MD_CTX) : Option EVP_MD_CTX :=
  match inp.digest with
  | none => none
  | some md => if (E.digest md).copy_ok inp.data then some inp else none

/-- The call `memcpy(dst, src, n)` on a buffer `dst`: the first `n` bytes
become those of `src`. -/
def memcpy (dst src : List Nat) (n : Nat) : List Nat :=
  src.take n ++ dst.drop n

/-- The call `memset(&buf[off], 0, n)`. -/
def memset0 (buf : List Nat) (off n : Nat) : List Nat :=
  buf.take off ++ List.replicate n 0 ++ buf.drop (off + n)

/-- The expression `c ^ b` stored to an `unsigned char`. -/
def xorByte (c b : Nat) : Nat :=
  (c ^^^ b) % 256

/-- The loops of lines 81-82 and 88-89: `pad[i] = c ^ key[i]` for every
`i < HMAC_MAX_MD_CBLOCK`. -/
def xorPad (E : Env) (c : Nat) (key : List Nat) : List Nat :=
  (List.range E.HMAC_MAX_MD_CBLOCK).map fun i => xorByte c (key.getD i 0)

/-- Lines 75-77: the key buffer after the bytes from `key_length` on are set
to zero; the count `HMAC_MAX_MD_CBLOCK - ctx->key_length` is computed in
`unsigned int`. -/
def zeroFill (E : Env) (key : List Nat) (key_length : Nat) : List Nat :=
  if key_length ≠ E.HMAC_MAX_MD_CBLOCK then
    memset0 key key_length ((E.HMAC_MAX_MD_CBLOCK + (2 ^ 32 - key_length)) % 2 ^ 32)
  else key

/-- Lines 58-77 of `HMAC_Init_ex`, the branch `key != NULL`, for the digest at
`d` and the bytes `k` at `key`.  The result `none` is the abort of
`OPENSSL_assert`; `(0, ctx)` is a return of 0 (directly or through `err`) with
the context as it is then; `(1, ctx)` is control reaching line 79. -/
def HMAC_Init_ex.setKey (E : Env) (ctx : HMAC_CTX) (k : List Nat) (len : Int) (d : Nat) :
    Option (Int × HMAC_CTX) :=
  let j := (E.digest d).block_size
  if E.HMAC_MAX_MD_CBLOCK < j then none
  else
    let r : Int × HMAC_CTX :=
      if (j : Int) < len then
        match EVP_DigestInit_ex E ctx.md_ctx d with
        | none => (0, ctx)
        | some c1 =>
          match EVP_DigestUpdate E c1 (k.take len.toNat) with
          | none => (0, { ctx with md_ctx := c1 })
          | some c2 =>
            match EVP_DigestFinal_ex E c2 with
            | none => (0, { ctx with md_ctx := c2 })
            | some (c3, out) =>
              (1, { ctx with md_ctx := c3, key := memcpy ctx.key out out.length,
                             key_length := out.length % 2 ^ 32 })
      else if len < 0 ∨ len > (E.HMAC_MAX_MD_CBLOCK : Int) then (0, ctx)
      else (1, { ctx with key := memcpy ctx.key k len.toNat, key_length := len.toNat })
    if r.1 = 0 then some r
    else some (1, { r.2 with key := zeroFill E r.2.key r.2.key_length })

/-- Lines 81-93 of `HMAC_Init_ex`, the branch `reset`: the inner and the
outer context are started on the key XOR `0x36` and the key XOR `0x5c`.
`(0, ctx)` is the jump to `err`, `(1, ctx)` is control reaching line 95. -/
def HMAC_Init_ex.setPads (E : Env) (ctx : HMAC_CTX) (d : Nat) : Int × HMAC_CTX :=
  match EVP_DigestInit_ex E ctx.i_ctx d with
  | none => (0, ctx)
  | some i1 =>
    match EVP_DigestUpdate E i1 ((xorPad E 0x36 ctx.key).take (E.digest d).block_size) with
    | none => (0, { ctx with i_ctx := i1 })
    | some i2 =>
      match EVP_DigestInit_ex E ctx.o_ctx d with
      | none => (0, { ctx with i_ctx := i2 })
      | some o1 =>
        match EVP_DigestUpdate E o1 ((xorPad E 0x5c ctx.key).take (E.digest d).block_size) with
        | none => (0, { ctx with i_ctx := i2, o_ctx := o1 })
        | some o2 => (1, { ctx with i_ctx := i2, o_ctx := o2 })

/-- Lines 80-99 of `HMAC_Init_ex`: the pads when `reset` is set, then the
copy of the inner context into the running one. -/
def HMAC_Init_ex.finish (E : Env) (ctx : HMAC_CTX) (d : Nat) (reset : Bool) :
    Int × HMAC_CTX :=
  let r : Int × HMAC_CTX := if reset then HMAC_Init_ex.setPads E ctx d else (1, ctx)
  if r.1 = 0 then r
  else
    match EVP_MD_CTX_copy_ex E r.2.md_ctx r.2.i_ctx with
    | none => (0, r.2)
    | some c => (1, { r.2 with md_ctx := c })

/-- The function `HMAC_Init_ex(ctx, key, len, md, impl)` (lines 12-100):
the return value and the context after the call; `none` is the abort of
`OPENSSL_assert`.  `key` is `none` for `NULL` and otherwise the bytes at
`key`; `impl` is only handed on to the digest layer. -/
def HMAC_Init_ex (E : Env) (ctx : HMAC_CTX) (key : Option (List Nat)) (len : Int)
    (md : Option Nat) : Option (Int × HMAC_CTX) :=
  if md ≠ none ∧ md ≠ ctx.md ∧ (key = none ∨ len < 0) then some (0, ctx)
  else
    let sel : Option (Bool × HMAC_CTX × Nat) :=
      match md, ctx.md with
      | some d, _ => some (true, { ctx with md := some d }, d)
      | none, some d => some (false, ctx, d)
      | none, none => none
    match sel with
    | none => some (0, ctx)
    | some (reset, ctx1, d) =>
      match key with
      | none => some (HMAC_Init_ex.finish E ctx1 d reset)
      | some k =>
        match HMAC_Init_ex.setKey E ctx1 k len d with
        | none => none
        | some (r, ctx2) =>
          if r = 0 then some (0, ctx2) else some (HMAC_Init_ex.finish E ctx2 d true)

/-- The function `HMAC_CTX_init` (lines 146-152); the key buffer and the key
length are not written. -/
def HMAC_CTX_init (ctx : HMAC_CTX) : HMAC_CTX :=
  { ctx with i_ctx := EVP_MD_CTX_init ctx.i_ctx, o_ctx := EVP_MD_CTX_init ctx.o_ctx,
             md_ctx := EVP_MD_CTX_init ctx.md_ctx, md := none }

/-- The function `HMAC_Init` (lines 102-107). -/
def HMAC_Init (E : Env) (ctx : HMAC_CTX) (key : Option (List Nat)) (len : Int)
    (md : Option Nat) : Option (Int × HMAC_CTX) :=
  if key ≠ none ∧ md ≠ none then HMAC_Init_ex E (HMAC_CTX_init ctx) key len md
  else HMAC_Init_ex E ctx key len md

/-- The function `HMAC_Update` (lines 109-119): the return value and the
context after the call. -/
def HMAC_Update (E : Env) (ctx : HMAC_CTX) (data : List Nat) : Int × HMAC_CTX :=
  if ctx.md = none then (0, ctx)
  else
    match EVP_DigestUpdate E ctx.md_ctx data with
    | none => (0, ctx)
    | some c => (1, { ctx with md_ctx := c })

/-- The function `HMAC_Final` (lines 121-144): the return value, the context
after the call and the bytes written to `md` (`none` when nothing was
written). -/
def HMAC_Final (E : Env) (ctx : HMAC_CTX) : Int × HMAC_CTX × Option (List Nat) :=
  if ctx.md = none then (0, ctx, none)
  else
    match EVP_DigestFinal_ex E ctx.md_ctx with
    | none => (0, ctx, none)
    | some (c1, buf) =>
      match EVP_MD_CTX_copy_ex E c1 ctx.o_ctx with
      | none => (0, { ctx with md_ctx := c1 }, none)
      | some c2 =>
        match EVP_DigestUpdate E c2 buf with
        | none => (0, { ctx with md_ctx := c2 }, none)
        | some c3 =>
          match EVP_DigestFinal_ex E c3 with
          | none => (0, { ctx with md_ctx := c3 }, none)
          | some (c4, out) => (1, { ctx with md_ctx := c4 }, some out)

/-- The function `HMAC` (lines 184-205): `some (some mac)` is the return of
`md` with the bytes `mac` written to it, `some none` the return of `NULL`,
`none` an abort.  `c` is the content of the local variable `c` at entry, `d`
the `n` bytes of the message.  The choice of the static buffer for a NULL
`md` and the final `HMAC_CTX_cleanup` of the local context do not change the
bytes written and are left out. -/
def HMAC (E : Env) (c : HMAC_CTX) (evp_md : Option Nat) (key : Option (List Nat))
    (key_len : Int) (d : List Nat) : Option (Option (List Nat)) :=
  match HMAC_Init E (HMAC_CTX_init c) key key_len evp_md with
  | none => none
  | some (r1, c1) =>
    if r1 = 0 then some none
    else
      let r2 := HMAC_Update E c1 d
      if r2.1 = 0 then some none
      else
        let r3 := HMAC_Final E r2.2
        if r3.1 = 0 then some none else some r3.2.2

/-- A sequence of `HMAC_Update` calls, one per element of `ds`: the context
after the last one. -/
def updates (E : Env) (ctx : HMAC_CTX) : List (List Nat) → HMAC_CTX
  | [] => ctx
  | d :: ds => updates E (HMAC_Update E ctx d).2 ds

/-! ### Reference definitions -/

/-- Reference definition, from the words of the claim: the key block `K` of
`B` bytes for the key `k`: `k` padded with zero bytes when it has at most `B`
bytes, the hash of `k` padded with zero bytes otherwise. -/
def hmacKeyBlock (H : List Nat → List Nat) (B : Nat) (k : List Nat) : List Nat :=
  if k.length ≤ B then k ++ List.replicate (B - k.length) 0
  else H k ++ List.replicate (B - (H k).length) 0

/-- Reference definition, from the words of the claim:
`H((K xor 0x5c..) || H((K xor 0x36..) || m))`. -/
def hmacRef (H : List Nat → List Nat) (B : Nat) (k m : List Nat) : List Nat :=
  H ((hmacKeyBlock H B k).map (xorByte 0x5c) ++
    H ((hmacKeyBlock H B k).map (xorByte 0x36) ++ m))

/-! ### Example digest -/

/-- An example digest with block size 4 whose hash is the two-byte sum of the
bytes fed to it, and whose calls all succeed. -/
def sumDigest : EVP_MD :=
  { block_size := 4
    H := fun x => [x.sum % 256, (x.sum / 256) % 256]
    init_ok := true
    update_ok := fun _ _ => true
    final_ok := fun _ => true
    copy_ok := fun _ => true }

/-- An example environment: key buffers of 8 bytes, `sumDigest` at every
address. -/
def sumEnv : Env :=
  { HMAC_MAX_MD_CBLOCK := 8, digest := fun _ => sumDigest }

/-- An example context as `HMAC_CTX_init` leaves it, with an 8-byte key
buffer. -/
def blankCtx : HMAC_CTX :=
  { md := none, md_ctx := ⟨none, []⟩, i_ctx := ⟨none, []⟩, o_ctx := ⟨none, []⟩,
    key_length := 0, key := [9, 9, 9, 9, 9, 9, 9, 9] }

end OpenSSL

/-!
# SnapshotList: the doubly-linked list of snapshots of a DB

Embedding of `db/snapshot.h` (classes `SnapshotImpl` and `SnapshotList`).  The
list is a circular doubly-linked list through a dummy head `list_`; the
embedding keeps the pointers: a heap maps an address to the node stored there,
address 0 is the address of the dummy head, and every method is the sequence
of field assignments of its body.
-/

namespace rocksdb

/-- The type `SequenceNumber` (an unsigned 64-bit integer; the list only
stores and returns it). -/
abbrev SequenceNumber := Nat

/-- Address of a `SnapshotImpl`.  Address 0 is `&list_`, the dummy head. -/
abbrev Ptr := Nat

/-- The fields of `SnapshotImpl` (lines 13-26).  The back pointer `list_` is
read only by the assertion of `Delete`; the embedding has one list and leaves
it out. -/
structure SnapshotImpl where
  number_ : SequenceNumber
  prev_ : Ptr
  next_ : Ptr
  unix_time_ : Int
  deriving DecidableEq, Repr

/-- The heap: the node stored at each address. -/
abbrev Heap := Ptr → SnapshotImpl

/-- Assignment `p->number_ = v`. -/
def setNumber (mem : Heap) (p : Ptr) (v : SequenceNumber) : Heap :=
  fun q => if q = p then { mem p with number_ := v } else mem q

/-- Assignment `p->unix_time_ = v`. -/
def setTime (mem : Heap) (p : Ptr) (v : Int) : Heap :=
  fun q => if q = p then { mem p with unix_time_ := v } else mem q

/-- Assignment `p->next_ = v`. -/
def setNext (mem : Heap) (p : Ptr) (v : Ptr) : Heap :=
  fun q => if q = p then { mem p with next_ := v } else mem q

/-- Assignment `p->prev_ = v`. -/
def setPrev (mem : Heap) (p : Ptr) (v : Ptr) : Heap :=
  fun q => if q = p then { mem p with prev_ := v } else mem q

/-- The state of a `SnapshotList` (lines 93-94): the dummy head `list_` is
the node at address 0 of `mem`, the snapshots are the nodes linked from it;
`count_` is the 64-bit counter. -/
structure SnapshotList where
  mem : Heap
  count_ : Nat

/-- The conversion of a `uint64_t` to `int64_t` (the assignment
`s->unix_time_ = unix_time` of `New`). -/
def toInt64 (v : Nat) : Int :=
  if v % 2 ^ 64 < 2 ^ 63 then ((v % 2 ^ 64 : Nat) : Int) else ((v % 2 ^ 64 : Nat) : Int) - 2 ^ 64

/-- The constructor `SnapshotList()` (lines 31-36): the dummy head points at
itself in both directions and carries the number `0xFFFFFFFF`.  The heap
outside the head is not touched by the constructor; the embedding starts it
with the same node everywhere. -/
def SnapshotList.init : SnapshotList :=
  { mem := fun _ => { number_ := 0xFFFFFFFF, prev_ := 0, next_ := 0, unix_time_ := 0 }
    count_ := 0 }

/-- The method `empty()` (line 38). -/
def SnapshotList.empty (l : SnapshotList) : Bool :=
  (l.mem 0).next_ = 0

/-- The method `oldest()` (line 39); `none` is the failure of
`assert(!empty())`. -/
def SnapshotList.oldest (l : SnapshotList) : Option Ptr :=
  if l.empty then none else some (l.mem 0).next_

/-- The method `newest()` (line 40); `none` is the failure of
`assert(!empty())`. -/
def SnapshotList.newest (l : SnapshotList) : Option Ptr :=
  if l.empty then none else some (l.mem 0).prev_

/-- The method `New(seq, unix_time)` (lines 42-53).  `s` is the address that
`new SnapshotImpl` returned; the method returns `s`, the embedding returns the
list after the call. -/
def SnapshotList.New (l : SnapshotList) (s : Ptr) (seq : SequenceNumber)
    (unix_time : Nat) : SnapshotList :=
  let m1 := setNumber l.mem s seq
  let m2 := setTime m1 s (toInt64 unix_time)
  let m3 := setNext m2 s 0
  let m4 := setPrev m3 s (m3 0).prev_
  let m5 := setNext m4 (m4 s).prev_ s
  let m6 := setPrev m5 (m5 s).next_ s
  { mem := m6, count_ := (l.count_ + 1) % 2 ^ 64 }

/-- The method `Delete(s)` (lines 55-61).  The freed node keeps its bytes in
the heap of the embedding; nothing reads them. -/
def SnapshotList.Delete (l : SnapshotList) (s : Ptr) : SnapshotList :=
  let m1 := setNext l.mem (l.mem s).prev_ (l.mem s).next_
  let m2 := setPrev m1 (m1 s).next_ (m1 s).prev_
  { mem := m2, count_ := (l.count_ + 2 ^ 64 - 1) % 2 ^ 64 }

/-- The method `GetNewest()` (lines 74-79); `none` is a failed assertion of
`newest()`. -/
def SnapshotList.GetNewest (l : SnapshotList) : Option SequenceNumber :=
  if l.empty then some 0 else (l.newest).map fun p => (l.mem p).number_

/-- The method `GetOldestSnapshotTime()` (lines 81-87). -/
def SnapshotList.GetOldestSnapshotTime (l : SnapshotList) : Option Int :=
  if l.empty then some 0 else (l.oldest).map fun p => (l.mem p).unix_time_

/-- The method `count()` (line 89). -/
def SnapshotList.count (l : SnapshotList) : Nat := l.count_

/-! ### Call sequences -/

/-- One call on the list: `New` with the address the allocator returned for
the new node, or `Delete` of a snapshot. -/
inductive Op where
  | New (s : Ptr) (seq : SequenceNumber) (unix_time : Nat)
  | Delete (s : Ptr)
  deriving DecidableEq, Repr

/-- The list after one call. -/
def SnapshotList.step (l : SnapshotList) : Op → SnapshotList
  | .New s seq unix_time => l.New s seq unix_time
  | .Delete s => l.Delete s

/-- The list after a sequence of calls, first call first. -/
def SnapshotList.run (l : SnapshotList) : List Op → SnapshotList
  | [] => l
  | op :: ops => (l.step op).run ops

/-- Reference definition, from the words of the claims: the snapshots in the
list after a sequence of calls, as pairs of address and sequence number, in
the order of their `New` calls; `xs` are the snapshots in the list before the
calls.  `New` adds its snapshot at the end, `Delete` takes its snapshot
out. -/
def snapshotsAfter (xs : List (Ptr × SequenceNumber)) : List Op → List (Ptr × SequenceNumber)
  | [] => xs
  | .New s seq _ :: ops => snapshotsAfter (xs ++ [(s, seq)]) ops
  | .Delete s :: ops => snapshotsAfter (xs.filter fun x => x.1 ≠ s) ops

/-- A call sequence is well-formed from the snapshots `xs` when every `New`
gets from the allocator an address that is not in use (neither the head nor a
snapshot in the list) and every `Delete` is passed a snapshot that is in the
list at that moment. -/
def wellFormed (xs : List (Ptr × SequenceNumber)) : List Op → Bool
  | [] => true
  | .New s seq _ :: ops =>
    decide (s ≠ 0) && decide (s ∉ xs.map Prod.fst) && wellFormed (xs ++ [(s, seq)]) ops
  | .Delete s :: ops =>
    decide (s ∈ xs.map Prod.fst) && wellFormed (xs.filter fun x => x.1 ≠ s) ops

/-- The nodes `ys` are linked in this order from the node `x` on and the last
of them (or `x`, when there is none) is linked back to the head: each `next_`
points at the following node and each `prev_` at the preceding one. -/
def Linked (mem : Heap) : Ptr → List Ptr → Prop
  | x, [] => (mem x).next_ = 0 ∧ (mem 0).prev_ = x
  | x, y :: ys => (mem x).next_ = y ∧ (mem y).prev_ = x ∧ Linked mem y ys

/-- The list `l` holds exactly the snapshots `xs` (address and sequence
number), linked in this order from the head, at distinct addresses other than
the address of the head. -/
def Holds (l : SnapshotList) (xs : List (Ptr × SequenceNumber)) : Prop :=
  Linked l.mem 0 (xs.map Prod.fst) ∧ (xs.map Prod.fst).Nodup ∧ 0 ∉ xs.map Prod.fst ∧
    ∀ x ∈ xs, (l.mem x.1).number_ = x.2

end rocksdb

/-! # Theorems -/

namespace ProtoStream

/-! ## Wire primitives -/

theorem readVarintAux_encode (rest : List Nat) :
    ∀ (k n shift acc : Nat), n < 2 ^ (7 * (k + 1)) →
      readVarintAux (k + 1) shift acc (encodeVarintAux (k + 1) n ++ rest)
        = .ok (acc + n * 2 ^ shift, rest) := by
  intro k
  induction k with
  | zero =>
    intro n shift acc h
    have h128 : n < 128 := by simpa using h
    simp [encodeVarintAux, readVarintAux, h128]
  | succ k ih =>
    intro n shift acc h
    by_cases h128 : n < 128
    · simp [encodeVarintAux, readVarintAux, h128]
    · have hdiv : n / 128 < 2 ^ (7 * (k + 1)) := by
        rw [Nat.div_lt_iff_lt_mul (by norm_num)]
        calc n < 2 ^ (7 * (k + 1 + 1)) := h
          _ = 2 ^ (7 * (k + 1)) * 128 := by rw [show 7 * (k + 1 + 1) = 7 * (k + 1) + 7 by ring, pow_add]; norm_num
      have hstep : encodeVarintAux (k + 1 + 1) n = (n % 128 + 128) :: encodeVarintAux (k + 1) (n / 128) := by
        rw [encodeVarintAux]; simp [h128]
      rw [hstep, List.cons_append, readVarintAux]
      have hnot : ¬ (n % 128 + 128 < 128) := by omega
      rw [if_neg hnot, ih (n / 128) (shift + 7) _ hdiv]
      congr 2
      have hmod : (n % 128 + 128) % 128 = n % 128 := by omega
      rw [hmod, pow_add]
      have hn : n = 128 * (n / 128) + n % 128 := (Nat.div_add_mod n 128).symm
      generalize n / 128 = q at hn
      generalize n % 128 = r at hn
      subst hn
      ring

theorem ReadVarint32_encode (n : Nat) (rest : List Nat) (h : n < 2 ^ 32) :
    ReadVarint32 (encodeVarint n ++ rest) = .ok (n, rest) := by
  have h70 : n < 2 ^ (7 * (9 + 1)) := lt_of_lt_of_le h (by norm_num)
  have := readVarintAux_encode rest 9 n 0 0 h70
  simp only [ReadVarint32, encodeVarint]
  rw [this]
  simp only [Nat.zero_add, pow_zero, Nat.mul_one, Nat.mod_eq_of_lt h]

theorem ReadVarint64_encode (n : Nat) (rest : List Nat) (h : n < 2 ^ 64) :
    ReadVarint64 (encodeVarint n ++ rest) = .ok (n, rest) := by
  have h70 : n < 2 ^ (7 * (9 + 1)) := lt_of_lt_of_le h (by norm_num)
  have := readVarintAux_encode rest 9 n 0 0 h70
  simp only [ReadVarint64, encodeVarint]
  rw [this]
  simp only [Nat.zero_add, pow_zero, Nat.mul_one, Nat.mod_eq_of_lt h]

theorem encodeVarint_ne_nil (n : Nat) : encodeVarint n ≠ [] := by
  unfold encodeVarint
  rw [encodeVarintAux]
  split <;> simp

theorem ReadTag_encode (t : Nat) (rest : List Nat) (h : t < 2 ^ 32) :
    ReadTag (encodeVarint t ++ rest) = .ok (some t, rest) := by
  have hne := encodeVarint_ne_nil t
  have hr := ReadVarint32_encode t rest h
  cases hx : encodeVarint t with
  | nil => exact absurd hx hne
  | cons b bs =>
    rw [hx] at hr
    simp only [List.cons_append] at hr ⊢
    simp only [ReadTag, hr]

theorem readVarintAux_within :
    ∀ (n shift acc : Nat) (s : Stream),
      Within s.length (fun b : Nat × Stream => b.2.length + 1) (readVarintAux n shift acc s) := by
  intro n
  induction n with
  | zero => intro shift acc s; simp [Within, readVarintAux]
  | succ n ih =>
    intro shift acc s
    cases s with
    | nil => simp [Within, readVarintAux]
    | cons b bs =>
      rw [readVarintAux]
      by_cases hb : b < 128
      · simp [Within, hb]
      · rw [if_neg hb]
        obtain ⟨h1, h2⟩ := ih (shift + 7) (acc + (b % 128) * 2 ^ shift) bs
        refine ⟨h1, fun v hv => ?_⟩
        have := h2 v hv
        simp only [List.length_cons] at this ⊢
        omega

theorem ReadVarint32_within (s : Stream) :
    Within s.length (fun b : Nat × Stream => b.2.length + 1) (ReadVarint32 s) := by
  obtain ⟨h1, h2⟩ := readVarintAux_within 10 0 0 s
  unfold ReadVarint32
  cases h : readVarintAux 10 0 0 s with
  | error e => exact ⟨by rw [h] at h1; simpa using h1, by simp⟩
  | ok p =>
    obtain ⟨v, rest⟩ := p
    refine ⟨by simp, fun b hb => ?_⟩
    simp only [Except.ok.injEq] at hb
    subst hb
    exact h2 (v, rest) h

theorem ReadVarint64_within (s : Stream) :
    Within s.length (fun b : Nat × Stream => b.2.length + 1) (ReadVarint64 s) := by
  obtain ⟨h1, h2⟩ := readVarintAux_within 10 0 0 s
  unfold ReadVarint64
  cases h : readVarintAux 10 0 0 s with
  | error e => exact ⟨by rw [h] at h1; simpa using h1, by simp⟩
  | ok p =>
    obtain ⟨v, rest⟩ := p
    refine ⟨by simp, fun b hb => ?_⟩
    simp only [Except.ok.injEq] at hb
    subst hb
    exact h2 (v, rest) h

theorem ReadTag_within (s : Stream) :
    Within s.length (fun b : Option Nat × Stream => tagWeight b.1 + b.2.length) (ReadTag s) := by
  cases s with
  | nil => simp [Within, ReadTag, tagWeight]
  | cons c cs =>
    obtain ⟨h1, h2⟩ := ReadVarint32_within (c :: cs)
    simp only [ReadTag]
    cases h : ReadVarint32 (c :: cs) with
    | error e => exact ⟨by rw [h] at h1; simpa using h1, by simp⟩
    | ok p =>
      obtain ⟨v, rest⟩ := p
      refine ⟨by simp, fun b hb => ?_⟩
      simp only [Except.ok.injEq] at hb
      subst hb
      have := h2 _ h
      simp only [tagWeight] at this ⊢
      omega

theorem ReadRaw_within (n : Nat) (s : Stream) :
    Within s.length (fun b : List Nat × Stream => b.1.length + b.2.length) (ReadRaw n s) := by
  unfold ReadRaw
  by_cases h : n ≤ s.length
  · rw [if_pos h]
    refine ⟨by simp, fun b hb => ?_⟩
    simp only [Except.ok.injEq] at hb
    subst hb
    simp only [List.length_take, List.length_drop]
    omega
  · rw [if_neg h]
    simp [Within]

theorem ReadLengthDelimited_within (s : Stream) :
    Within s.length (fun b : List Nat × Stream => b.1.length + b.2.length + 1)
      (ReadLengthDelimited s) := by
  obtain ⟨h1, h2⟩ := ReadVarint32_within s
  unfold ReadLengthDelimited
  cases h : ReadVarint32 s with
  | error e => exact ⟨by rw [h] at h1; simpa using h1, by simp⟩
  | ok p =>
    obtain ⟨len, s1⟩ := p
    obtain ⟨h3, h4⟩ := ReadRaw_within len s1
    have := h2 _ h
    refine ⟨h3, fun b hb => ?_⟩
    have := h4 b hb
    simp only at *
    omega

theorem ReadWireValue_within (w : Nat) (s : Stream) :
    Within s.length (fun b : RawValue × Stream => b.2.length + 1) (ReadWireValue w s) := by
  unfold ReadWireValue
  split
  · obtain ⟨h1, h2⟩ := ReadVarint64_within s
    cases h : ReadVarint64 s with
    | error e => exact ⟨by rw [h] at h1; simpa using h1, by simp⟩
    | ok p =>
      obtain ⟨v, rest⟩ := p
      refine ⟨by simp, fun b hb => ?_⟩
      simp only [Except.ok.injEq] at hb
      subst hb
      exact h2 _ h
  · split
    · obtain ⟨h1, h2⟩ := ReadRaw_within 8 s
      unfold ReadRaw at *
      by_cases h8 : 8 ≤ s.length
      · simp only [if_pos h8]
        refine ⟨by simp, fun b hb => ?_⟩
        simp only [Except.ok.injEq] at hb
        subst hb
        simp only [List.length_drop]
        omega
      · simp [if_neg h8, Within]
    · split
      · obtain ⟨h1, h2⟩ := ReadLengthDelimited_within s
        cases h : ReadLengthDelimited s with
        | error e => exact ⟨by rw [h] at h1; simpa using h1, by simp⟩
        | ok p =>
          obtain ⟨v, rest⟩ := p
          refine ⟨by simp, fun b hb => ?_⟩
          simp only [Except.ok.injEq] at hb
          subst hb
          have := h2 _ h
          simp only at this ⊢
          omega
      · split
        · unfold ReadRaw
          by_cases h4 : 4 ≤ s.length
          · simp only [if_pos h4]
            refine ⟨by simp, fun b hb => ?_⟩
            simp only [Except.ok.injEq] at hb
            subst hb
            simp only [List.length_drop]
            omega
          · simp [if_neg h4, Within]
        · simp [Within]
theorem skipAux_within :
    ∀ (fuel : Nat) (groups : List Nat) (tag : Nat) (s : Stream), s.length < fuel →
      Within s.length (fun s1 : Stream => s1.length) (skipAux fuel groups tag s) := by
  intro fuel
  induction fuel with
  | zero => intro groups tag s h; omega
  | succ fuel ih =>
    intro groups tag s hfuel
    have hcont : ∀ (gs : List Nat) (s1 : Stream), s1.length ≤ s.length →
        Within s.length (fun s1 : Stream => s1.length)
          (match gs with
            | [] => (Except.ok s1 : Except DecodeError Stream)
            | _ :: _ =>
              match ReadTag s1 with
              | .error e => .error e
              | .ok (none, _) => .error .truncatedStream
              | .ok (some t, s2) => skipAux fuel gs t s2) := by
      intro gs s1 hs1
      cases gs with
      | nil => exact ⟨by simp, fun b hb => by simp only [Except.ok.injEq] at hb; subst hb; exact hs1⟩
      | cons g gs =>
        obtain ⟨h1, h2⟩ := ReadTag_within s1
        simp only
        cases h : ReadTag s1 with
        | error e => exact ⟨by rw [h] at h1; simpa using h1, by simp⟩
        | ok p =>
          obtain ⟨next, s2⟩ := p
          have hlen := h2 _ h
          cases next with
          | none => simp [Within]
          | some t =>
            simp only [tagWeight] at hlen
            obtain ⟨h3, h4⟩ := ih (g :: gs) t s2 (by omega)
            exact ⟨h3, fun b hb => by have := h4 b hb; simp only at this ⊢; omega⟩
    rw [skipAux.eq_def]
    simp only
    by_cases h3 : GetTagWireType tag = WIRETYPE_START_GROUP
    · rw [if_pos h3]
      exact hcont (GetTagFieldNumber tag :: groups) s (le_refl _)
    · rw [if_neg h3]
      by_cases h4 : GetTagWireType tag = WIRETYPE_END_GROUP
      · rw [if_pos h4]
        cases groups with
        | nil => simp [Within]
        | cons g gs =>
          simp only
          by_cases hg : g = GetTagFieldNumber tag
          · rw [if_pos hg]
            exact hcont gs s (le_refl _)
          · rw [if_neg hg]
            simp [Within]
      · rw [if_neg h4]
        obtain ⟨h1, h2⟩ := ReadWireValue_within (GetTagWireType tag) s
        cases h : ReadWireValue (GetTagWireType tag) s with
        | error e => exact ⟨by rw [h] at h1; simpa using h1, by simp⟩
        | ok p =>
          obtain ⟨raw, s1⟩ := p
          have hlen := h2 _ h
          exact hcont groups s1 (by simp only at hlen; omega)

theorem SkipField_within (tag : Nat) (s : Stream) :
    Within s.length (fun s1 : Stream => s1.length) (SkipField tag s) :=
  skipAux_within (s.length + 1) [] tag s (Nat.lt_succ_self _)

theorem SkipUnknownField_within (os : ProtoStreamObjectSource) (tag : Nat) (s : Stream) :
    Within s.length (fun b : List Event × Stream => b.2.length) (SkipUnknownField os tag s) := by
  obtain ⟨h1, h2⟩ := SkipField_within tag s
  unfold SkipUnknownField
  cases h : SkipField tag s with
  | error e => exact ⟨by rw [h] at h1; simpa using h1, by simp⟩
  | ok s1 =>
    have := h2 _ h
    simp only
    split
    · exact ⟨by simp, fun b hb => by simp only [Except.ok.injEq] at hb; subst hb; exact this⟩
    · exact ⟨by simp, fun b hb => by simp only [Except.ok.injEq] at hb; subst hb; exact this⟩

theorem RenderEnum_fuel (os : ProtoStreamObjectSource) (field : FieldSchema) (v : Nat) :
    RenderEnum os field v ≠ .error .outOfFuel := by
  unfold RenderEnum
  repeat' split
  all_goals simp

theorem decode_scalar_fuel (os : ProtoStreamObjectSource) (field : FieldSchema) (raw : RawValue) :
    decode_scalar os field raw ≠ .error .outOfFuel := by
  unfold decode_scalar
  split
  all_goals first
    | exact RenderEnum_fuel os field _
    | (split <;> simp)
    | simp

theorem RenderNonMessageField_within (os : ProtoStreamObjectSource) (field : FieldSchema)
    (name : String) (s : Stream) :
    Within s.length (fun b : List Event × Stream => b.2.length + 1)
      (RenderNonMessageField os field name s) := by
  obtain ⟨h1, h2⟩ := ReadWireValue_within (WireTypeForFieldType field.kind) s
  unfold RenderNonMessageField
  cases h : ReadWireValue (WireTypeForFieldType field.kind) s with
  | error e => exact ⟨by rw [h] at h1; simpa using h1, by simp⟩
  | ok p =>
    obtain ⟨raw, s1⟩ := p
    have hlen := h2 _ h
    simp only
    cases hd : decode_scalar os field raw with
    | error e => exact ⟨by have := decode_scalar_fuel os field raw; rw [hd] at this; simpa using this, by simp⟩
    | ok v =>
      exact ⟨by simp, fun b hb => by simp only [Except.ok.injEq] at hb; subst hb; exact hlen⟩

theorem packedItems_fuel (os : ProtoStreamObjectSource) (field : FieldSchema) :
    ∀ (fuel : Nat) (s : Stream), s.length < fuel →
      packedItems os field fuel s ≠ .error .outOfFuel := by
  intro fuel
  induction fuel with
  | zero => intro s h; omega
  | succ fuel ih =>
    intro s hfuel
    cases s with
    | nil => simp [packedItems]
    | cons b bs =>
      obtain ⟨h1, h2⟩ := RenderNonMessageField_within os field "" (b :: bs)
      rw [packedItems]
      cases h : RenderNonMessageField os field "" (b :: bs) with
      | error e => rw [h] at h1; simpa using h1
      | ok p =>
        obtain ⟨evs, s1⟩ := p
        have hlen := h2 _ h
        have := ih s1 (by simp only at hlen; omega)
        simp only
        cases hp : packedItems os field fuel s1 with
        | error e => rw [hp] at this; simpa using this
        | ok evs2 => simp

theorem RenderPacked_within (os : ProtoStreamObjectSource) (field : FieldSchema) (s : Stream) :
    Within s.length (fun b : List Event × Stream => b.2.length + 1) (RenderPacked os field s) := by
  obtain ⟨h1, h2⟩ := ReadLengthDelimited_within s
  unfold RenderPacked
  cases h : ReadLengthDelimited s with
  | error e => exact ⟨by rw [h] at h1; simpa using h1, by simp⟩
  | ok p =>
    obtain ⟨payload, rest⟩ := p
    have hlen := h2 _ h
    have hp := packedItems_fuel os field (payload.length + 1) payload (Nat.lt_succ_self _)
    simp only
    cases hq : packedItems os field (payload.length + 1) payload with
    | error e => exact ⟨by rw [hq] at hp; simpa using hp, by simp⟩
    | ok evs =>
      exact ⟨by simp, fun b hb => by
        simp only [Except.ok.injEq] at hb; subst hb; simp only at hlen ⊢; omega⟩

theorem FindAndVerifyField_fuel (type : TypeSchema) (tag : Nat) :
    FindAndVerifyField type tag ≠ .error .outOfFuel := by
  unfold FindAndVerifyField
  repeat' split
  all_goals simp

theorem IncrementRecursionDepth_fuel (os : ProtoStreamObjectSource) (depth : Int)
    (type_name field_name : String) :
    IncrementRecursionDepth os depth type_name field_name ≠ .error .outOfFuel := by
  unfold IncrementRecursionDepth
  split <;> simp
theorem Within.error {β γ : Type} {bound : Nat} {measure : γ → Nat}
    {r : Except DecodeError β} {e : DecodeError} (hr : r ≠ .error .outOfFuel)
    (h : r = .error e) : Within bound measure (Except.error e : Except DecodeError γ) := by
  subst h
  exact ⟨by simpa using hr, by simp⟩

theorem Within.ok {γ : Type} {bound : Nat} {measure : γ → Nat} {b : γ}
    (h : measure b ≤ bound) : Within bound measure (Except.ok b : Except DecodeError γ) :=
  ⟨by simp, fun c hc => by simp only [Except.ok.injEq] at hc; subst hc; exact h⟩

theorem walkWithin_wm (R : String → Option TypeRenderer) (os : ProtoStreamObjectSource)
    (hR : RenderersWithin R) (f : Nat) (ih : WalkWithin R os f) :
    ∀ (f2 : Nat) (depth : Int) (type : TypeSchema) (name : String) (end_tag : Nat)
      (framed : Bool) (s : Stream), 5 * s.length + 2 ≤ f + 1 → 5 * s.length + 2 ≤ f2 →
      Within s.length (fun b : List Event × Stream => b.2.length)
          (WriteMessage R os (f + 1) depth type name end_tag framed s)
        ∧ WriteMessage R os f2 depth type name end_tag framed s
          = WriteMessage R os (f + 1) depth type name end_tag framed s := by
  intro f2 depth type name end_tag framed s hf hf2
  obtain ⟨g, rfl⟩ : ∃ g, f2 = g + 1 := ⟨f2 - 1, by omega⟩
  rw [WriteMessage, WriteMessage]
  cases hr : R type.name with
  | some r => exact ⟨hR _ r type name s hr, rfl⟩
  | none =>
    simp only
    cases htag : ReadTag s with
    | error e => exact ⟨Within.error (ReadTag_within s).1 htag, by trivial⟩
    | ok p =>
      obtain ⟨tag, s1⟩ := p
      have hlen := (ReadTag_within s).2 _ htag
      simp only at hlen ⊢
      obtain ⟨hw, he⟩ := ih.wf g depth type end_tag tag s1 (by omega) (by omega)
      rw [he]
      cases hres : writeFields R os f depth type end_tag tag s1 with
      | error e => exact ⟨Within.error hw.1 hres, by trivial⟩
      | ok q =>
        obtain ⟨evs, rest⟩ := q
        have hrest := hw.2 _ hres
        simp only at hrest ⊢
        split
        · refine ⟨Within.ok ?_, by trivial⟩
          (try simp only)
          omega
        · refine ⟨Within.ok ?_, by trivial⟩
          (try simp only)
          omega

theorem walkWithin_wf (R : String → Option TypeRenderer) (os : ProtoStreamObjectSource)
    (f : Nat) (ih : WalkWithin R os f) :
    ∀ (f2 : Nat) (depth : Int) (type : TypeSchema) (end_tag : Nat) (tag : Option Nat)
      (s : Stream), 5 * (tagWeight tag + s.length) + 1 ≤ f + 1 →
      5 * (tagWeight tag + s.length) + 1 ≤ f2 →
      Within s.length (fun b : List Event × Stream => b.2.length)
          (writeFields R os (f + 1) depth type end_tag tag s)
        ∧ writeFields R os f2 depth type end_tag tag s
          = writeFields R os (f + 1) depth type end_tag tag s := by
  intro f2 depth type end_tag tag s hf hf2
  obtain ⟨g, rfl⟩ : ∃ g, f2 = g + 1 := ⟨f2 - 1, by omega⟩
  cases tag with
  | none =>
    rw [writeFields, writeFields]
    refine ⟨Within.ok ?_, by trivial⟩
    (try simp only)
    omega
  | some t =>
    simp only [tagWeight] at hf hf2
    rw [writeFields, writeFields]
    by_cases hend : t = end_tag
    · simp only [if_pos hend]
      refine ⟨Within.ok ?_, by trivial⟩
      (try simp only)
      omega
    · simp only [if_neg hend]
      cases hfv : FindAndVerifyField type t with
      | error e => exact ⟨Within.error (FindAndVerifyField_fuel type t) hfv, by trivial⟩
      | ok fo =>
        cases fo with
        | none =>
          simp only
          cases hsk : SkipUnknownField os t s with
          | error e => exact ⟨Within.error (SkipUnknownField_within os t s).1 hsk, by trivial⟩
          | ok p =>
            obtain ⟨evs, s1⟩ := p
            have h1 := (SkipUnknownField_within os t s).2 _ hsk
            simp only at h1 ⊢
            cases htag : ReadTag s1 with
            | error e => exact ⟨Within.error (ReadTag_within s1).1 htag, by trivial⟩
            | ok q =>
              obtain ⟨next, s2⟩ := q
              have h2 := (ReadTag_within s1).2 _ htag
              simp only at h2 ⊢
              obtain ⟨hw, he⟩ := ih.wf g depth type end_tag next s2 (by omega) (by omega)
              rw [he]
              cases hres : writeFields R os f depth type end_tag next s2 with
              | error e => exact ⟨Within.error hw.1 hres, by trivial⟩
              | ok r =>
                obtain ⟨evs2, rest⟩ := r
                have h3 := hw.2 _ hres
                simp only at h3 ⊢
                refine ⟨Within.ok ?_, by trivial⟩
                (try simp only)
                omega
        | some field =>
          simp only
          by_cases hrep : field.cardinality = .REPEATED
          · simp only [if_pos hrep]
            by_cases hmap : IsMap os field = true
            · simp only [if_pos hmap]
              obtain ⟨hm, hme⟩ := ih.rm g depth field field.name t s (by omega) (by omega)
              rw [hme]
              cases hrm : RenderMap R os f depth field field.name t s with
              | error e => exact ⟨Within.error hm.1 hrm, by trivial⟩
              | ok p =>
                obtain ⟨evs, next, s2⟩ := p
                have h2 := hm.2 _ hrm
                simp only at h2 ⊢
                obtain ⟨hw, he⟩ := ih.wf g depth type end_tag next s2 (by omega) (by omega)
                rw [he]
                cases hres : writeFields R os f depth type end_tag next s2 with
                | error e => exact ⟨Within.error hw.1 hres, by trivial⟩
                | ok r =>
                  obtain ⟨evs2, rest⟩ := r
                  have h3 := hw.2 _ hres
                  simp only at h3 ⊢
                  refine ⟨Within.ok ?_, by trivial⟩
                  (try simp only)
                  omega
            · simp only [if_neg hmap]
              obtain ⟨hm, hme⟩ := ih.rl g depth field field.name t s (by omega) (by omega)
              rw [hme]
              cases hrm : RenderList R os f depth field field.name t s with
              | error e => exact ⟨Within.error hm.1 hrm, by trivial⟩
              | ok p =>
                obtain ⟨evs, next, s2⟩ := p
                have h2 := hm.2 _ hrm
                simp only at h2 ⊢
                obtain ⟨hw, he⟩ := ih.wf g depth type end_tag next s2 (by omega) (by omega)
                rw [he]
                cases hres : writeFields R os f depth type end_tag next s2 with
                | error e => exact ⟨Within.error hw.1 hres, by trivial⟩
                | ok r =>
                  obtain ⟨evs2, rest⟩ := r
                  have h3 := hw.2 _ hres
                  simp only at h3 ⊢
                  refine ⟨Within.ok ?_, by trivial⟩
                  (try simp only)
                  omega
          · simp only [if_neg hrep]
            obtain ⟨hm, hme⟩ := ih.rf g depth field field.name s (by omega) (by omega)
            rw [hme]
            cases hrm : RenderField R os f depth field field.name s with
            | error e => exact ⟨Within.error hm.1 hrm, by trivial⟩
            | ok p =>
              obtain ⟨evs, s1⟩ := p
              have h1 := hm.2 _ hrm
              simp only at h1 ⊢
              cases htag : ReadTag s1 with
              | error e => exact ⟨Within.error (ReadTag_within s1).1 htag, by trivial⟩
              | ok q =>
                obtain ⟨next, s2⟩ := q
                have h2 := (ReadTag_within s1).2 _ htag
                simp only at h2 ⊢
                obtain ⟨hw, he⟩ := ih.wf g depth type end_tag next s2 (by omega) (by omega)
                rw [he]
                cases hres : writeFields R os f depth type end_tag next s2 with
                | error e => exact ⟨Within.error hw.1 hres, by trivial⟩
                | ok r =>
                  obtain ⟨evs2, rest⟩ := r
                  have h3 := hw.2 _ hres
                  simp only at h3 ⊢
                  refine ⟨Within.ok ?_, by trivial⟩
                  (try simp only)
                  omega

theorem walkWithin_rf (R : String → Option TypeRenderer) (os : ProtoStreamObjectSource)
    (f : Nat) (ih : WalkWithin R os f) :
    ∀ (f2 : Nat) (depth : Int) (field : FieldSchema) (name : String) (s : Stream),
      5 * s.length + 3 ≤ f + 1 → 5 * s.length + 3 ≤ f2 →
      Within s.length (fun b : List Event × Stream => b.2.length)
          (RenderField R os (f + 1) depth field name s)
        ∧ RenderField R os f2 depth field name s = RenderField R os (f + 1) depth field name s := by
  intro f2 depth field name s hf hf2
  obtain ⟨g, rfl⟩ : ∃ g, f2 = g + 1 := ⟨f2 - 1, by omega⟩
  rw [RenderField, RenderField]
  by_cases hk : field.kind = .MESSAGE ∨ field.kind = .GROUP
  · simp only [if_pos hk]
    cases hty : field.type_url.bind os.typeinfo_.resolve with
    | none => exact ⟨⟨by simp, by simp⟩, rfl⟩
    | some type =>
      simp only
      cases hinc : IncrementRecursionDepth os depth type.name name with
      | error e => exact ⟨Within.error (IncrementRecursionDepth_fuel os depth type.name name) hinc, by trivial⟩
      | ok depth1 =>
        simp only
        by_cases hm : field.kind = .MESSAGE
        · simp only [if_pos hm]
          cases hrd : ReadLengthDelimited s with
          | error e => exact ⟨Within.error (ReadLengthDelimited_within s).1 hrd, by trivial⟩
          | ok p =>
            obtain ⟨payload, rest⟩ := p
            have h1 := (ReadLengthDelimited_within s).2 _ hrd
            simp only at h1 ⊢
            obtain ⟨hw, he⟩ := ih.wm g depth1 type name 0 true payload (by omega) (by omega)
            rw [he]
            cases hres : WriteMessage R os f depth1 type name 0 true payload with
            | error e => exact ⟨Within.error hw.1 hres, by trivial⟩
            | ok r =>
              obtain ⟨evs, left⟩ := r
              simp only
              refine ⟨Within.ok ?_, by trivial⟩
              (try simp only)
              omega
        · simp only [if_neg hm]
          obtain ⟨hw, he⟩ := ih.wm g depth1 type name (MakeTag field.number WIRETYPE_END_GROUP)
            true s (by omega) (by omega)
          exact ⟨hw, he⟩
  · simp only [if_neg hk]
    obtain ⟨h1, h2⟩ := RenderNonMessageField_within os field name s
    exact ⟨⟨h1, fun b hb => by have := h2 b hb; simp only at this ⊢; omega⟩, by trivial⟩

theorem walkWithin_rle (R : String → Option TypeRenderer) (os : ProtoStreamObjectSource)
    (f : Nat) (ih : WalkWithin R os f) :
    ∀ (f2 : Nat) (depth : Int) (field : FieldSchema) (list_tag : Nat) (s : Stream),
      5 * s.length + 4 ≤ f + 1 → 5 * s.length + 4 ≤ f2 →
      Within s.length (fun b : List Event × Option Nat × Stream => tagWeight b.2.1 + b.2.2.length)
          (renderListElements R os (f + 1) depth field list_tag s)
        ∧ renderListElements R os f2 depth field list_tag s
          = renderListElements R os (f + 1) depth field list_tag s := by
  intro f2 depth field list_tag s hf hf2
  obtain ⟨g, rfl⟩ : ∃ g, f2 = g + 1 := ⟨f2 - 1, by omega⟩
  rw [renderListElements, renderListElements]
  obtain ⟨hm, hme⟩ := ih.rf g depth field "" s (by omega) (by omega)
  rw [hme]
  cases hrm : RenderField R os f depth field "" s with
  | error e => exact ⟨Within.error hm.1 hrm, by trivial⟩
  | ok p =>
    obtain ⟨evs, s1⟩ := p
    have h1 := hm.2 _ hrm
    simp only at h1 ⊢
    cases htag : ReadTag s1 with
    | error e => exact ⟨Within.error (ReadTag_within s1).1 htag, by trivial⟩
    | ok q =>
      obtain ⟨next, s2⟩ := q
      have h2 := (ReadTag_within s1).2 _ htag
      simp only at h2 ⊢
      by_cases hsame : next = some list_tag
      · simp only [if_pos hsame]
        subst hsame
        simp only [tagWeight] at h2
        obtain ⟨hw, he⟩ := ih.rle g depth field list_tag s2 (by omega) (by omega)
        rw [he]
        cases hres : renderListElements R os f depth field list_tag s2 with
        | error e => exact ⟨Within.error hw.1 hres, by trivial⟩
        | ok r =>
          obtain ⟨evs2, next2, s3⟩ := r
          have h3 := hw.2 _ hres
          simp only at h3 ⊢
          refine ⟨Within.ok ?_, by trivial⟩
          (try simp only)
          omega
      · simp only [if_neg hsame]
        refine ⟨Within.ok ?_, by trivial⟩
        (try simp only)
        omega

theorem walkWithin_rl (R : String → Option TypeRenderer) (os : ProtoStreamObjectSource)
    (f : Nat) (ih : WalkWithin R os f) :
    ∀ (f2 : Nat) (depth : Int) (field : FieldSchema) (name : String) (list_tag : Nat)
      (s : Stream), 5 * s.length + 5 ≤ f + 1 → 5 * s.length + 5 ≤ f2 →
      Within s.length (fun b : List Event × Option Nat × Stream => tagWeight b.2.1 + b.2.2.length)
          (RenderList R os (f + 1) depth field name list_tag s)
        ∧ RenderList R os f2 depth field name list_tag s
          = RenderList R os (f + 1) depth field name list_tag s := by
  intro f2 depth field name list_tag s hf hf2
  obtain ⟨g, rfl⟩ : ∃ g, f2 = g + 1 := ⟨f2 - 1, by omega⟩
  rw [RenderList, RenderList]
  by_cases hp : IsPackable field = true ∧ list_tag = MakeTag field.number WIRETYPE_LENGTH_DELIMITED
  · simp only [if_pos hp]
    cases hrp : RenderPacked os field s with
    | error e => exact ⟨Within.error (RenderPacked_within os field s).1 hrp, by trivial⟩
    | ok p =>
      obtain ⟨evs, s1⟩ := p
      have h1 := (RenderPacked_within os field s).2 _ hrp
      simp only at h1 ⊢
      cases htag : ReadTag s1 with
      | error e => exact ⟨Within.error (ReadTag_within s1).1 htag, by trivial⟩
      | ok q =>
        obtain ⟨next, s2⟩ := q
        have h2 := (ReadTag_within s1).2 _ htag
        simp only at h2 ⊢
        refine ⟨Within.ok ?_, by trivial⟩
        (try simp only)
        omega
  · simp only [if_neg hp]
    obtain ⟨hw, he⟩ := ih.rle g depth field list_tag s (by omega) (by omega)
    rw [he]
    cases hres : renderListElements R os f depth field list_tag s with
    | error e => exact ⟨Within.error hw.1 hres, by trivial⟩
    | ok r =>
      obtain ⟨evs2, next2, s3⟩ := r
      have h3 := hw.2 _ hres
      simp only at h3 ⊢
      refine ⟨Within.ok ?_, by trivial⟩
      (try simp only)
      omega
theorem walkWithin_re (R : String → Option TypeRenderer) (os : ProtoStreamObjectSource)
    (f : Nat) (ih : WalkWithin R os f) :
    ∀ (f2 : Nat) (depth : Int) (entry : TypeSchema) (key : LogicalValue) (value : List Event)
      (tag : Option Nat) (s : Stream), 5 * (tagWeight tag + s.length) + 1 ≤ f + 1 →
      5 * (tagWeight tag + s.length) + 1 ≤ f2 →
      Within 0 (fun _ : LogicalValue × List Event => 0)
          (readMapEntry R os (f + 1) depth entry key value tag s)
        ∧ readMapEntry R os f2 depth entry key value tag s
          = readMapEntry R os (f + 1) depth entry key value tag s := by
  intro f2 depth entry key value tag s hf hf2
  obtain ⟨g, rfl⟩ : ∃ g, f2 = g + 1 := ⟨f2 - 1, by omega⟩
  cases tag with
  | none =>
    rw [readMapEntry, readMapEntry]
    exact ⟨Within.ok (le_refl _), rfl⟩
  | some t =>
    simp only [tagWeight] at hf hf2
    rw [readMapEntry, readMapEntry]
    by_cases hend : t = 0
    · simp only [if_pos hend]
      exact ⟨Within.ok (le_refl _), by trivial⟩
    · simp only [if_neg hend]
      cases hfv : FindAndVerifyField entry t with
      | error e => exact ⟨Within.error (FindAndVerifyField_fuel entry t) hfv, by trivial⟩
      | ok fo =>
        cases fo with
        | none =>
          simp only
          cases hsk : SkipField t s with
          | error e => exact ⟨Within.error (SkipField_within t s).1 hsk, by trivial⟩
          | ok s1 =>
            have h1 := (SkipField_within t s).2 _ hsk
            simp only at h1 ⊢
            cases htag : ReadTag s1 with
            | error e => exact ⟨Within.error (ReadTag_within s1).1 htag, by trivial⟩
            | ok q =>
              obtain ⟨next, s2⟩ := q
              have h2 := (ReadTag_within s1).2 _ htag
              simp only at h2 ⊢
              exact ih.re g depth entry key value next s2 (by omega) (by omega)
        | some field =>
          simp only
          by_cases hnum : field.number = 1
          · simp only [if_pos hnum]
            cases hrw : ReadWireValue (WireTypeForFieldType field.kind) s with
            | error e =>
              exact ⟨Within.error (ReadWireValue_within _ s).1 hrw, by trivial⟩
            | ok p =>
              obtain ⟨raw, s1⟩ := p
              have h1 := (ReadWireValue_within _ s).2 _ hrw
              simp only at h1 ⊢
              cases hd : decode_scalar os field raw with
              | error e =>
                exact ⟨Within.error (decode_scalar_fuel os field raw) hd, by trivial⟩
              | ok k =>
                simp only
                cases htag : ReadTag s1 with
                | error e =>
                  exact ⟨Within.error (ReadTag_within s1).1 htag, by trivial⟩
                | ok q =>
                  obtain ⟨next, s2⟩ := q
                  have h2 := (ReadTag_within s1).2 _ htag
                  simp only at h2 ⊢
                  exact ih.re g depth entry k value next s2 (by omega) (by omega)
          · simp only [if_neg hnum]
            obtain ⟨hm, hme⟩ := ih.rf g depth field (keyName key) s (by omega) (by omega)
            rw [hme]
            cases hrm : RenderField R os f depth field (keyName key) s with
            | error e => exact ⟨Within.error hm.1 hrm, by trivial⟩
            | ok p =>
              obtain ⟨evs, s1⟩ := p
              have h1 := hm.2 _ hrm
              simp only at h1 ⊢
              cases htag : ReadTag s1 with
              | error e =>
                exact ⟨Within.error (ReadTag_within s1).1 htag, by trivial⟩
              | ok q =>
                obtain ⟨next, s2⟩ := q
                have h2 := (ReadTag_within s1).2 _ htag
                simp only at h2 ⊢
                exact ih.re g depth entry key evs next s2 (by omega) (by omega)

theorem walkWithin_rme (R : String → Option TypeRenderer) (os : ProtoStreamObjectSource)
    (f : Nat) (ih : WalkWithin R os f) :
    ∀ (f2 : Nat) (depth : Int) (entry : TypeSchema) (list_tag : Nat) (s : Stream),
      5 * s.length + 1 ≤ f + 1 → 5 * s.length + 1 ≤ f2 →
      Within s.length
          (fun b : List (LogicalValue × List Event) × Option Nat × Stream =>
            tagWeight b.2.1 + b.2.2.length)
          (readMapEntries R os (f + 1) depth entry list_tag s)
        ∧ readMapEntries R os f2 depth entry list_tag s
          = readMapEntries R os (f + 1) depth entry list_tag s := by
  intro f2 depth entry list_tag s hf hf2
  obtain ⟨g, rfl⟩ : ∃ g, f2 = g + 1 := ⟨f2 - 1, by omega⟩
  rw [readMapEntries, readMapEntries]
  cases hrd : ReadLengthDelimited s with
  | error e => exact ⟨Within.error (ReadLengthDelimited_within s).1 hrd, by trivial⟩
  | ok p =>
    obtain ⟨payload, s1⟩ := p
    have h1 := (ReadLengthDelimited_within s).2 _ hrd
    simp only at h1 ⊢
    cases hft : ReadTag payload with
    | error e => exact ⟨Within.error (ReadTag_within payload).1 hft, by trivial⟩
    | ok q =>
      obtain ⟨first, p1⟩ := q
      have h2 := (ReadTag_within payload).2 _ hft
      simp only at h2 ⊢
      obtain ⟨hm, hme⟩ := ih.re g depth entry (.str "") [] first p1 (by omega) (by omega)
      rw [hme]
      cases hre : readMapEntry R os f depth entry (.str "") [] first p1 with
      | error e => exact ⟨Within.error hm.1 hre, by trivial⟩
      | ok kv =>
        simp only
        cases htag : ReadTag s1 with
        | error e => exact ⟨Within.error (ReadTag_within s1).1 htag, by trivial⟩
        | ok r =>
          obtain ⟨next, s2⟩ := r
          have h3 := (ReadTag_within s1).2 _ htag
          simp only at h3 ⊢
          by_cases hsame : next = some list_tag
          · simp only [if_pos hsame]
            subst hsame
            simp only [tagWeight] at h3
            obtain ⟨hw, he⟩ := ih.rme g depth entry list_tag s2 (by omega) (by omega)
            rw [he]
            cases hres : readMapEntries R os f depth entry list_tag s2 with
            | error e => exact ⟨Within.error hw.1 hres, by trivial⟩
            | ok r =>
              obtain ⟨kvs, next2, s3⟩ := r
              have h4 := hw.2 _ hres
              simp only at h4 ⊢
              refine ⟨Within.ok ?_, by trivial⟩
              (try simp only)
              omega
          · simp only [if_neg hsame]
            refine ⟨Within.ok ?_, by trivial⟩
            (try simp only)
            omega

theorem walkWithin_rm (R : String → Option TypeRenderer) (os : ProtoStreamObjectSource)
    (f : Nat) (ih : WalkWithin R os f) :
    ∀ (f2 : Nat) (depth : Int) (field : FieldSchema) (name : String) (list_tag : Nat)
      (s : Stream), 5 * s.length + 2 ≤ f + 1 → 5 * s.length + 2 ≤ f2 →
      Within s.length (fun b : List Event × Option Nat × Stream => tagWeight b.2.1 + b.2.2.length)
          (RenderMap R os (f + 1) depth field name list_tag s)
        ∧ RenderMap R os f2 depth field name list_tag s
          = RenderMap R os (f + 1) depth field name list_tag s := by
  intro f2 depth field name list_tag s hf hf2
  obtain ⟨g, rfl⟩ : ∃ g, f2 = g + 1 := ⟨f2 - 1, by omega⟩
  rw [RenderMap, RenderMap]
  cases hty : field.type_url.bind os.typeinfo_.resolve with
  | none => exact ⟨⟨by simp, by simp⟩, by trivial⟩
  | some entry =>
    simp only
    obtain ⟨hw, he⟩ := ih.rme g depth entry list_tag s (by omega) (by omega)
    rw [he]
    cases hres : readMapEntries R os f depth entry list_tag s with
    | error e => exact ⟨Within.error hw.1 hres, by trivial⟩
    | ok r =>
      obtain ⟨kvs, next2, s3⟩ := r
      have h4 := hw.2 _ hres
      simp only at h4 ⊢
      refine ⟨Within.ok ?_, by trivial⟩
      (try simp only)
      omega

/-- The fuel accounting holds at every fuel. -/
theorem walkWithin (R : String → Option TypeRenderer) (os : ProtoStreamObjectSource)
    (hR : RenderersWithin R) : ∀ f, WalkWithin R os f := by
  intro f
  induction f with
  | zero =>
    exact
      { wm := fun _ _ _ _ _ _ _ h _ => by omega
        wf := fun _ _ _ _ _ _ h _ => by omega
        rf := fun _ _ _ _ _ h _ => by omega
        rl := fun _ _ _ _ _ _ h _ => by omega
        rle := fun _ _ _ _ _ h _ => by omega
        rm := fun _ _ _ _ _ _ h _ => by omega
        rme := fun _ _ _ _ _ h _ => by omega
        re := fun _ _ _ _ _ _ _ h _ => by omega }
  | succ f ih =>
    exact
      { wm := walkWithin_wm R os hR f ih
        wf := walkWithin_wf R os f ih
        rf := walkWithin_rf R os f ih
        rl := walkWithin_rl R os f ih
        rle := walkWithin_rle R os f ih
        rm := walkWithin_rm R os f ih
        rme := walkWithin_rme R os f ih
        re := walkWithin_re R os f ih }

/-- With `fuelFor` the walk never runs out of fuel, and more fuel does not
change its result. -/
theorem WriteMessage_fuelFor (R : String → Option TypeRenderer) (os : ProtoStreamObjectSource)
    (hR : RenderersWithin R) (depth : Int) (type : TypeSchema) (name : String) (end_tag : Nat)
    (framed : Bool) (s : Stream) :
    WriteMessage R os (fuelFor s) depth type name end_tag framed s ≠ .error .outOfFuel
      ∧ ∀ fuel, fuelFor s ≤ fuel →
          WriteMessage R os fuel depth type name end_tag framed s
            = WriteMessage R os (fuelFor s) depth type name end_tag framed s := by
  have h := (walkWithin R os hR (fuelFor s)).wm
  refine ⟨(h (fuelFor s) depth type name end_tag framed s (le_refl _) (le_refl _)).1.1, ?_⟩
  intro fuel hfuel
  exact (h fuel depth type name end_tag framed s (le_refl _) hfuel).2

/-- The top-level decode never fails for lack of fuel. -/
theorem NamedWriteTo_fuel (R : String → Option TypeRenderer) (os : ProtoStreamObjectSource)
    (hR : RenderersWithin R) (name : String) (s : Stream) :
    NamedWriteTo R os name s ≠ .error .outOfFuel := by
  have h := (WriteMessage_fuelFor R os hR 0 os.type_ name 0 true s).1
  unfold NamedWriteTo
  cases hw : WriteMessage R os (fuelFor s) 0 os.type_ name 0 true s with
  | error e =>
    rw [hw] at h
    simpa using h
  | ok p => simp

theorem readSecondsAndNanosAux_within (type : TypeSchema) :
    ∀ (fuel : Nat) (seconds nanos : Int) (tag : Option Nat) (s : Stream),
      tagWeight tag + s.length < fuel →
      Within s.length (fun b : (Int × Int) × Stream => b.2.length)
        (readSecondsAndNanosAux type fuel seconds nanos tag s) := by
  intro fuel
  induction fuel with
  | zero => intro seconds nanos tag s h; omega
  | succ fuel ih =>
    intro seconds nanos tag s hfuel
    have hskip : ∀ (t : Nat) (sec ns : Int), s.length < fuel →
        Within s.length (fun b : (Int × Int) × Stream => b.2.length)
          (match SkipField t s with
            | .error e => (Except.error e : Except DecodeError ((Int × Int) × Stream))
            | .ok s1 =>
              match ReadTag s1 with
              | .error e => .error e
              | .ok (next, s2) => readSecondsAndNanosAux type fuel sec ns next s2) := by
      intro t sec ns hlt
      cases hsk : SkipField t s with
      | error e => exact Within.error (SkipField_within t s).1 hsk
      | ok s1 =>
        have h1 := (SkipField_within t s).2 _ hsk
        simp only at h1 ⊢
        cases htag : ReadTag s1 with
        | error e => exact Within.error (ReadTag_within s1).1 htag
        | ok q =>
          obtain ⟨next, s2⟩ := q
          have h2 := (ReadTag_within s1).2 _ htag
          simp only at h2 ⊢
          obtain ⟨h3, h4⟩ := ih sec ns next s2 (by omega)
          exact ⟨h3, fun b hb => by have := h4 b hb; simp only at this ⊢; omega⟩
    cases tag with
    | none =>
      rw [readSecondsAndNanosAux]
      exact Within.ok (le_refl _)
    | some t =>
      simp only [tagWeight] at hfuel
      rw [readSecondsAndNanosAux]
      by_cases h0 : t = 0
      · simp only [if_pos h0]
        exact Within.ok (le_refl _)
      · simp only [if_neg h0]
        cases hfv : FindAndVerifyField type t with
        | error e => exact Within.error (FindAndVerifyField_fuel type t) hfv
        | ok fo =>
          cases fo with
          | none => exact hskip t seconds nanos (by omega)
          | some field =>
            simp only
            by_cases h1 : field.number = 1
            · simp only [if_pos h1]
              cases hv : ReadVarint64 s with
              | error e => exact Within.error (ReadVarint64_within s).1 hv
              | ok p =>
                obtain ⟨v, s1⟩ := p
                have hl := (ReadVarint64_within s).2 _ hv
                simp only at hl ⊢
                cases htag : ReadTag s1 with
                | error e => exact Within.error (ReadTag_within s1).1 htag
                | ok q =>
                  obtain ⟨next, s2⟩ := q
                  have h2 := (ReadTag_within s1).2 _ htag
                  simp only at h2 ⊢
                  obtain ⟨h3, h4⟩ := ih (toSigned 64 v) nanos next s2 (by omega)
                  exact ⟨h3, fun b hb => by have := h4 b hb; simp only at this ⊢; omega⟩
            · simp only [if_neg h1]
              by_cases h2 : field.number = 2
              · simp only [if_pos h2]
                cases hv : ReadVarint32 s with
                | error e => exact Within.error (ReadVarint32_within s).1 hv
                | ok p =>
                  obtain ⟨v, s1⟩ := p
                  have hl := (ReadVarint32_within s).2 _ hv
                  simp only at hl ⊢
                  cases htag : ReadTag s1 with
                  | error e => exact Within.error (ReadTag_within s1).1 htag
                  | ok q =>
                    obtain ⟨next, s2⟩ := q
                    have h2 := (ReadTag_within s1).2 _ htag
                    simp only at h2 ⊢
                    obtain ⟨h3, h4⟩ := ih seconds (toSigned 32 v) next s2 (by omega)
                    exact ⟨h3, fun b hb => by have := h4 b hb; simp only at this ⊢; omega⟩
              · simp only [if_neg h2]
                exact hskip t seconds nanos (by omega)

theorem RenderTimestamp_within (type : TypeSchema) (name : String) (s : Stream) :
    Within s.length (fun b : List Event × Stream => b.2.length) (RenderTimestamp type name s) := by
  unfold RenderTimestamp ReadSecondsAndNanos
  cases htag : ReadTag s with
  | error e => exact Within.error (ReadTag_within s).1 htag
  | ok q =>
    obtain ⟨tag, s1⟩ := q
    have h2 := (ReadTag_within s).2 _ htag
    simp only at h2 ⊢
    obtain ⟨h3, h4⟩ := readSecondsAndNanosAux_within type (s.length + 1) 0 0 tag s1 (by omega)
    cases hr : readSecondsAndNanosAux type (s.length + 1) 0 0 tag s1 with
    | error e => exact Within.error h3 hr
    | ok p =>
      obtain ⟨⟨seconds, nanos⟩, rest⟩ := p
      have h5 := h4 _ hr
      simp only at h5 ⊢
      split
      · exact ⟨by simp, by simp⟩
      · refine Within.ok ?_
        (try simp only)
        omega

/-- The table with the Timestamp renderer satisfies the fuel accounting. -/
theorem timestampRenderers_within : RenderersWithin timestampRenderers := by
  intro name r type nm s h
  unfold timestampRenderers at h
  split at h
  · simp only [Option.some.injEq] at h
    subst h
    exact RenderTimestamp_within type nm s
  · simp at h

theorem renderListElements_run (R : String → Option TypeRenderer) (os : ProtoStreamObjectSource)
    (field : FieldSchema) (list_tag : Nat) (depth : Int) (rest s2 : Stream) (next : Option Nat)
    (F : Nat) (htag : list_tag < 2 ^ 32)
    (hnext : ReadTag rest = .ok (next, s2)) (hdiff : next ≠ some list_tag) :
    ∀ (items : List (List Nat × List Event)), items ≠ [] →
      (∀ item ∈ items, ∀ (fuel : Nat) (tail : Stream), F ≤ fuel →
        RenderField R os fuel depth field "" (item.1 ++ tail) = .ok (item.2, tail)) →
      ∀ fuel, F + items.length ≤ fuel →
        renderListElements R os fuel depth field list_tag
            (encodeRun list_tag (items.map (·.1)) ++ rest)
          = .ok ((items.map (·.2)).flatten, next, s2) := by
  intro items
  induction items with
  | nil => intro h; exact absurd rfl h
  | cons item items ih =>
    intro _ hitems fuel hfuel
    obtain ⟨k, rfl⟩ : ∃ k, fuel = k + 1 := ⟨fuel - 1, by simp at hfuel; omega⟩
    have hk : F ≤ k := by simp at hfuel; omega
    cases items with
    | nil =>
      rw [renderListElements]
      simp only [List.map_cons, List.map_nil, encodeRun, hitems item (List.mem_cons_self _ _) k rest hk,
        hnext, if_neg hdiff, List.flatten_cons, List.flatten_nil, List.append_nil]
    | cons item2 items =>
      have hrec := ih (by simp) (fun i hi => hitems i (List.mem_cons_of_mem _ hi)) k
        (by simp at hfuel ⊢; omega)
      rw [renderListElements]
      simp only [List.map_cons, encodeRun, List.append_assoc,
        hitems item (List.mem_cons_self _ _) k _ hk, ReadTag_encode _ _ htag, if_true]
      simp only [List.map_cons] at hrec
      simp only [hrec, List.flatten_cons]

/-- C5: `RenderList` on an unpacked run: when the stream holds the elements of
`items` separated by the tag of the list and then a tag `next` that differs
from it (or ends), the result is one list with exactly the events of these
elements in stream order, together with `next`, which is handed to the caller:
the loop of `WriteMessage` closes the list and processes `next` itself, so a
later occurrence of the same field starts a list of its own. -/
theorem RenderList_contiguous_run (R : String → Option TypeRenderer)
    (os : ProtoStreamObjectSource) (type : TypeSchema) (field : FieldSchema) (list_tag : Nat)
    (depth : Int) (rest s2 : Stream) (next : Option Nat) (F : Nat)
    (items : List (List Nat × List Event))
    (htag : list_tag < 2 ^ 32)
    (hunpacked : ¬ (IsPackable field = true
      ∧ list_tag = MakeTag field.number WIRETYPE_LENGTH_DELIMITED))
    (hne : items ≠ [])
    (hitems : ∀ item ∈ items, ∀ (fuel : Nat) (tail : Stream), F ≤ fuel →
      RenderField R os fuel depth field "" (item.1 ++ tail) = .ok (item.2, tail))
    (hnext : ReadTag rest = .ok (next, s2)) (hdiff : next ≠ some list_tag) :
    (∀ (fuel : Nat) (name : String), F + items.length + 1 ≤ fuel →
        RenderList R os fuel depth field name list_tag
            (encodeRun list_tag (items.map (·.1)) ++ rest)
          = .ok (.startList name :: (items.map (·.2)).flatten ++ [.endList], next, s2))
      ∧ (FindAndVerifyField type list_tag = .ok (some field) →
          field.cardinality = .REPEATED → IsMap os field = false →
          ∀ (fuel : Nat) (end_tag : Nat), list_tag ≠ end_tag → F + items.length + 1 ≤ fuel →
            writeFields R os (fuel + 1) depth type end_tag (some list_tag)
                (encodeRun list_tag (items.map (·.1)) ++ rest)
              = match writeFields R os fuel depth type end_tag next s2 with
                | .error e => .error e
                | .ok (evs2, final) =>
                  .ok ((.startList field.name :: (items.map (·.2)).flatten ++ [.endList])
                        ++ evs2, final)) := by
  have hlist : ∀ (fuel : Nat) (name : String), F + items.length + 1 ≤ fuel →
      RenderList R os fuel depth field name list_tag
          (encodeRun list_tag (items.map (·.1)) ++ rest)
        = .ok (.startList name :: (items.map (·.2)).flatten ++ [.endList], next, s2) := by
    intro fuel name hfuel
    obtain ⟨k, rfl⟩ : ∃ k, fuel = k + 1 := ⟨fuel - 1, by omega⟩
    rw [RenderList]
    simp only [if_neg hunpacked,
      renderListElements_run R os field list_tag depth rest s2 next F htag hnext hdiff items hne
        hitems k (by omega)]
  refine ⟨hlist, ?_⟩
  intro hfv hrep hmap fuel end_tag hend hfuel
  rw [writeFields]
  simp only [if_neg hend, hfv, hrep, if_true, hmap, Bool.false_eq_true, if_false,
    hlist fuel field.name hfuel]

/-- C5 at a concrete input: in `10 01 10 02 08 05 10 03` the run `1, 2` of the
repeated field 2 ends at the tag `08`, which is returned to the caller; field 2
occurs again after field 1 and is emitted as a second list. -/
theorem RenderList_contiguous_run_witness :
    RenderList noRenderers listSource 4 0 ⟨2, "field2", .INT32, .REPEATED, none, false⟩ "field2" 16
        [1, 16, 2, 8, 5, 16, 3]
        = .ok ([.startList "field2", .renderField "" (.int 1), .renderField "" (.int 2),
            .endList], some 8, [5, 16, 3])
      ∧ NamedWriteTo noRenderers listSource "" [16, 1, 16, 2, 8, 5, 16, 3]
        = .ok [.startObject "", .startList "field2", .renderField "" (.int 1),
            .renderField "" (.int 2), .endList, .renderField "field1" (.int 5),
            .startList "field2", .renderField "" (.int 3), .endList, .endObject] :=
  ⟨(RenderList_contiguous_run noRenderers listSource listType
      ⟨2, "field2", .INT32, .REPEATED, none, false⟩ 16 0 [8, 5, 16, 3] [5, 16, 3] (some 8) 1
      [([1], [.renderField "" (.int 1)]), ([2], [.renderField "" (.int 2)])]
      (by decide) (by decide) (by simp)
      (by
        intro item hitem fuel tail hfuel
        obtain ⟨k, rfl⟩ : ∃ k, fuel = k + 1 := ⟨fuel - 1, by omega⟩
        simp only [List.mem_cons, List.mem_singleton, List.not_mem_nil, or_false] at hitem
        rcases hitem with rfl | rfl <;> rfl)
      rfl (by decide)).1 4 "field2" (by decide),
   rfl⟩

/-! ## The ordered mapping of map fields -/

theorem toCamelCaseAux_word_lower (rest : List Char) :
    ∀ (w : List Char), '_' ∉ w →
      toCamelCaseAux false (w ++ '_' :: rest) = w.map Char.toLower ++ toCamelCaseAux true rest := by
  intro w
  induction w with
  | nil => intro _; simp [toCamelCaseAux]
  | cons c cs ih =>
    intro h
    have hc : c ≠ '_' := fun hc => h (by simp [hc])
    have hcs : '_' ∉ cs := fun hcs => h (List.mem_cons_of_mem _ hcs)
    show toCamelCaseAux false (c :: (cs ++ '_' :: rest)) = _
    rw [toCamelCaseAux, if_neg hc, ih hcs]
    simp

theorem toCamelCaseAux_last_lower :
    ∀ (w : List Char), '_' ∉ w → toCamelCaseAux false w = w.map Char.toLower := by
  intro w
  induction w with
  | nil => intro _; simp [toCamelCaseAux]
  | cons c cs ih =>
    intro h
    have hc : c ≠ '_' := fun hc => h (by simp [hc])
    have hcs : '_' ∉ cs := fun hcs => h (List.mem_cons_of_mem _ hcs)
    simp only [toCamelCaseAux, if_neg hc, ih hcs, List.map_cons, Bool.false_eq_true, if_false]

theorem toCamelCaseAux_joinWords_capitalized :
    ∀ (ws : List (List Char)), (∀ w ∈ ws, '_' ∉ w) →
      toCamelCaseAux true (joinWords ws) = (ws.map capitalized).flatten := by
  intro ws
  induction ws with
  | nil => intro _; simp [joinWords, toCamelCaseAux]
  | cons w ws ih =>
    intro h
    have hw : '_' ∉ w := h w (List.mem_cons_self _ _)
    have hws := ih (fun x hx => h x (List.mem_cons_of_mem _ hx))
    cases ws with
    | nil =>
      cases w with
      | nil => simp [joinWords, toCamelCaseAux, capitalized]
      | cons c cs =>
        have hc : c ≠ '_' := fun hc => hw (by simp [hc])
        have hcs : '_' ∉ cs := fun hcs => hw (List.mem_cons_of_mem _ hcs)
        simp [joinWords, toCamelCaseAux, capitalized, hc, toCamelCaseAux_last_lower cs hcs]
    | cons w2 ws =>
      cases w with
      | nil =>
        simp only [joinWords, List.nil_append, toCamelCaseAux, if_true, hws, List.map_cons,
          capitalized, List.flatten_cons]
      | cons c cs =>
        have hc : c ≠ '_' := fun hc => hw (by simp [hc])
        have hcs : '_' ∉ cs := fun hcs => hw (List.mem_cons_of_mem _ hcs)
        show toCamelCaseAux true (c :: (cs ++ '_' :: joinWords (w2 :: ws))) = _
        rw [toCamelCaseAux, if_neg hc, toCamelCaseAux_word_lower _ cs hcs, hws]
        simp [capitalized]

theorem ToCamelCase_joinWords (ws : List (List Char)) (h : ∀ w ∈ ws, '_' ∉ w) :
    ToCamelCase (String.mk (joinWords ws)) = String.mk (lowerCamelForm ws) := by
  unfold ToCamelCase
  congr 1
  show toCamelCaseAux false (joinWords ws) = lowerCamelForm ws
  cases ws with
  | nil => simp [joinWords, toCamelCaseAux, lowerCamelForm]
  | cons w ws =>
    have hw : '_' ∉ w := h w (List.mem_cons_self _ _)
    cases ws with
    | nil => simp [joinWords, lowerCamelForm, toCamelCaseAux_last_lower w hw]
    | cons w2 ws =>
      simp only [joinWords, lowerCamelForm, toCamelCaseAux_word_lower _ w hw,
        toCamelCaseAux_joinWords_capitalized (w2 :: ws) (fun x hx => h x (List.mem_cons_of_mem _ hx))]

/-- C7: an ENUM value whose number has the name `name` in the value-name table
is rendered, with `use_lower_camel_for_enums` set to true, as the string
`ToCamelCase name`, and with it set to false as `name` itself; for a name that
is the words `ws` joined by underscores (an `UPPER_SNAKE_CASE` name),
`ToCamelCase` is the lowerCamelCase form: first word in lower case, further
words capitalized. -/
theorem RenderEnum_lower_camel (os : ProtoStreamObjectSource) (field : FieldSchema)
    (url name field_name : String) (table : List (String × Int)) (v : Nat) (rest : Stream)
    (hv : v < 2 ^ 64)
    (hkind : field.kind = .ENUM) (hurl : field.type_url = some url)
    (htable : os.typeinfo_.enumValues url = some table)
    (hname : FindEnumValueByNumber table (toSigned 32 v) = some name) :
    RenderNonMessageField (os.set_use_lower_camel_for_enums true) field field_name
        (encodeVarint v ++ rest) = .ok ([.renderField field_name (.str (ToCamelCase name))], rest)
      ∧ RenderNonMessageField (os.set_use_lower_camel_for_enums false) field field_name
        (encodeVarint v ++ rest) = .ok ([.renderField field_name (.str name)], rest)
      ∧ ∀ ws : List (List Char), (∀ w ∈ ws, '_' ∉ w) → name = String.mk (joinWords ws) →
          ToCamelCase name = String.mk (lowerCamelForm ws) := by
  refine ⟨?_, ?_, ?_⟩
  · simp [RenderNonMessageField, hkind, WireTypeForFieldType, ReadWireValue, WIRETYPE_VARINT,
      ReadVarint64_encode v rest hv, decode_scalar, RenderEnum, hurl,
      ProtoStreamObjectSource.set_use_lower_camel_for_enums, htable, hname]
  · simp [RenderNonMessageField, hkind, WireTypeForFieldType, ReadWireValue, WIRETYPE_VARINT,
      ReadVarint64_encode v rest hv, decode_scalar, RenderEnum, hurl,
      ProtoStreamObjectSource.set_use_lower_camel_for_enums, htable, hname]
  · intro ws hws hn
    rw [hn]
    exact ToCamelCase_joinWords ws hws

/-- C7, the scenario of the specification: the enum value 1, named
`ACTION_AND_ADVENTURE`, renders as "actionAndAdventure" with the option on and
as "ACTION_AND_ADVENTURE" with it off. -/
theorem RenderEnum_lower_camel_witness :
    RenderNonMessageField (genreSource.set_use_lower_camel_for_enums true) genreField "type" [1]
        = .ok ([.renderField "type" (.str "actionAndAdventure")], [])
      ∧ RenderNonMessageField (genreSource.set_use_lower_camel_for_enums false) genreField "type" [1]
        = .ok ([.renderField "type" (.str "ACTION_AND_ADVENTURE")], [])
      ∧ ToCamelCase "ACTION_AND_ADVENTURE" = String.mk (lowerCamelForm
          ["ACTION".data, "AND".data, "ADVENTURE".data]) :=
  have h := RenderEnum_lower_camel genreSource genreField "Genre" "ACTION_AND_ADVENTURE" "type"
    [("ACTION_AND_ADVENTURE", 1)] 1 [] (by decide) rfl rfl rfl rfl
  ⟨h.1, h.2.1, h.2.2 ["ACTION".data, "AND".data, "ADVENTURE".data] (by decide) rfl⟩

/-- C8: an ENUM field whose varint value has no entry in the value-name table
of its enum type is emitted as one field event that carries the number itself,
and the decode does not fail, whichever way the case option is set. -/
theorem RenderEnum_unknown_number (os : ProtoStreamObjectSource) (field : FieldSchema)
    (url field_name : String) (table : List (String × Int)) (v : Nat) (rest : Stream)
    (hv : v < 2 ^ 64)
    (hkind : field.kind = .ENUM) (hurl : field.type_url = some url)
    (htable : os.typeinfo_.enumValues url = some table)
    (hname : FindEnumValueByNumber table (toSigned 32 v) = none) :
    RenderNonMessageField os field field_name (encodeVarint v ++ rest)
      = .ok ([.renderField field_name (.int (toSigned 32 v))], rest) := by
  simp [RenderNonMessageField, hkind, WireTypeForFieldType, ReadWireValue, WIRETYPE_VARINT,
    ReadVarint64_encode v rest hv, decode_scalar, RenderEnum, hurl, htable, hname]

/-- C8, the scenario of the specification: the value 7 has no name in the
table of `Genre` and is emitted as the number 7. -/
theorem RenderEnum_unknown_number_witness :
    RenderNonMessageField genreSource genreField "type" [7]
        = .ok ([.renderField "type" (.int 7)], [])
      ∧ NamedWriteTo noRenderers genreSource "" [8, 7]
        = .ok [.startObject "", .renderField "type" (.int 7), .endObject] :=
  ⟨RenderEnum_unknown_number genreSource genreField "Genre" "type" [("ACTION_AND_ADVENTURE", 1)]
      7 [] (by decide) rfl rfl rfl rfl, rfl⟩

/-! ## Completion and framing of `WriteMessage` -/

/-- C11: a newly constructed source has recursion ceiling 64, lower-camel enum
rendering off and unknown-field rendering off; `set_max_recursion_depth n`
makes the ceiling `n` and `set_use_lower_camel_for_enums b` makes the enum
option `b`, and each setter leaves every other field of the object as it
was. -/
theorem new_defaults_and_setter_frame :
    (∀ (typeinfo : TypeInfo) (type : TypeSchema),
      (ProtoStreamObjectSource.new typeinfo type).max_recursion_depth_ = 64 ∧
      (ProtoStreamObjectSource.new typeinfo type).use_lower_camel_for_enums_ = false ∧
      (ProtoStreamObjectSource.new typeinfo type).render_unknown_fields_ = false ∧
      (ProtoStreamObjectSource.new typeinfo type).typeinfo_ = typeinfo ∧
      (ProtoStreamObjectSource.new typeinfo type).type_ = type) ∧
    (∀ (os : ProtoStreamObjectSource) (n : Int),
      (os.set_max_recursion_depth n).max_recursion_depth_ = n ∧
      (os.set_max_recursion_depth n).use_lower_camel_for_enums_
        = os.use_lower_camel_for_enums_ ∧
      (os.set_max_recursion_depth n).render_unknown_fields_ = os.render_unknown_fields_ ∧
      (os.set_max_recursion_depth n).typeinfo_ = os.typeinfo_ ∧
      (os.set_max_recursion_depth n).type_ = os.type_) ∧
    (∀ (os : ProtoStreamObjectSource) (b : Bool),
      (os.set_use_lower_camel_for_enums b).use_lower_camel_for_enums_ = b ∧
      (os.set_use_lower_camel_for_enums b).max_recursion_depth_ = os.max_recursion_depth_ ∧
      (os.set_use_lower_camel_for_enums b).render_unknown_fields_
        = os.render_unknown_fields_ ∧
      (os.set_use_lower_camel_for_enums b).typeinfo_ = os.typeinfo_ ∧
      (os.set_use_lower_camel_for_enums b).type_ = os.type_) :=
  ⟨fun _ _ => ⟨rfl, rfl, rfl, rfl, rfl⟩, fun _ _ => ⟨rfl, rfl, rfl, rfl, rfl⟩,
    fun _ _ => ⟨rfl, rfl, rfl, rfl, rfl⟩⟩

end ProtoStream

namespace OpenSSL

/-- Line 45: a change of digest without a usable key is rejected before
anything is written. -/
theorem HMAC_Init_ex_rejected_aux (E : Env) (ctx : HMAC_CTX) (key : Option (List Nat))
    (len : Int) (md : Option Nat)
    (h : md ≠ none ∧ md ≠ ctx.md ∧ (key = none ∨ len < 0)) :
    HMAC_Init_ex E ctx key len md = some (0, ctx) := by
  rw [HMAC_Init_ex.eq_def, if_pos h]

/-- Lines 51-54: without a digest in the call and in the context the call
returns 0. -/
theorem HMAC_Init_ex_norun_aux (E : Env) (ctx : HMAC_CTX) (key : Option (List Nat))
    (len : Int) (h : ctx.md = none) :
    HMAC_Init_ex E ctx key len none = some (0, ctx) := by
  simp [HMAC_Init_ex, h]

/-! ## HMAC: rejected calls (C15) -/

/-- C15: `HMAC_Init_ex` returns 0 and leaves the context unchanged when `md`
is non-NULL and differs from the digest of the context while `key` is NULL or
`len` is negative; it also returns 0 (the context again unchanged) when `md`
is NULL and the context has no digest. -/
theorem HMAC_Init_ex_rejected (E : Env) (ctx : HMAC_CTX) (key : Option (List Nat))
    (len : Int) (md : Option Nat)
    (h : (md ≠ none ∧ md ≠ ctx.md ∧ (key = none ∨ len < 0)) ∨ (md = none ∧ ctx.md = none)) :
    HMAC_Init_ex E ctx key len md = some (0, ctx) := by
  rcases h with h | ⟨h1, h2⟩
  · exact HMAC_Init_ex_rejected_aux E ctx key len md h
  · subst h1
    exact HMAC_Init_ex_norun_aux E ctx key len h2

theorem HMAC_Init_ex_rejected_witness :
    HMAC_Init_ex sumEnv { blankCtx with md := some 2 } none 0 (some 1)
        = some (0, { blankCtx with md := some 2 }) ∧
      HMAC_Init_ex sumEnv { blankCtx with md := some 2 } (some [1, 2]) (-1) (some 1)
        = some (0, { blankCtx with md := some 2 }) ∧
      HMAC_Init_ex sumEnv blankCtx (some [1, 2]) 2 none = some (0, blankCtx) :=
  ⟨HMAC_Init_ex_rejected sumEnv _ none 0 (some 1) (Or.inl (by decide)),
    HMAC_Init_ex_rejected sumEnv _ (some [1, 2]) (-1) (some 1) (Or.inl (by decide)),
    HMAC_Init_ex_rejected sumEnv blankCtx (some [1, 2]) 2 none (Or.inr (by decide))⟩

/-! ## HMAC: the key buffer (C17) -/

theorem memcpy_length (dst src : List Nat) (n : Nat) (h1 : n ≤ src.length)
    (h2 : n ≤ dst.length) : (memcpy dst src n).length = dst.length := by
  simp [memcpy]; omega

theorem zeroFill_memcpy (E : Env) (dst src : List Nat) (n : Nat)
    (hC : E.HMAC_MAX_MD_CBLOCK < 2 ^ 32) (hdst : dst.length = E.HMAC_MAX_MD_CBLOCK)
    (h1 : n ≤ src.length) (h2 : n ≤ E.HMAC_MAX_MD_CBLOCK) :
    zeroFill E (memcpy dst src n) n
      = src.take n ++ List.replicate (E.HMAC_MAX_MD_CBLOCK - n) 0 := by
  unfold zeroFill
  have hn : (src.take n).length = n := by simp [h1]
  split_ifs with h
  · have hcount : (E.HMAC_MAX_MD_CBLOCK + (2 ^ 32 - n)) % 2 ^ 32
        = E.HMAC_MAX_MD_CBLOCK - n := by omega
    rw [hcount]
    unfold memset0 memcpy
    rw [List.take_append_of_le_length (by omega), List.take_of_length_le (by omega),
      List.drop_of_length_le (by simp; omega)]
    simp
  · have : n = E.HMAC_MAX_MD_CBLOCK := by omega
    subst this
    unfold memcpy
    rw [List.drop_of_length_le (by omega)]
    simp

theorem setPads_frame (E : Env) (ctx : HMAC_CTX) (d : Nat) :
    (HMAC_Init_ex.setPads E ctx d).2.key = ctx.key ∧
      (HMAC_Init_ex.setPads E ctx d).2.key_length = ctx.key_length ∧
      (HMAC_Init_ex.setPads E ctx d).2.md = ctx.md ∧
      (HMAC_Init_ex.setPads E ctx d).2.md_ctx = ctx.md_ctx := by
  unfold HMAC_Init_ex.setPads
  repeat' split
  all_goals exact ⟨rfl, rfl, rfl, rfl⟩

theorem finish_frame (E : Env) (ctx : HMAC_CTX) (d : Nat) (reset : Bool) :
    (HMAC_Init_ex.finish E ctx d reset).2.key = ctx.key ∧
      (HMAC_Init_ex.finish E ctx d reset).2.key_length = ctx.key_length ∧
      (HMAC_Init_ex.finish E ctx d reset).2.md = ctx.md := by
  have hp := setPads_frame E ctx d
  unfold HMAC_Init_ex.finish
  cases reset
  · simp only [Bool.false_eq_true, if_false]
    repeat' split
    all_goals exact ⟨rfl, rfl, rfl⟩
  · simp only [if_true]
    repeat' split
    all_goals exact ⟨hp.1, hp.2.1, hp.2.2.1⟩

/-- The key branch when the key is at most one block long (or `len` is
negative). -/
theorem setKey_short (E : Env) (ctx : HMAC_CTX) (k : List Nat) (len : Int) (d : Nat)
    (hB : (E.digest d).block_size ≤ E.HMAC_MAX_MD_CBLOCK)
    (hlen : len ≤ ((E.digest d).block_size : Int)) :
    HMAC_Init_ex.setKey E ctx k len d
      = if len < 0 then some (0, ctx)
        else some (1, { ctx with key := zeroFill E (memcpy ctx.key k len.toNat) len.toNat,
                                 key_length := len.toNat }) := by
  unfold HMAC_Init_ex.setKey
  have h1 : ¬ E.HMAC_MAX_MD_CBLOCK < (E.digest d).block_size := by omega
  have h2 : ¬ ((E.digest d).block_size : Int) < len := by omega
  simp only [h1, h2, if_false]
  by_cases h3 : len < 0
  · have : len < 0 ∨ len > (E.HMAC_MAX_MD_CBLOCK : Int) := Or.inl h3
    simp [h3, this]
  · have h4 : ¬ ((E.HMAC_MAX_MD_CBLOCK : Int) < len) := by omega
    simp [h3, h4]

/-- The key branch when the key is longer than one block. -/
theorem setKey_long (E : Env) (ctx : HMAC_CTX) (k : List Nat) (len : Int) (d : Nat)
    (hB : (E.digest d).block_size ≤ E.HMAC_MAX_MD_CBLOCK)
    (hlen : ((E.digest d).block_size : Int) < len) :
    (∃ c, HMAC_Init_ex.setKey E ctx k len d = some (0, c) ∧ c.key = ctx.key ∧
        c.key_length = ctx.key_length ∧ c.md = ctx.md) ∨
      (E.digest d).init_ok = true ∧ (E.digest d).update_ok [] (k.take len.toNat) = true ∧
        (E.digest d).final_ok (k.take len.toNat) = true ∧
        HMAC_Init_ex.setKey E ctx k len d
          = some (1, { ctx with
              md_ctx := ⟨some d, k.take len.toNat⟩
              key := zeroFill E (memcpy ctx.key ((E.digest d).H (k.take len.toNat))
                ((E.digest d).H (k.take len.toNat)).length)
                (((E.digest d).H (k.take len.toNat)).length % 2 ^ 32)
              key_length := ((E.digest d).H (k.take len.toNat)).length % 2 ^ 32 }) := by
  unfold HMAC_Init_ex.setKey
  have h1 : ¬ E.HMAC_MAX_MD_CBLOCK < (E.digest d).block_size := by omega
  simp only [h1, hlen, if_false, if_true]
  unfold EVP_DigestInit_ex
  by_cases hi : (E.digest d).init_ok = true
  · simp only [hi, if_true]
    unfold EVP_DigestUpdate
    simp only []
    by_cases hu : (E.digest d).update_ok [] (k.take len.toNat) = true
    · simp only [hu, if_true, List.nil_append]
      unfold EVP_DigestFinal_ex
      simp only []
      by_cases hf : (E.digest d).final_ok (k.take len.toNat) = true
      · simp only [hf, if_true]
        right
        simp
      · simp only [hf]
        left
        exact ⟨_, rfl, rfl, rfl, rfl⟩
    · simp only [hu]
      left
      exact ⟨_, rfl, rfl, rfl, rfl⟩
  · simp only [hi]
    left
    exact ⟨_, rfl, rfl, rfl, rfl⟩

/-- With a non-NULL key and no rejection at line 45, `HMAC_Init_ex` is the key
branch followed by the pads and the copy, on the context with `md` stored. -/
theorem HMAC_Init_ex_key (E : Env) (ctx : HMAC_CTX) (k : List Nat) (len : Int)
    (md : Option Nat) (d : Nat) (hd : md = some d ∨ (md = none ∧ ctx.md = some d))
    (h45 : ¬ (md ≠ none ∧ md ≠ ctx.md ∧ len < 0)) :
    HMAC_Init_ex E ctx (some k) len md
      = match HMAC_Init_ex.setKey E { ctx with md := some d } k len d with
        | none => none
        | some (r, ctx2) =>
          if r = 0 then some (0, ctx2) else some (HMAC_Init_ex.finish E ctx2 d true) := by
  have h45' : ¬ (md ≠ none ∧ md ≠ ctx.md ∧ ((some k : Option (List Nat)) = none ∨ len < 0)) := by
    simpa using h45
  rw [HMAC_Init_ex.eq_def, if_neg h45']
  rcases hd with hd | ⟨hd1, hd2⟩
  · subst hd
    rfl
  · subst hd1
    have hctx : ({ ctx with md := some d } : HMAC_CTX) = ctx := by
      cases ctx
      simp only at hd2
      subst hd2
      rfl
    rw [hctx]
    simp only [hd2]

/-- C17: with a non-NULL key and a digest whose block size is at most the size
of the key buffer, `HMAC_Init_ex` copies the key into `ctx->key` only when
`0 <= len <= block size`, and then the `len` bytes written lie inside the
buffer (whose length stays what it was); when `len` exceeds the block size
the buffer is left alone or receives the digest of the key; when `len < 0`
the call returns 0 and `ctx->key`, `ctx->key_length` and `ctx->md` stay as
they were. -/
theorem HMAC_Init_ex_key_copy_in_bounds (E : Env) (ctx : HMAC_CTX) (k : List Nat)
    (len : Int) (md : Option Nat)
    (hB : ∀ d, (md = some d ∨ (md = none ∧ ctx.md = some d)) →
      (E.digest d).block_size ≤ E.HMAC_MAX_MD_CBLOCK)
    (hC : E.HMAC_MAX_MD_CBLOCK < 2 ^ 31) (hkey : ctx.key.length = E.HMAC_MAX_MD_CBLOCK) :
    ∃ r ctx', HMAC_Init_ex E ctx (some k) len md = some (r, ctx') ∧
      (len < 0 → r = 0 ∧ ctx'.key = ctx.key ∧ ctx'.key_length = ctx.key_length ∧
        ctx'.md = ctx.md) ∧
      (∀ d, (md = some d ∨ (md = none ∧ ctx.md = some d)) →
        (0 ≤ len → len ≤ ((E.digest d).block_size : Int) →
          len.toNat ≤ ctx.key.length ∧
          ctx'.key = zeroFill E (memcpy ctx.key k len.toNat) len.toNat ∧
          ctx'.key_length = len.toNat ∧
          (len.toNat ≤ k.length → ctx'.key.length = ctx.key.length)) ∧
        (((E.digest d).block_size : Int) < len →
          ctx'.key = ctx.key ∨
          ctx'.key = zeroFill E (memcpy ctx.key ((E.digest d).H (k.take len.toNat))
            ((E.digest d).H (k.take len.toNat)).length)
            (((E.digest d).H (k.take len.toNat)).length % 2 ^ 32))) := by
  by_cases hd : ∃ d, md = some d ∨ (md = none ∧ ctx.md = some d)
  · obtain ⟨d, hd⟩ := hd
    have hBd := hB d hd
    have huniq : ∀ d', (md = some d' ∨ (md = none ∧ ctx.md = some d')) → d' = d := by
      intro d' h'
      rcases hd with h | ⟨h1, h2⟩ <;> rcases h' with h' | ⟨h1', h2'⟩ <;> simp_all
    by_cases h45 : md ≠ none ∧ md ≠ ctx.md ∧ len < 0
    · have hr := HMAC_Init_ex_rejected_aux E ctx (some k) len md
        ⟨h45.1, h45.2.1, Or.inr h45.2.2⟩
      refine ⟨0, ctx, hr, fun _ => ⟨rfl, rfl, rfl, rfl⟩, ?_⟩
      intro d' hd'
      have := h45.2.2
      exact ⟨fun h0 => by omega, fun h0 => Or.inl rfl⟩
    · rw [HMAC_Init_ex_key E ctx k len md d hd h45]
      by_cases hlen : len ≤ ((E.digest d).block_size : Int)
      · rw [setKey_short E _ k len d hBd hlen]
        by_cases hneg : len < 0
        · rw [if_pos hneg]
          simp only [if_true]
          refine ⟨0, _, rfl, fun _ => ⟨rfl, rfl, rfl, ?_⟩, ?_⟩
          · show some d = ctx.md
            rcases hd with h | ⟨h1, h2⟩
            · by_contra hne
              exact h45 ⟨by simp [h], by rw [h]; exact hne, hneg⟩
            · exact h2.symm
          · intro d' hd'
            exact ⟨fun h0 => by omega, fun h0 => Or.inl rfl⟩
        · rw [if_neg hneg]
          simp only [one_ne_zero, if_false]
          have hf := finish_frame E
            { ctx with md := some d, key := zeroFill E (memcpy ctx.key k len.toNat) len.toNat,
                       key_length := len.toNat } d true
          generalize HMAC_Init_ex.finish E
            { ctx with md := some d, key := zeroFill E (memcpy ctx.key k len.toNat) len.toNat,
                       key_length := len.toNat } d true = fin at hf ⊢
          obtain ⟨r, c'⟩ := fin
          simp only at hf
          refine ⟨r, c', rfl, fun h => absurd h hneg, ?_⟩
          intro d' hd'
          have := huniq d' hd'
          subst this
          refine ⟨fun _ _ => ⟨by omega, hf.1, hf.2.1, fun hk => ?_⟩, fun h0 => by omega⟩
          rw [hf.1, zeroFill_memcpy E ctx.key k len.toNat (by omega) hkey hk (by omega)]
          simp
          omega
      · have hlong : ((E.digest d).block_size : Int) < len := by omega
        have hneg : ¬ len < 0 := by omega
        rcases setKey_long E { ctx with md := some d } k len d hBd hlong with
          ⟨c, hc, hc1, -, -⟩ | ⟨-, -, -, hc⟩
        · rw [hc]
          simp only [if_true]
          refine ⟨0, c, rfl, fun h => absurd h hneg, ?_⟩
          intro d' hd'
          have := huniq d' hd'
          subst this
          exact ⟨fun _ h0 => by omega, fun _ => Or.inl hc1⟩
        · rw [hc]
          simp only [one_ne_zero, if_false]
          have hf := finish_frame E
            { ctx with
              md := some d
              md_ctx := ⟨some d, k.take len.toNat⟩
              key := zeroFill E (memcpy ctx.key ((E.digest d).H (k.take len.toNat))
                ((E.digest d).H (k.take len.toNat)).length)
                (((E.digest d).H (k.take len.toNat)).length % 2 ^ 32)
              key_length := ((E.digest d).H (k.take len.toNat)).length % 2 ^ 32 } d true
          generalize HMAC_Init_ex.finish E
            { ctx with
              md := some d
              md_ctx := ⟨some d, k.take len.toNat⟩
              key := zeroFill E (memcpy ctx.key ((E.digest d).H (k.take len.toNat))
                ((E.digest d).H (k.take len.toNat)).length)
                (((E.digest d).H (k.take len.toNat)).length % 2 ^ 32)
              key_length := ((E.digest d).H (k.take len.toNat)).length % 2 ^ 32 } d true
            = fin at hf ⊢
          obtain ⟨r, c'⟩ := fin
          simp only at hf
          refine ⟨r, c', rfl, fun h => absurd h hneg, ?_⟩
          intro d' hd'
          have := huniq d' hd'
          subst this
          exact ⟨fun _ h0 => by omega, fun _ => Or.inr hf.1⟩
  · have hmd : md = none := by
      cases md with
      | none => rfl
      | some d => exact absurd ⟨d, Or.inl rfl⟩ hd
    have hcm : ctx.md = none := by
      cases h : ctx.md with
      | none => rfl
      | some d => exact absurd ⟨d, Or.inr ⟨hmd, h⟩⟩ hd
    have hr := HMAC_Init_ex_norun_aux E ctx (some k) len hcm
    subst hmd
    refine ⟨0, ctx, hr, fun _ => ⟨rfl, rfl, rfl, rfl⟩, ?_⟩
    intro d' hd'
    exact absurd ⟨d', hd'⟩ hd

theorem HMAC_Init_ex_key_copy_in_bounds_witness :
    (∃ r ctx', HMAC_Init_ex sumEnv blankCtx (some [1, 2, 3]) 3 (some 1) = some (r, ctx') ∧
        ctx'.key = [1, 2, 3, 0, 0, 0, 0, 0] ∧ ctx'.key_length = 3) ∧
      (∃ r ctx', HMAC_Init_ex sumEnv { blankCtx with md := some 1 } (some [1, 2, 3]) (-2) none
          = some (r, ctx') ∧
        r = 0 ∧ ctx'.key = [9, 9, 9, 9, 9, 9, 9, 9] ∧ ctx'.key_length = 0 ∧
        ctx'.md = some 1) := by
  constructor
  · obtain ⟨r, c, h, -, h2⟩ := HMAC_Init_ex_key_copy_in_bounds sumEnv blankCtx [1, 2, 3] 3
      (some 1) (fun _ _ => Nat.le_of_ble_eq_true rfl) (by decide) rfl
    obtain ⟨-, hk, hl, -⟩ := (h2 1 (Or.inl rfl)).1 (by decide) (by decide)
    exact ⟨r, c, h, hk.trans (by decide), hl⟩
  · obtain ⟨r, c, h, h1, -⟩ := HMAC_Init_ex_key_copy_in_bounds sumEnv
      { blankCtx with md := some 1 } [1, 2, 3] (-2) none (fun _ _ => Nat.le_of_ble_eq_true rfl) (by decide) rfl
    exact ⟨r, c, h, h1 (by decide)⟩

theorem xorPad_eq_map (E : Env) (c : Nat) (key : List Nat)
    (h : key.length = E.HMAC_MAX_MD_CBLOCK) : xorPad E c key = key.map (xorByte c) := by
  unfold xorPad
  apply List.ext_getElem
  · simp [h]
  · intro i h1 h2
    simp only [List.length_map] at h2
    simp [List.getElem?_eq_getElem h2]

theorem take_append_replicate (l : List Nat) (B C : Nat) (h1 : l.length ≤ B) (h2 : B ≤ C) :
    (l ++ List.replicate (C - l.length) 0).take B = l ++ List.replicate (B - l.length) 0 := by
  rw [List.take_append_eq_append_take, List.take_of_length_le h1, List.take_replicate]
  congr 2
  omega

/-- The pads and the copy, in normal form: they succeed exactly when the four
digest calls on the two pads do, and the three digest contexts then hold the
pads. -/
theorem finish_true_eq (E : Env) (c : HMAC_CTX) (d : Nat) :
    HMAC_Init_ex.finish E c d true
      = if (E.digest d).init_ok = true ∧
          (E.digest d).update_ok [] ((xorPad E 0x36 c.key).take (E.digest d).block_size) = true ∧
          (E.digest d).update_ok [] ((xorPad E 0x5c c.key).take (E.digest d).block_size) = true ∧
          (E.digest d).copy_ok ((xorPad E 0x36 c.key).take (E.digest d).block_size) = true
        then (1, { c with
          md_ctx := ⟨some d, (xorPad E 0x36 c.key).take (E.digest d).block_size⟩
          i_ctx := ⟨some d, (xorPad E 0x36 c.key).take (E.digest d).block_size⟩
          o_ctx := ⟨some d, (xorPad E 0x5c c.key).take (E.digest d).block_size⟩ })
        else (0, (HMAC_Init_ex.finish E c d true).2) := by
  unfold HMAC_Init_ex.finish HMAC_Init_ex.setPads EVP_DigestInit_ex
  by_cases hi : (E.digest d).init_ok = true
  · simp only [hi, if_true, true_and]
    unfold EVP_DigestUpdate
    simp only [List.nil_append]
    by_cases hu1 : (E.digest d).update_ok []
        ((xorPad E 0x36 c.key).take (E.digest d).block_size) = true
    · simp only [hu1, if_true, true_and]
      by_cases hu2 : (E.digest d).update_ok []
          ((xorPad E 0x5c c.key).take (E.digest d).block_size) = true
      · simp only [hu2, if_true, true_and, one_ne_zero, if_false]
        unfold EVP_MD_CTX_copy_ex
        simp only []
        by_cases hc : (E.digest d).copy_ok
            ((xorPad E 0x36 c.key).take (E.digest d).block_size) = true
        · simp only [hc, if_true]
        · simp only [hc]
          rfl
      · simp only [hu2, false_and]
        rfl
    · simp only [hu1, false_and]
      rfl
  · simp only [hi, false_and]
    rfl

/-- Without `reset` only the copy of the inner context is made. -/
theorem finish_false_eq (E : Env) (c : HMAC_CTX) (d : Nat) (x : List Nat)
    (hi : c.i_ctx = ⟨some d, x⟩) (hc : (E.digest d).copy_ok x = true) :
    HMAC_Init_ex.finish E c d false = (1, { c with md_ctx := c.i_ctx }) := by
  unfold HMAC_Init_ex.finish EVP_MD_CTX_copy_ex
  simp [hi, hc]

/-- `HMAC_Update` writes the running context only. -/
theorem HMAC_Update_frame (E : Env) (c : HMAC_CTX) (x : List Nat) :
    (HMAC_Update E c x).2 = { c with md_ctx := (HMAC_Update E c x).2.md_ctx } := by
  unfold HMAC_Update
  repeat' split
  all_goals rfl

/-- `HMAC_Final` writes the running context only. -/
theorem HMAC_Final_frame (E : Env) (c : HMAC_CTX) :
    (HMAC_Final E c).2.1 = { c with md_ctx := (HMAC_Final E c).2.1.md_ctx } := by
  unfold HMAC_Final
  repeat' split
  all_goals rfl

theorem updates_frame (E : Env) (ds : List (List Nat)) (c : HMAC_CTX) :
    updates E c ds = { c with md_ctx := (updates E c ds).md_ctx } := by
  induction ds generalizing c with
  | nil => rfl
  | cons x ds ih =>
    rw [updates]
    have h1 := ih (HMAC_Update E c x).2
    have h2 := HMAC_Update_frame E c x
    rw [h1]
    generalize (updates E (HMAC_Update E c x).2 ds).md_ctx = mc
    rw [h2]

/-- One `HMAC_Update` and the `HMAC_Final` on a context whose running and
outer contexts hold `x` and `y`, when the digest calls succeed. -/
theorem HMAC_Update_Final_ok (E : Env) (c : HMAC_CTX) (d d' : Nat) (x y m : List Nat)
    (hmd : c.md = some d') (hx : c.md_ctx = ⟨some d, x⟩) (hy : c.o_ctx = ⟨some d, y⟩)
    (hu : ∀ a b, (E.digest d).update_ok a b = true)
    (hf : ∀ a, (E.digest d).final_ok a = true)
    (hc : ∀ a, (E.digest d).copy_ok a = true) :
    (HMAC_Update E c m).1 = 1 ∧ (HMAC_Final E (HMAC_Update E c m).2).1 = 1 ∧
      (HMAC_Final E (HMAC_Update E c m).2).2.2
        = some ((E.digest d).H (y ++ (E.digest d).H (x ++ m))) := by
  have h1 : HMAC_Update E c m = (1, { c with md_ctx := ⟨some d, x ++ m⟩ }) := by
    unfold HMAC_Update EVP_DigestUpdate
    simp [hmd, hx, hu]
  rw [h1]
  unfold HMAC_Final EVP_DigestFinal_ex EVP_MD_CTX_copy_ex EVP_DigestUpdate
  simp [hmd, hy, hu, hf, hc]

/-- The key branch for a key longer than one block when the three digest calls
on it succeed. -/
theorem setKey_long_ok (E : Env) (ctx : HMAC_CTX) (k : List Nat) (len : Int) (d : Nat)
    (hB : (E.digest d).block_size ≤ E.HMAC_MAX_MD_CBLOCK)
    (hlen : ((E.digest d).block_size : Int) < len)
    (hi : (E.digest d).init_ok = true)
    (hu : (E.digest d).update_ok [] (k.take len.toNat) = true)
    (hf : (E.digest d).final_ok (k.take len.toNat) = true) :
    HMAC_Init_ex.setKey E ctx k len d
      = some (1, { ctx with
          md_ctx := ⟨some d, k.take len.toNat⟩
          key := zeroFill E (memcpy ctx.key ((E.digest d).H (k.take len.toNat))
            ((E.digest d).H (k.take len.toNat)).length)
            (((E.digest d).H (k.take len.toNat)).length % 2 ^ 32)
          key_length := ((E.digest d).H (k.take len.toNat)).length % 2 ^ 32 }) := by
  rcases setKey_long E ctx k len d hB hlen with ⟨c, hc, -⟩ | ⟨-, -, -, hc⟩
  · exfalso
    revert hc
    unfold HMAC_Init_ex.setKey EVP_DigestInit_ex EVP_DigestUpdate EVP_DigestFinal_ex
    have h1 : ¬ E.HMAC_MAX_MD_CBLOCK < (E.digest d).block_size := by omega
    simp [h1, hlen, hi, hu, hf]
  · exact hc

/-- The key buffer after the key branch, cut to one block, is the key block of
the reference definition. -/
theorem keyBlock_short (E : Env) (buf k : List Nat) (H : List Nat → List Nat) (B : Nat)
    (hC : E.HMAC_MAX_MD_CBLOCK < 2 ^ 31) (hbuf : buf.length = E.HMAC_MAX_MD_CBLOCK)
    (hB : B ≤ E.HMAC_MAX_MD_CBLOCK) (hk : k.length ≤ B) :
    (zeroFill E (memcpy buf k k.length) k.length).length = E.HMAC_MAX_MD_CBLOCK ∧
      (zeroFill E (memcpy buf k k.length) k.length).take B = hmacKeyBlock H B k := by
  rw [zeroFill_memcpy E buf k k.length (by omega) hbuf le_rfl (by omega)]
  rw [List.take_length, take_append_replicate k B _ hk hB]
  refine ⟨by simp; omega, ?_⟩
  unfold hmacKeyBlock
  rw [if_pos hk]

theorem keyBlock_long (E : Env) (buf k : List Nat) (H : List Nat → List Nat) (B : Nat)
    (hC : E.HMAC_MAX_MD_CBLOCK < 2 ^ 31) (hbuf : buf.length = E.HMAC_MAX_MD_CBLOCK)
    (hB : B ≤ E.HMAC_MAX_MD_CBLOCK) (hk : B < k.length) (hH : (H k).length ≤ B) :
    (zeroFill E (memcpy buf (H k) (H k).length) ((H k).length % 2 ^ 32)).length
        = E.HMAC_MAX_MD_CBLOCK ∧
      (zeroFill E (memcpy buf (H k) (H k).length) ((H k).length % 2 ^ 32)).take B
        = hmacKeyBlock H B k := by
  have hmod : (H k).length % 2 ^ 32 = (H k).length := by omega
  rw [hmod, zeroFill_memcpy E buf (H k) (H k).length (by omega) hbuf le_rfl (by omega)]
  rw [List.take_length, take_append_replicate (H k) B _ hH hB]
  refine ⟨by simp; omega, ?_⟩
  unfold hmacKeyBlock
  rw [if_neg (by omega)]

/-! ## HMAC: the computed value (C12) -/

/-- C12: for a digest with hash function `H` and block size `B` at most
`HMAC_MAX_MD_CBLOCK` (whose digest values have at most `B` bytes), a key `k`
of `len = |k|` bytes and a message `m`, when every digest call succeeds,
`HMAC` writes `H((K xor 0x5c..) || H((K xor 0x36..) || m))`, `K` being `k`
padded with zero bytes to `B` bytes when `len <= B` and `H(k)` padded with
zero bytes to `B` bytes otherwise. -/
theorem HMAC_eq_hmacRef (E : Env) (c : HMAC_CTX) (d : Nat) (k m : List Nat)
    (hB : (E.digest d).block_size ≤ E.HMAC_MAX_MD_CBLOCK)
    (hC : E.HMAC_MAX_MD_CBLOCK < 2 ^ 31) (hkey : c.key.length = E.HMAC_MAX_MD_CBLOCK)
    (hH : ∀ x, ((E.digest d).H x).length ≤ (E.digest d).block_size)
    (hi : (E.digest d).init_ok = true)
    (hu : ∀ a b, (E.digest d).update_ok a b = true)
    (hf : ∀ a, (E.digest d).final_ok a = true)
    (hc : ∀ a, (E.digest d).copy_ok a = true) :
    HMAC E c (some d) (some k) (k.length : Int) m
      = some (some (hmacRef (E.digest d).H (E.digest d).block_size k m)) := by
  have hfin : ∀ c2 : HMAC_CTX, c2.md = some d → c2.key.length = E.HMAC_MAX_MD_CBLOCK →
      c2.key.take (E.digest d).block_size
        = hmacKeyBlock (E.digest d).H (E.digest d).block_size k →
      (match (some (1, c2) : Option (Int × HMAC_CTX)) with
        | none => none
        | some (r, ctx2) =>
          if r = 0 then some (0, ctx2) else some (HMAC_Init_ex.finish E ctx2 d true))
        = some (1, { c2 with
          md_ctx := ⟨some d, (hmacKeyBlock (E.digest d).H (E.digest d).block_size k).map
            (xorByte 0x36)⟩
          i_ctx := ⟨some d, (hmacKeyBlock (E.digest d).H (E.digest d).block_size k).map
            (xorByte 0x36)⟩
          o_ctx := ⟨some d, (hmacKeyBlock (E.digest d).H (E.digest d).block_size k).map
            (xorByte 0x5c)⟩ }) := by
    intro c2 hmd hlen htake
    simp only [one_ne_zero, if_false]
    rw [finish_true_eq, if_pos ⟨hi, hu _ _, hu _ _, hc _⟩]
    rw [xorPad_eq_map E _ _ hlen, xorPad_eq_map E _ _ hlen, ← List.map_take, ← List.map_take,
      htake]
  have hinit : ∃ c1, HMAC_Init E (HMAC_CTX_init c) (some k) (k.length : Int) (some d)
      = some (1, c1) ∧ c1.md = some d ∧
      c1.md_ctx = ⟨some d, (hmacKeyBlock (E.digest d).H (E.digest d).block_size k).map
            (xorByte 0x36)⟩ ∧
      c1.o_ctx = ⟨some d, (hmacKeyBlock (E.digest d).H (E.digest d).block_size k).map
            (xorByte 0x5c)⟩ := by
    unfold HMAC_Init
    rw [if_pos (by simp)]
    rw [HMAC_Init_ex_key E _ k _ (some d) d (Or.inl rfl) (by omega)]
    have hlen0 : ((k.length : Int)).toNat = k.length := by simp
    by_cases hk : k.length ≤ (E.digest d).block_size
    · rw [setKey_short E _ k _ d hB (by exact_mod_cast hk), if_neg (by omega), hlen0]
      obtain ⟨h1, h2⟩ := keyBlock_short E c.key k (E.digest d).H _ hC hkey hB hk
      rw [hfin _ rfl h1 h2]
      exact ⟨_, rfl, rfl, rfl, rfl⟩
    · have hk' : (E.digest d).block_size < k.length := by omega
      rw [setKey_long_ok E _ k _ d hB (by exact_mod_cast hk') hi (hu _ _) (hf _), hlen0,
        List.take_length]
      obtain ⟨h1, h2⟩ := keyBlock_long E c.key k (E.digest d).H _ hC hkey hB hk' (hH k)
      rw [hfin _ rfl h1 h2]
      exact ⟨_, rfl, rfl, rfl, rfl⟩
  obtain ⟨c1, h1, hmd, hx, hy⟩ := hinit
  obtain ⟨hr2, hr3, hout⟩ := HMAC_Update_Final_ok E c1 d d _ _ m hmd hx hy hu hf hc
  unfold HMAC
  rw [h1]
  simp only [one_ne_zero, if_false, hr2, hr3, hout]
  rfl

theorem HMAC_eq_hmacRef_witness :
    HMAC sumEnv blankCtx (some 1) (some [1, 2, 3, 4, 5, 6]) 6 [7, 7] = some (some [48, 2]) ∧
      HMAC sumEnv blankCtx (some 1) (some [1, 2, 3]) 3 [7, 7] = some (some [90, 2]) :=
  ⟨(HMAC_eq_hmacRef sumEnv blankCtx 1 [1, 2, 3, 4, 5, 6] [7, 7] (by decide) (by decide) rfl
      (fun _ => Nat.le_of_ble_eq_true rfl) rfl (fun _ _ => rfl) (fun _ => rfl) (fun _ => rfl)).trans rfl,
    (HMAC_eq_hmacRef sumEnv blankCtx 1 [1, 2, 3] [7, 7] (by decide) (by decide) rfl
      (fun _ => Nat.le_of_ble_eq_true rfl) rfl (fun _ _ => rfl) (fun _ => rfl) (fun _ => rfl)).trans rfl⟩

theorem setKey_abort (E : Env) (ctx : HMAC_CTX) (k : List Nat) (len : Int) (d : Nat)
    (hB : E.HMAC_MAX_MD_CBLOCK < (E.digest d).block_size) :
    HMAC_Init_ex.setKey E ctx k len d = none := by
  unfold HMAC_Init_ex.setKey
  simp [hB]

/-- The key buffer after a digest was written to it does not depend on what
the buffer held before. -/
theorem zeroFill_memcpy_indep (E : Env) (b b' out : List Nat)
    (hC : E.HMAC_MAX_MD_CBLOCK < 2 ^ 31) (hb : b.length = E.HMAC_MAX_MD_CBLOCK)
    (hb' : b'.length = E.HMAC_MAX_MD_CBLOCK) :
    zeroFill E (memcpy b out out.length) (out.length % 2 ^ 32)
      = zeroFill E (memcpy b' out out.length) (out.length % 2 ^ 32) := by
  by_cases h : out.length ≤ E.HMAC_MAX_MD_CBLOCK
  · have hmod : out.length % 2 ^ 32 = out.length := by omega
    rw [hmod, zeroFill_memcpy E b out _ (by omega) hb le_rfl h,
      zeroFill_memcpy E b' out _ (by omega) hb' le_rfl h]
  · have h1 : memcpy b out out.length = memcpy b' out out.length := by
      unfold memcpy
      rw [List.drop_of_length_le (by omega), List.drop_of_length_le (by omega)]
    rw [h1]

/-- A successful `HMAC_Init_ex` with a key and a digest: the context it leaves
has the inner pad in the running and in the inner context, the copy of the
inner context succeeds again, and every other context with a key buffer of the
declared size is left in the same state by the same call. -/
theorem HMAC_Init_ex_success_form (E : Env) (ctx : HMAC_CTX) (k : List Nat) (len : Int)
    (d : Nat) (c1 : HMAC_CTX)
    (hC : E.HMAC_MAX_MD_CBLOCK < 2 ^ 31) (hkey : ctx.key.length = E.HMAC_MAX_MD_CBLOCK)
    (hk : len.toNat ≤ k.length)
    (h1 : HMAC_Init_ex E ctx (some k) len (some d) = some (1, c1)) :
    (∃ ip, c1.md = some d ∧ c1.md_ctx = ⟨some d, ip⟩ ∧ c1.i_ctx = ⟨some d, ip⟩ ∧
        (E.digest d).copy_ok ip = true) ∧
      ∀ ctx' : HMAC_CTX, ctx'.key.length = E.HMAC_MAX_MD_CBLOCK →
        HMAC_Init_ex E ctx' (some k) len (some d) = some (1, c1) := by
  have hnn : 0 ≤ len := by
    by_contra hneg
    have hneg : len < 0 := by omega
    by_cases h45 : (some d : Option Nat) ≠ none ∧ some d ≠ ctx.md ∧ len < 0
    · rw [HMAC_Init_ex_rejected_aux E ctx (some k) len (some d)
        ⟨h45.1, h45.2.1, Or.inr hneg⟩] at h1
      simp at h1
    · rw [HMAC_Init_ex_key E ctx k len (some d) d (Or.inl rfl) h45] at h1
      by_cases hB : (E.digest d).block_size ≤ E.HMAC_MAX_MD_CBLOCK
      · rw [setKey_short E _ k len d hB (by omega), if_pos hneg] at h1
        simp at h1
      · rw [setKey_abort E _ k len d (by omega)] at h1
        simp at h1
  have h45 : ∀ c : HMAC_CTX, ¬ ((some d : Option Nat) ≠ none ∧ some d ≠ c.md ∧ len < 0) := by
    intro c h
    omega
  rw [HMAC_Init_ex_key E ctx k len (some d) d (Or.inl rfl) (h45 ctx)] at h1
  have hB : (E.digest d).block_size ≤ E.HMAC_MAX_MD_CBLOCK := by
    by_contra hB
    rw [setKey_abort E _ k len d (by omega)] at h1
    simp at h1
  have hfinish : ∀ (c2 c2' : HMAC_CTX), HMAC_Init_ex.finish E c2 d true = (1, c1) →
      c2.md = some d → c2'.md = c2.md → c2'.key = c2.key →
      c2'.key_length = c2.key_length →
      (∃ ip, c1.md = some d ∧ c1.md_ctx = ⟨some d, ip⟩ ∧ c1.i_ctx = ⟨some d, ip⟩ ∧
          (E.digest d).copy_ok ip = true) ∧
        HMAC_Init_ex.finish E c2' d true = (1, c1) := by
    intro c2 c2' hfin hmd2 hmd hky hkl
    rw [finish_true_eq] at hfin
    rw [finish_true_eq, hky]
    split_ifs at hfin ⊢ with hcond
    · have hc1 := (Prod.mk.inj hfin).2
      subst hc1
      refine ⟨⟨_, hmd2, rfl, rfl, hcond.2.2.2⟩, ?_⟩
      congr 1
      cases c2
      cases c2'
      simp only at hmd hky hkl
      subst hmd hky hkl
      rfl
    · simp at hfin
  have hfinish2 : ∀ (c2 c2' : HMAC_CTX), HMAC_Init_ex.finish E c2 d true = (1, c1) →
      c2.md = some d → c2'.md = c2.md → c2'.key = c2.key →
      c2'.key_length = c2.key_length → HMAC_Init_ex.finish E c2' d true = (1, c1) :=
    fun c2 c2' a b c e f => (hfinish c2 c2' a b c e f).2
  by_cases hlen : len ≤ ((E.digest d).block_size : Int)
  · rw [setKey_short E _ k len d hB hlen, if_neg (by omega)] at h1
    simp only [one_ne_zero, if_false, Option.some.injEq] at h1
    obtain ⟨hform, -⟩ := hfinish _ _ h1 rfl rfl rfl rfl
    refine ⟨hform, fun ctx' hkey' => ?_⟩
    rw [HMAC_Init_ex_key E ctx' k len (some d) d (Or.inl rfl) (h45 ctx'),
      setKey_short E _ k len d hB hlen, if_neg (by omega)]
    simp only [one_ne_zero, if_false, Option.some.injEq]
    refine hfinish2 _ _ h1 rfl rfl ?_ rfl
    show zeroFill E (memcpy ctx'.key k len.toNat) len.toNat
      = zeroFill E (memcpy ctx.key k len.toNat) len.toNat
    rw [zeroFill_memcpy E ctx.key k _ (by omega) hkey hk (by omega),
      zeroFill_memcpy E ctx'.key k _ (by omega) hkey' hk (by omega)]
  · have hlong : ((E.digest d).block_size : Int) < len := by omega
    rcases setKey_long E { ctx with md := some d } k len d hB hlong with
      ⟨c, hc, -⟩ | ⟨hi, hu, hf, hc⟩
    · rw [hc] at h1
      simp at h1
    · rw [hc] at h1
      simp only [one_ne_zero, if_false, Option.some.injEq] at h1
      obtain ⟨hform, -⟩ := hfinish _ _ h1 rfl rfl rfl rfl
      refine ⟨hform, fun ctx' hkey' => ?_⟩
      rw [HMAC_Init_ex_key E ctx' k len (some d) d (Or.inl rfl) (h45 ctx'),
        setKey_long_ok E _ k len d hB hlong hi hu hf]
      simp only [one_ne_zero, if_false, Option.some.injEq]
      refine hfinish2 _ _ h1 rfl rfl ?_ rfl
      exact zeroFill_memcpy_indep E ctx'.key ctx.key _ hC hkey' hkey

/-! ## HMAC: re-initialisation without key and digest (C16) -/

/-- C16: after a successful `HMAC_Init_ex(ctx, key, len, md)` with a key and a
digest, any sequence of `HMAC_Update` calls and a `HMAC_Final`, the call
`HMAC_Init_ex(ctx, NULL, 0, NULL)` returns 1, keeps the stored key, key length
and digest, and leaves the context in the state in which the same
initialisation leaves a fresh context, so that a following `HMAC_Update(m)`
and `HMAC_Final` return the same values and the same MAC on both. -/
theorem HMAC_Init_ex_reinit (E : Env) (ctx fresh : HMAC_CTX) (k : List Nat) (len : Int)
    (d : Nat) (ctx1 : HMAC_CTX) (ds : List (List Nat)) (m : List Nat)
    (hC : E.HMAC_MAX_MD_CBLOCK < 2 ^ 31) (hkey : ctx.key.length = E.HMAC_MAX_MD_CBLOCK)
    (hfresh : fresh.key.length = E.HMAC_MAX_MD_CBLOCK) (hk : len.toNat ≤ k.length)
    (h1 : HMAC_Init_ex E ctx (some k) len (some d) = some (1, ctx1)) :
    ∃ ctx3 ctxF,
      HMAC_Init_ex E (HMAC_Final E (updates E ctx1 ds)).2.1 none 0 none = some (1, ctx3) ∧
      ctx3.key = ctx1.key ∧ ctx3.key_length = ctx1.key_length ∧ ctx3.md = ctx1.md ∧
      HMAC_Init_ex E (HMAC_CTX_init fresh) (some k) len (some d) = some (1, ctxF) ∧
      HMAC_Update E ctx3 m = HMAC_Update E ctxF m ∧
      HMAC_Final E (HMAC_Update E ctx3 m).2 = HMAC_Final E (HMAC_Update E ctxF m).2 := by
  obtain ⟨⟨ip, hmd, hmc, hic, hcopy⟩, hindep⟩ :=
    HMAC_Init_ex_success_form E ctx k len d ctx1 hC hkey hk h1
  have h2 : (HMAC_Final E (updates E ctx1 ds)).2.1
      = { ctx1 with md_ctx := (HMAC_Final E (updates E ctx1 ds)).2.1.md_ctx } := by
    have hF := HMAC_Final_frame E (updates E ctx1 ds)
    have hU := updates_frame E ds ctx1
    rw [hF]
    generalize (HMAC_Final E (updates E ctx1 ds)).2.1.md_ctx = mc
    rw [hU]
  have h3 : HMAC_Init_ex E (HMAC_Final E (updates E ctx1 ds)).2.1 none 0 none
      = some (1, ctx1) := by
    rw [h2]
    generalize (HMAC_Final E (updates E ctx1 ds)).2.1.md_ctx = mc
    clear h2 h1 hindep
    cases ctx1
    simp only at hmd hmc hic
    subst hmd hmc hic
    rw [HMAC_Init_ex.eq_def, if_neg (by simp)]
    simp only []
    rw [finish_false_eq E _ d ip rfl hcopy]
  exact ⟨ctx1, ctx1, h3, rfl, rfl, rfl, hindep _ hfresh, rfl, rfl⟩

theorem HMAC_Init_ex_reinit_witness :
    ∃ ctx3 ctxF,
      HMAC_Init_ex sumEnv
          (HMAC_Final sumEnv (updates sumEnv
            { md := some 1, md_ctx := ⟨some 1, [55, 52, 53, 54]⟩,
              i_ctx := ⟨some 1, [55, 52, 53, 54]⟩, o_ctx := ⟨some 1, [93, 94, 95, 92]⟩,
              key_length := 3, key := [1, 2, 3, 0, 0, 0, 0, 0] } [[5], [6, 6]])).2.1
          none 0 none = some (1, ctx3) ∧
      ctx3.key = [1, 2, 3, 0, 0, 0, 0, 0] ∧ ctx3.key_length = 3 ∧ ctx3.md = some 1 ∧
      HMAC_Init_ex sumEnv (HMAC_CTX_init { blankCtx with key := [0, 1, 2, 3, 4, 5, 6, 7] })
          (some [1, 2, 3]) 3 (some 1) = some (1, ctxF) ∧
      HMAC_Update sumEnv ctx3 [7, 7] = HMAC_Update sumEnv ctxF [7, 7] ∧
      HMAC_Final sumEnv (HMAC_Update sumEnv ctx3 [7, 7]).2
        = HMAC_Final sumEnv (HMAC_Update sumEnv ctxF [7, 7]).2 :=
  HMAC_Init_ex_reinit sumEnv blankCtx { blankCtx with key := [0, 1, 2, 3, 4, 5, 6, 7] }
    [1, 2, 3] 3 1 _ [[5], [6, 6]] [7, 7] (by decide) rfl rfl (by decide) rfl

end OpenSSL

namespace rocksdb

/-! ## SnapshotList: representation lemmas -/

theorem Linked_frame (mem mem' : Heap) (ys : List Ptr) (x : Ptr)
    (h : Linked mem x ys)
    (hn : ∀ q, q = x ∨ q ∈ ys → (mem' q).next_ = (mem q).next_)
    (hp : ∀ q, q ∈ ys ∨ q = 0 → (mem' q).prev_ = (mem q).prev_) :
    Linked mem' x ys := by
  induction ys generalizing x with
  | nil =>
    obtain ⟨h1, h2⟩ := h
    exact ⟨by rw [hn x (Or.inl rfl), h1], by rw [hp 0 (Or.inr rfl), h2]⟩
  | cons y ys ih =>
    obtain ⟨h1, h2, h3⟩ := h
    refine ⟨by rw [hn x (Or.inl rfl), h1], by rw [hp y (Or.inl (List.mem_cons_self _ _)), h2],
      ih y h3 ?_ ?_⟩
    · intro q hq
      apply hn
      rcases hq with hq | hq
      · exact Or.inr (hq ▸ List.mem_cons_self _ _)
      · exact Or.inr (List.mem_cons_of_mem _ hq)
    · intro q hq
      apply hp
      rcases hq with hq | hq
      · exact Or.inl (List.mem_cons_of_mem _ hq)
      · exact Or.inr hq

/-- The `prev_` of the head is the last node of the chain. -/
theorem Linked_head_prev (mem : Heap) (ys : List Ptr) (x : Ptr) (h : Linked mem x ys) :
    (mem 0).prev_ = (ys.getLast?).getD x := by
  induction ys generalizing x with
  | nil => exact h.2
  | cons y ys ih =>
    rw [ih y h.2.2]
    cases ys with
    | nil => rfl
    | cons z zs =>
      rw [List.getLast?_cons_cons]
      cases hl : (z :: zs).getLast? with
      | none => simp at hl
      | some a => rfl

theorem Linked_head_prev_mem (mem : Heap) (ys : List Ptr) (x : Ptr) (h : Linked mem x ys) :
    (mem 0).prev_ = x ∨ (mem 0).prev_ ∈ ys := by
  rw [Linked_head_prev mem ys x h]
  cases hl : ys.getLast? with
  | none => exact Or.inl rfl
  | some a => exact Or.inr (List.mem_of_getLast?_eq_some hl)

/-- The `prev_` of a node of the chain is the start of the chain or a node of
the chain. -/
theorem Linked_prev_mem (mem : Heap) (ys : List Ptr) (x s : Ptr) (h : Linked mem x ys)
    (hs : s ∈ ys) : (mem s).prev_ = x ∨ (mem s).prev_ ∈ ys := by
  induction ys generalizing x with
  | nil => simp at hs
  | cons y ys ih =>
    obtain ⟨h1, h2, h3⟩ := h
    rcases List.mem_cons.1 hs with hs | hs
    · subst hs
      exact Or.inl h2
    · rcases ih y h3 hs with h | h
      · exact Or.inr (h ▸ List.mem_cons_self _ _)
      · exact Or.inr (List.mem_cons_of_mem _ h)

/-- The `next_` of a node of the chain is a node of the chain or the head. -/
theorem Linked_next_mem (mem : Heap) (ys : List Ptr) (x s : Ptr) (h : Linked mem x ys)
    (hs : s = x ∨ s ∈ ys) : (mem s).next_ ∈ ys ∨ (mem s).next_ = 0 := by
  induction ys generalizing x with
  | nil =>
    rcases hs with hs | hs
    · subst hs
      exact Or.inr h.1
    · simp at hs
  | cons y ys ih =>
    obtain ⟨h1, h2, h3⟩ := h
    rcases hs with hs | hs
    · subst hs
      exact Or.inl (h1 ▸ List.mem_cons_self _ _)
    · have hs' : s = y ∨ s ∈ ys := List.mem_cons.1 hs
      rcases ih y h3 hs' with h | h
      · exact Or.inl (List.mem_cons_of_mem _ h)
      · exact Or.inr h

theorem setNext_fields (mem : Heap) (p v q : Ptr) :
    (setNext mem p v q).next_ = (if q = p then v else (mem q).next_) ∧
      (setNext mem p v q).prev_ = (mem q).prev_ ∧
      (setNext mem p v q).number_ = (mem q).number_ := by
  unfold setNext
  by_cases h : q = p
  · subst h
    simp
  · simp [h]

theorem setPrev_fields (mem : Heap) (p v q : Ptr) :
    (setPrev mem p v q).prev_ = (if q = p then v else (mem q).prev_) ∧
      (setPrev mem p v q).next_ = (mem q).next_ ∧
      (setPrev mem p v q).number_ = (mem q).number_ := by
  unfold setPrev
  by_cases h : q = p
  · subst h
    simp
  · simp [h]

theorem setNumber_fields (mem : Heap) (p : Ptr) (v : SequenceNumber) (q : Ptr) :
    (setNumber mem p v q).number_ = (if q = p then v else (mem q).number_) ∧
      (setNumber mem p v q).next_ = (mem q).next_ ∧
      (setNumber mem p v q).prev_ = (mem q).prev_ := by
  unfold setNumber
  by_cases h : q = p
  · subst h
    simp
  · simp [h]

theorem setTime_fields (mem : Heap) (p : Ptr) (v : Int) (q : Ptr) :
    (setTime mem p v q).number_ = (mem q).number_ ∧
      (setTime mem p v q).next_ = (mem q).next_ ∧
      (setTime mem p v q).prev_ = (mem q).prev_ := by
  unfold setTime
  by_cases h : q = p
  · subst h
    simp
  · simp [h]

/-- The pointer and number fields after `New`. -/
theorem New_fields (l : SnapshotList) (s : Ptr) (seq : SequenceNumber) (t : Nat)
    (hs0 : s ≠ 0) (hsp : s ≠ (l.mem 0).prev_) (q : Ptr) :
    ((l.New s seq t).mem q).next_
        = (if q = s then 0 else if q = (l.mem 0).prev_ then s else (l.mem q).next_) ∧
      ((l.New s seq t).mem q).prev_
        = (if q = 0 then s else if q = s then (l.mem 0).prev_ else (l.mem q).prev_) ∧
      ((l.New s seq t).mem q).number_ = (if q = s then seq else (l.mem q).number_) := by
  have h0s : (0 : Ptr) ≠ s := fun h => hs0 h.symm
  have hps : (l.mem 0).prev_ ≠ s := fun h => hsp h.symm
  simp only [SnapshotList.New, (setNext_fields _ _ _ _).1, (setNext_fields _ _ _ _).2.1,
    (setNext_fields _ _ _ _).2.2, (setPrev_fields _ _ _ _).1, (setPrev_fields _ _ _ _).2.1,
    (setPrev_fields _ _ _ _).2.2, (setNumber_fields _ _ _ _).1, (setNumber_fields _ _ _ _).2.1,
    (setNumber_fields _ _ _ _).2.2, (setTime_fields _ _ _ _).1, (setTime_fields _ _ _ _).2.1,
    (setTime_fields _ _ _ _).2.2, if_true, if_neg h0s, if_neg hsp]
  by_cases h1 : q = s
  · subst h1
    simp [hs0, hsp]
  · by_cases h2 : q = 0
    · subst h2
      simp [h1]
    · simp [h1, h2]

/-- The pointer and number fields after `Delete`. -/
theorem Delete_fields (l : SnapshotList) (s : Ptr) (q : Ptr) :
    ((l.Delete s).mem q).next_
        = (if q = (l.mem s).prev_ then (l.mem s).next_ else (l.mem q).next_) ∧
      ((l.Delete s).mem q).prev_
        = (if q = (l.mem s).next_ then (l.mem s).prev_ else (l.mem q).prev_) ∧
      ((l.Delete s).mem q).number_ = (l.mem q).number_ := by
  simp only [SnapshotList.Delete, (setNext_fields _ _ _ _).1, (setNext_fields _ _ _ _).2.1,
    (setNext_fields _ _ _ _).2.2, (setPrev_fields _ _ _ _).1, (setPrev_fields _ _ _ _).2.1,
    (setPrev_fields _ _ _ _).2.2]
  by_cases h1 : s = (l.mem s).prev_
  · simp [← h1]
  · simp [h1]

/-- Appending a node the way `New` does keeps the chain linked. -/
theorem Linked_append (mem mem' : Heap) (s : Ptr) (ys : List Ptr) (x : Ptr)
    (h : Linked mem x ys) (hs0 : s ≠ 0) (hsx : s ≠ x) (hsy : s ∉ ys) (hxy : x ∉ ys)
    (hnd : ys.Nodup) (h0 : 0 ∉ ys)
    (hn : ∀ q, (mem' q).next_
      = (if q = s then 0 else if q = (mem 0).prev_ then s else (mem q).next_))
    (hp : ∀ q, (mem' q).prev_
      = (if q = 0 then s else if q = s then (mem 0).prev_ else (mem q).prev_)) :
    Linked mem' x (ys ++ [s]) := by
  induction ys generalizing x with
  | nil =>
    obtain ⟨h1, h2⟩ := h
    refine ⟨?_, ?_, ?_, ?_⟩
    · rw [hn, if_neg (fun e => hsx e.symm), if_pos h2.symm]
    · rw [hp, if_neg hs0, if_pos rfl, h2]
    · rw [hn, if_pos rfl]
    · rw [hp, if_pos rfl]
  | cons y ys ih =>
    obtain ⟨h1, h2, h3⟩ := h
    have hy0 : y ≠ 0 := fun e => h0 (e ▸ List.mem_cons_self _ _)
    have hys : y ≠ s := fun e => hsy (e ▸ List.mem_cons_self _ _)
    have hxp : x ≠ (mem 0).prev_ := by
      intro e
      rcases Linked_head_prev_mem mem ys y h3 with h | h
      · exact hxy (e ▸ h ▸ List.mem_cons_self _ _)
      · exact hxy (e ▸ List.mem_cons_of_mem _ h)
    refine ⟨?_, ?_, ?_⟩
    · rw [hn, if_neg (fun e => hsx e.symm), if_neg hxp, h1]
    · rw [hp, if_neg hy0, if_neg hys, h2]
    · exact ih y h3 (fun e => hys e.symm) (fun e => hsy (List.mem_cons_of_mem _ e))
        (List.nodup_cons.1 hnd).1 (List.nodup_cons.1 hnd).2
        (fun e => h0 (List.mem_cons_of_mem _ e))

/-- Unlinking a node the way `Delete` does keeps the rest of the chain
linked. -/
theorem Linked_remove (mem mem' : Heap) (s : Ptr) (ys : List Ptr) (x : Ptr)
    (h : Linked mem x ys) (hs : s ∈ ys) (hxy : x ∉ ys) (hnd : ys.Nodup) (h0 : 0 ∉ ys)
    (hn : ∀ q, (mem' q).next_
      = (if q = (mem s).prev_ then (mem s).next_ else (mem q).next_))
    (hp : ∀ q, (mem' q).prev_
      = (if q = (mem s).next_ then (mem s).prev_ else (mem q).prev_)) :
    Linked mem' x (ys.filter fun a => a ≠ s) := by
  induction ys generalizing x with
  | nil => simp at hs
  | cons y ys ih =>
    obtain ⟨h1, h2, h3⟩ := h
    have hyys : y ∉ ys := (List.nodup_cons.1 hnd).1
    have hnd' : ys.Nodup := (List.nodup_cons.1 hnd).2
    have hy0 : y ≠ 0 := fun e => h0 (e ▸ List.mem_cons_self _ _)
    have h0' : 0 ∉ ys := fun e => h0 (List.mem_cons_of_mem _ e)
    by_cases hys : y = s
    · subst hys
      have hfil : (y :: ys).filter (fun a => a ≠ y) = ys := by
        rw [List.filter_cons_of_neg (by simp)]
        apply List.filter_eq_self.2
        intro a ha
        have : a ≠ y := fun e => hyys (e ▸ ha)
        simpa using this
      rw [hfil]
      cases ys with
      | nil =>
        obtain ⟨h4, h5⟩ := h3
        exact ⟨by rw [hn, if_pos h2.symm, h4], by rw [hp, if_pos h4.symm, h2]⟩
      | cons z zs =>
        obtain ⟨h4, h5, h6⟩ := h3
        have hzzs : z ∉ zs := (List.nodup_cons.1 hnd').1
        have hz0 : z ≠ 0 := fun e => h0' (e ▸ List.mem_cons_self _ _)
        refine ⟨by rw [hn, if_pos h2.symm, h4], by rw [hp, if_pos h4.symm, h2], ?_⟩
        apply Linked_frame mem mem' zs z h6
        · intro q hq
          rw [hn, if_neg]
          rw [h2]
          intro e
          apply hxy
          rcases hq with hq | hq
          · rw [← e, hq]
            exact List.mem_cons_of_mem _ (List.mem_cons_self _ _)
          · rw [← e]
            exact List.mem_cons_of_mem _ (List.mem_cons_of_mem _ hq)
        · intro q hq
          rw [hp, if_neg]
          rw [h4]
          intro e
          rcases hq with hq | hq
          · exact hzzs (e ▸ hq)
          · exact hz0 (e ▸ hq)
    · have hs' : s ∈ ys := by
        rcases List.mem_cons.1 hs with e | e
        · exact absurd e.symm hys
        · exact e
      rw [List.filter_cons_of_pos (by simpa using hys)]
      refine ⟨?_, ?_, ih y h3 hs' hyys hnd' h0'⟩
      · rw [hn, if_neg, h1]
        intro e
        rcases Linked_prev_mem mem ys y s h3 hs' with h | h
        · exact hxy (e ▸ h ▸ List.mem_cons_self _ _)
        · exact hxy (e ▸ List.mem_cons_of_mem _ h)
      · rw [hp, if_neg, h2]
        intro e
        rcases Linked_next_mem mem ys y s h3 (Or.inr hs') with h | h
        · exact hyys (e ▸ h)
        · exact hy0 (e ▸ h)

theorem Holds_init : Holds SnapshotList.init [] := by
  refine ⟨⟨rfl, rfl⟩, List.nodup_nil, ?_, ?_⟩ <;> simp

theorem Holds_New (l : SnapshotList) (xs : List (Ptr × SequenceNumber)) (s : Ptr)
    (seq : SequenceNumber) (t : Nat) (h : Holds l xs) (hs0 : s ≠ 0)
    (hs : s ∉ xs.map Prod.fst) : Holds (l.New s seq t) (xs ++ [(s, seq)]) := by
  obtain ⟨hl, hnd, h0, hnum⟩ := h
  have hsp : s ≠ (l.mem 0).prev_ := by
    intro e
    rcases Linked_head_prev_mem l.mem _ 0 hl with h | h
    · exact hs0 (e.trans h)
    · exact hs (e ▸ h)
  have hf := New_fields l s seq t hs0 hsp
  refine ⟨?_, ?_, ?_, ?_⟩
  · rw [List.map_append]
    exact Linked_append l.mem _ s _ 0 hl hs0 hs0 hs h0 hnd h0 (fun q => (hf q).1)
      (fun q => (hf q).2.1)
  · rw [List.map_append]
    refine List.Nodup.append hnd (List.nodup_singleton _) ?_
    intro a ha hb
    simp only [List.map_cons, List.map_nil, List.mem_singleton] at hb
    exact hs (hb ▸ ha)
  · rw [List.map_append]
    simp only [List.map_cons, List.map_nil, List.mem_append, List.mem_singleton, not_or]
    exact ⟨h0, fun e => hs0 e.symm⟩
  · intro x hx
    rw [(hf x.1).2.2]
    rcases List.mem_append.1 hx with hx | hx
    · have hne : x.1 ≠ s := fun e => hs (e ▸ List.mem_map_of_mem Prod.fst hx)
      rw [if_neg hne]
      exact hnum x hx
    · simp only [List.mem_singleton] at hx
      subst hx
      simp

theorem map_fst_filter (xs : List (Ptr × SequenceNumber)) (s : Ptr) :
    (xs.filter fun x => x.1 ≠ s).map Prod.fst = (xs.map Prod.fst).filter fun a => a ≠ s := by
  rw [List.filter_map]
  rfl

theorem Holds_Delete (l : SnapshotList) (xs : List (Ptr × SequenceNumber)) (s : Ptr)
    (h : Holds l xs) (hs : s ∈ xs.map Prod.fst) :
    Holds (l.Delete s) (xs.filter fun x => x.1 ≠ s) := by
  obtain ⟨hl, hnd, h0, hnum⟩ := h
  have hf := Delete_fields l s
  refine ⟨?_, ?_, ?_, ?_⟩
  · rw [map_fst_filter]
    exact Linked_remove l.mem _ s _ 0 hl hs h0 hnd h0 (fun q => (hf q).1) (fun q => (hf q).2.1)
  · rw [map_fst_filter]
    exact hnd.filter _
  · rw [map_fst_filter]
    intro e
    exact h0 (List.mem_of_mem_filter e)
  · intro x hx
    rw [(hf x.1).2.2]
    exact hnum x (List.mem_of_mem_filter hx)

/-- Every well-formed call sequence keeps the list and the reference list of
snapshots in step. -/
theorem Holds_run (ops : List Op) (l : SnapshotList) (xs : List (Ptr × SequenceNumber))
    (h : Holds l xs) (hw : wellFormed xs ops = true) :
    Holds (l.run ops) (snapshotsAfter xs ops) := by
  induction ops generalizing l xs with
  | nil => exact h
  | cons op ops ih =>
    cases op with
    | New s seq t =>
      simp only [wellFormed, Bool.and_eq_true, decide_eq_true_eq] at hw
      exact ih _ _ (Holds_New l xs s seq t h hw.1.1 hw.1.2) hw.2
    | Delete s =>
      simp only [wellFormed, Bool.and_eq_true, decide_eq_true_eq] at hw
      exact ih _ _ (Holds_Delete l xs s h hw.1) hw.2

theorem empty_Holds (l : SnapshotList) (xs : List (Ptr × SequenceNumber)) (h : Holds l xs) :
    l.empty = true ↔ xs = [] := by
  obtain ⟨hl, hnd, h0, hnum⟩ := h
  simp only [SnapshotList.empty, decide_eq_true_eq]
  cases xs with
  | nil => simpa using hl.1
  | cons x xs =>
    simp only [reduceCtorEq, iff_false]
    intro he
    have := hl.1
    rw [he] at this
    exact h0 (this ▸ List.mem_cons_self _ _)

theorem GetNewest_Holds (l : SnapshotList) (xs : List (Ptr × SequenceNumber))
    (h : Holds l xs) :
    l.GetNewest = some ((xs.getLast?.map Prod.snd).getD 0) := by
  have he := empty_Holds l xs h
  obtain ⟨hl, hnd, h0, hnum⟩ := h
  unfold SnapshotList.GetNewest SnapshotList.newest
  by_cases hx : xs = []
  · rw [if_pos (he.2 hx), hx]
    rfl
  · have hne : ¬ l.empty = true := fun e => hx (he.1 e)
    rw [if_neg hne, if_neg hne]
    obtain ⟨a, ha⟩ : ∃ a, xs.getLast? = some a := by
      cases hg : xs.getLast? with
      | none => exact absurd (List.getLast?_eq_none_iff.1 hg) hx
      | some a => exact ⟨a, rfl⟩
    have hp := Linked_head_prev l.mem _ 0 hl
    rw [List.getLast?_map, ha] at hp
    simp only [Option.map_some', Option.getD_some] at hp
    rw [ha]
    simp only [Option.map_some', Option.getD_some, hp]
    rw [hnum a (List.mem_of_getLast?_eq_some ha)]

/-- C14: in every state reached from the empty list by calls to `New` and
`Delete`, the list is empty exactly when no snapshot is left in it, and
`GetNewest` returns 0 when the list is empty and otherwise the sequence number
passed to the most recent `New` call whose snapshot has not been deleted. -/
theorem GetNewest_most_recent (ops : List Op) (hw : wellFormed [] ops = true) :
    ((SnapshotList.init.run ops).empty = true ↔ snapshotsAfter [] ops = []) ∧
      (snapshotsAfter [] ops = [] → (SnapshotList.init.run ops).GetNewest = some 0) ∧
      (∀ x, (snapshotsAfter [] ops).getLast? = some x →
        (SnapshotList.init.run ops).GetNewest = some x.2) := by
  have hh := Holds_run ops _ _ Holds_init hw
  have hg := GetNewest_Holds _ _ hh
  refine ⟨empty_Holds _ _ hh, fun he => ?_, fun x hx => ?_⟩
  · rw [hg, he]
    rfl
  · rw [hg, hx]
    rfl

theorem GetNewest_most_recent_witness :
    (SnapshotList.init.run [Op.New 1 3 0, Op.New 2 5 0, Op.Delete 2]).GetNewest = some 3 ∧
      (SnapshotList.init.run [Op.New 1 3 0, Op.Delete 1]).GetNewest = some 0 :=
  ⟨(GetNewest_most_recent [Op.New 1 3 0, Op.New 2 5 0, Op.Delete 2] rfl).2.2 (1, 3) rfl,
    (GetNewest_most_recent [Op.New 1 3 0, Op.Delete 1] rfl).2.1 rfl⟩

end rocksdb
